import Mathlib

/-!
# Base58 codec of `@darkwolf/base58` (`src/lib/index.mjs`)

A shallow embedding of the ESM variant of the library, and of the constructor
and the codec methods of the CommonJS variant (`src/lib/index.cjs`, namespace
`CJS`).

Modelling conventions.

* A JavaScript string is the list of its UTF-16 code units (`List Nat`);
  `string[i]` is the `i`-th unit, or `undefined` (`none`) out of range.
* A `Uint8Array` is a `List Nat` whose elements are below 256; every store
  into one reduces the stored number modulo 256.
* `start` / `end` arguments are `Option Int`: `none` is `undefined`,
  `some k` an integer (`TypesToIntegerOrInfinity` is the identity on integers).
* The 32-bit operators `>>> 0`, `<< 8`, `>> 8`, `& 0xff` of the carry loops are
  modelled with explicit reduction modulo `2 ^ 32`.
* The numbers of `decodeInt` are doubles: every product and sum is rounded to
  the nearest double (`roundDouble`), or becomes `Infinity`. The integers of
  `encodeBigInt` and `decodeBigInt` are exact.
* `FACTOR = log 256 / log 58` and `INVERSE_FACTOR = log 58 / log 256` are
  taken in exact real arithmetic, so that the buffer sizes are
  `⌊m * log 256 / log 58⌋ + 1` and `⌊m * log 58 / log 256⌋ + 1`.
* The methods `encodeToString`, `decodeFromString`, `encode` and `decode` take
  these sizes before the conversion `>>> 0`. The namespace `Full` has the same
  four methods with the size converted to 32 bits and with the carry loop
  below index 0; the two agree as long as the size is below `2 ^ 32`, which for
  encode means fewer than 3144979599 bytes after the leading zero bytes.
-/

namespace Base58

/-! ## Constants -/

/-- Code units of a string literal (all literals used here are ASCII). -/
def units (s : String) : List Nat := s.toList.map Char.toNat

/-- The radix: `const BASE = 58`. -/
def BASE : Nat := 58

/-- The reference alphabet: `const ALPHABET`. -/
def ALPHABET : List Nat := units "123456789ABCDEFGHJKLMNPQRSTUVWXYZabcdefghijkmnopqrstuvwxyz"

/-- The alternate alphabet: `const DARKWOLF_ALPHABET`. -/
def DARKWOLF_ALPHABET : List Nat := units "AveDarkwo1f23456789BCEFGHJKLMNPQRSTUVWXYZbcdghijmnpqstuxyz"

/-- The text that JavaScript appends for the value `undefined`. -/
def undefinedText : List Nat := units "undefined"

/-! ## Machine arithmetic -/

/-- The operator `x >>> 0` on a non-negative integer: reduction modulo `2 ^ 32`. -/
def u32 (x : Nat) : Nat := x % 4294967296

/-- A store into a `Uint8Array` element: reduction modulo `2 ^ 8`. -/
def u8 (x : Nat) : Nat := x % 256

/-- The conversion `ToInt32` on a non-negative integer. -/
def toInt32 (x : Nat) : Int :=
  if x % 4294967296 < 2147483648 then (x % 4294967296 : Nat) else ((x % 4294967296 : Nat) : Int) - 4294967296

/-- The expression `(x << 8) >>> 0`. -/
def shl8 (x : Nat) : Nat := u32 (x * 256)

/-- The expression `(x & 0xff) >>> 0`: the low eight bits of `ToInt32 x`. -/
def and255 (x : Nat) : Nat := u32 (toInt32 x % 256).toNat

/-- The expression `(x >> 8) >>> 0`: arithmetic shift of `ToInt32 x`, read back as unsigned. -/
def sar8 (x : Nat) : Nat := ((toInt32 x / 256) % 4294967296).toNat

/-- Largest `e` with `b ^ e ≤ n` (0 when there is none), by repeated division. -/
def floorLogAux (b : Nat) : Nat → Nat → Nat
  | 0, _ => 0
  | fuel + 1, n => if b ≤ n then floorLogAux b fuel (n / b) + 1 else 0

/-- The number `⌊log n / log b⌋` for `n ≥ 1`, `b ≥ 2`. -/
def floorLog (b n : Nat) : Nat := floorLogAux b n n

/-- The size `(m) * FACTOR + 1` of the digit buffer of encode, truncated to an
integer, with `FACTOR = log 256 / log 58` exact: `⌊log (256 ^ m) / log 58⌋ + 1`.
The conversion `>>> 0` to 32 bits is in `Full.encSize`. -/
def encSize (m : Nat) : Nat := floorLog 58 (256 ^ m) + 1

/-- The size `(m) * INVERSE_FACTOR + 1` of the byte buffer of decode, truncated
to an integer, with `INVERSE_FACTOR = log 58 / log 256` exact:
`⌊log (58 ^ m) / log 256⌋ + 1`. The conversion `>>> 0` to 32 bits is in
`Full.decSize`. -/
def decSize (m : Nat) : Nat := floorLog 256 (58 ^ m) + 1

/-! ## Errors -/

/-- The errors thrown by the library: the constructor names follow the error
kinds, the comments give the JavaScript class and message. -/
inductive Error where
  /-- The message is `RangeError('The length of the alphabet must be equal to 58')`. -/
  | invalidAlphabetLength
  /-- The message is `SyntaxError('Invalid character "c" at index i for the Base58 alphabet')`. -/
  | invalidAlphabetCharacter (char index : Nat)
  /-- The message is `SyntaxError('The character "c" at index i is already in the alphabet')`. -/
  | duplicateAlphabetCharacter (char index : Nat)
  /-- The message is `SyntaxError('Invalid character "c" at index i for Base58 encoding')`. -/
  | invalidCharacter (char index : Nat)
  /-- The message is `SyntaxError('Invalid byte "hex" at index i for Base58 encoding')`. -/
  | invalidByte (code index : Nat)
  /-- The two `RangeError`s of `encodeInt`. -/
  | outOfSafeIntegerRange
  deriving DecidableEq

/-- The spec's `InvalidSymbol` kind: the decode-time `SyntaxError`s. -/
def Error.isInvalidSymbol : Error → Bool
  | .invalidCharacter _ _ => true
  | .invalidByte _ _ => true
  | _ => false

/-! ## Alphabet table -/

/-- An object made by `ObjectCreate(null)` and used as a map into digit values;
a missing key reads as `undefined` (`none`). -/
abbrev Table := Nat → Option Nat

/-- The object `ObjectCreate(null)`. -/
def Table.empty : Table := fun _ => none

/-- The assignment `table[key] = value`. -/
def Table.set (t : Table) (key value : Nat) : Table :=
  fun k => if k = key then some value else t k

/-- The three tables made by `createAlphabetLookups`. -/
structure Lookups where
  lookup : Table
  baseMap : List Nat
  baseMapLookup : Table

/-- The loop body of `createAlphabetLookups`, run over the characters
`alphabet[i]`, `alphabet[i + 1]`, ... -/
def createLoop : List Nat → Nat → Lookups → Lookups
  | [], _, t => t
  | charCode :: rest, i, t =>
    createLoop rest (i + 1)
      { lookup := t.lookup.set charCode i
        baseMap := t.baseMap.set i (u8 charCode)
        baseMapLookup := t.baseMapLookup.set charCode i }

/-- `createAlphabetLookups`: `for (let i = 0; i < BASE; i++)` over a string that
has `BASE` characters whenever this is called. -/
def createAlphabetLookups (alphabet : List Nat) : Lookups :=
  createLoop (alphabet.take BASE) 0
    { lookup := Table.empty, baseMap := List.replicate BASE 0, baseMapLookup := Table.empty }

/-- An instance of `class Base58`: the four symbol-keyed fields. -/
structure Codec where
  alphabet : List Nat
  alphabetLookup : Table
  baseMap : List Nat
  baseMapLookup : Table

/-- The body of the constructor after `toAlphabet`. -/
def Codec.ofAlphabet (alphabet : List Nat) : Codec :=
  let lookups := createAlphabetLookups alphabet
  { alphabet := alphabet
    alphabetLookup := lookups.lookup
    baseMap := lookups.baseMap
    baseMapLookup := lookups.baseMapLookup }

/-- The module's default instance: `const base58 = new Base58()`, for which
`toAlphabet(undefined)` returns `ALPHABET` without consulting any table. -/
def base58 : Codec := Codec.ofAlphabet ALPHABET

/-- The `for` loop of `toAlphabet` over `value[i]`, `value[i + 1]`, ... -/
def toAlphabetLoop (alphabetLookup : Table) : List Nat → Nat → Table → Except Error Unit
  | [], _, _ => .ok ()
  | char :: rest, i, uniqueCharsLookup =>
    if alphabetLookup char = none then
      .error (.invalidAlphabetCharacter char i)
    else if uniqueCharsLookup char ≠ none then
      .error (.duplicateAlphabetCharacter char i)
    else
      toAlphabetLoop alphabetLookup rest (i + 1) (uniqueCharsLookup.set char i)

/-- `toAlphabet`, on `undefined` (`none`) or a string. -/
def toAlphabet (value : Option (List Nat)) : Except Error (List Nat) :=
  match value with
  | none => .ok ALPHABET
  | some value =>
    if value.length ≠ BASE then
      .error .invalidAlphabetLength
    else
      match toAlphabetLoop base58.alphabetLookup (value.take BASE) 0 Table.empty with
      | .error e => .error e
      | .ok _ => .ok value

/-- `new Base58(alphabet)`. -/
def Codec.new (alphabet : Option (List Nat)) : Except Error Codec :=
  match toAlphabet alphabet with
  | .error e => .error e
  | .ok alphabet => .ok (Codec.ofAlphabet alphabet)

/-! ## Range normalisation and leading-zero run -/

/-- The normalisation of `start` / `end` against `length`:
`x < 0 ? MathMax(0, length + x) : MathMin(x, length)`, or `dflt` when `undefined`. -/
def normIndex (length : Nat) (x : Option Int) (dflt : Nat) : Nat :=
  match x with
  | none => dflt
  | some x => if x < 0 then (max 0 ((length : Int) + x)).toNat else (min x (length : Int)).toNat

/-- The loop `while (zeroCount < newLength && input[startIndex + zeroCount] === zero) zeroCount++`;
the first argument is `newLength - zeroCount`, `zero` is the compared value. -/
def zeroRun (zero : Option Nat) (input : List Nat) (startIndex : Nat) : Nat → Nat → Nat
  | 0, zeroCount => zeroCount
  | n + 1, zeroCount =>
    if input[startIndex + zeroCount]? = zero then zeroRun zero input startIndex n (zeroCount + 1)
    else zeroCount

/-! ## Carry loops

The buffer `bytes` is a `Uint8Array(size)`, a list of `size` numbers. The carry
loops walk `index` down from `size - 1`. A loop that would run its body at
`index = -1` leaves the buffer: this is reported as `none` (outcome `overrun`),
and nothing is modelled after it. -/

/-- The loop `for (; carry !== 0 || index > lastIndex; index--)` of encode, entered
with `index = n - 1` for the first argument `n`; returns the buffer and the
final `index`, or `none` when the body would run at `index = -1`. The body is
`carry += (bytes[index] << 8) >>> 0`, `bytes[index] = (carry % BASE) >>> 0`,
`carry = (carry / BASE) >>> 0`, where `>>> 0` truncates the quotient. -/
def encPass (lastIndex : Int) : Nat → List Nat → Nat → Option (List Nat × Int)
  | 0, bytes, carry =>
    if carry ≠ 0 ∨ (-1 : Int) > lastIndex then none else some (bytes, -1)
  | index + 1, bytes, carry =>
    if carry ≠ 0 ∨ (index : Int) > lastIndex then
      let carry := carry + shl8 (bytes.getD index 0)
      let bytes := bytes.set index (u8 (u32 (carry % BASE)))
      encPass lastIndex index bytes (u32 (carry / BASE))
    else some (bytes, index)

/-- The loop `for (let i = startIndex + zeroCount; i < endIndex; i++)` of encode
over the bytes `input[i]`; carries the buffer and `lastIndex`. -/
def encLoop (size : Nat) : List Nat → List Nat → Int → Option (List Nat × Int)
  | [], bytes, lastIndex => some (bytes, lastIndex)
  | carry :: rest, bytes, lastIndex =>
    match encPass lastIndex size bytes carry with
    | none => none
    | some (bytes, index) => encLoop size rest bytes index

/-- The loop `for (; carry !== 0 || index > lastIndex; index--)` of decode, entered
with `index = n - 1` for the first argument `n`; returns the buffer and the
final `index`, or `none` when the body would run at `index = -1`. The body is
`carry += (bytes[index] * BASE) >>> 0`, `bytes[index] = (carry & 0xff) >>> 0`,
`carry = (carry >> 8) >>> 0`. -/
def decPass (lastIndex : Int) : Nat → List Nat → Nat → Option (List Nat × Int)
  | 0, bytes, carry =>
    if carry ≠ 0 ∨ (-1 : Int) > lastIndex then none else some (bytes, -1)
  | index + 1, bytes, carry =>
    if carry ≠ 0 ∨ (index : Int) > lastIndex then
      let carry := carry + u32 (bytes.getD index 0 * BASE)
      let bytes := bytes.set index (u8 (and255 carry))
      decPass lastIndex index bytes (sar8 carry)
    else some (bytes, index)

/-- What a call does: it returns a value, it throws, or its carry loop leaves
the buffer. In the last case JavaScript reads `undefined` below index 0 and
goes on; the model stops there, and every statement below is about calls
shown to return or to throw. -/
inductive Outcome (α : Type) where
  | returns (value : α)
  | throws (e : Error)
  | overrun
  deriving DecidableEq

/-- The loop `for (let i = startIndex + zeroCount; i < endIndex; i++)` of
`decodeFromString` over the characters `string[i]`, from index `i` on. -/
def decLoop (alphabetLookup : Table) (size : Nat) :
    List Nat → Nat → List Nat → Int → Outcome (List Nat × Int)
  | [], _, bytes, lastIndex => .returns (bytes, lastIndex)
  | char :: rest, i, bytes, lastIndex =>
    match alphabetLookup char with
    | none => .throws (.invalidCharacter char i)
    | some carry =>
      match decPass lastIndex size bytes carry with
      | none => .overrun
      | some (bytes, index) => decLoop alphabetLookup size rest (i + 1) bytes index

/-- The same loop in `decode`, over the byte codes `input[i]`. -/
def decLoopBytes (baseMapLookup : Table) (size : Nat) :
    List Nat → Nat → List Nat → Int → Outcome (List Nat × Int)
  | [], _, bytes, lastIndex => .returns (bytes, lastIndex)
  | charCode :: rest, i, bytes, lastIndex =>
    match baseMapLookup charCode with
    | none => .throws (.invalidByte charCode i)
    | some carry =>
      match decPass lastIndex size bytes carry with
      | none => .overrun
      | some (bytes, index) => decLoopBytes baseMapLookup size rest (i + 1) bytes index

/-! ## The four codec methods -/

/-- The string `alphabet[i]` as appended to a result: one character, or the
text of `undefined` out of range. -/
def charAt (alphabet : List Nat) (i : Nat) : List Nat :=
  match alphabet[i]? with
  | some char => [char]
  | none => undefinedText

/-- The method `[encodeToStringSymbol](input, start, end)`, which `encodeToString`
calls after its type check. -/
def encodeToString (c : Codec) (input : List Nat) (start stop : Option Int) :
    Outcome (List Nat) :=
  let alphabet := c.alphabet
  let length := input.length
  let startIndex := normIndex length start 0
  let endIndex := normIndex length stop length
  let newLength := endIndex - startIndex
  let zeroCount := zeroRun (some 0) input startIndex newLength 0
  let size := encSize (newLength - zeroCount)
  let bytes := List.replicate size 0
  match encLoop size ((input.take endIndex).drop (startIndex + zeroCount)) bytes ((size : Int) - 1) with
  | none => .overrun
  | some (bytes, lastIndex) =>
    let result := if zeroCount ≠ 0 then (List.replicate zeroCount (charAt alphabet 0)).flatten else []
    .returns (result ++ ((bytes.drop (lastIndex + 1).toNat).map (charAt alphabet)).flatten)

/-- The method `[decodeFromStringSymbol](string, start, end)`, which
`decodeFromString` calls after its type check. -/
def decodeFromString (c : Codec) (string : List Nat) (start stop : Option Int) :
    Outcome (List Nat) :=
  let alphabet := c.alphabet
  let alphabetLookup := c.alphabetLookup
  let firstAlphabetChar := alphabet[0]?
  let length := string.length
  let startIndex := normIndex length start 0
  let endIndex := normIndex length stop length
  let newLength := endIndex - startIndex
  let zeroCount := zeroRun firstAlphabetChar string startIndex newLength 0
  let size := decSize (newLength - zeroCount)
  let bytes := List.replicate size 0
  match decLoop alphabetLookup size ((string.take endIndex).drop (startIndex + zeroCount))
      (startIndex + zeroCount) bytes ((size : Int) - 1) with
  | .throws e => .throws e
  | .overrun => .overrun
  | .returns (bytes, lastIndex) =>
    let index := (lastIndex + 1).toNat
    .returns (List.replicate zeroCount 0 ++ bytes.drop index)

/-- The method `encode(input, start, end)` on a `Uint8Array`. -/
def encode (c : Codec) (input : List Nat) (start stop : Option Int) : Outcome (List Nat) :=
  let baseMap := c.baseMap
  let length := input.length
  let startIndex := normIndex length start 0
  let endIndex := normIndex length stop length
  let newLength := endIndex - startIndex
  let zeroCount := zeroRun (some 0) input startIndex newLength 0
  let size := encSize (newLength - zeroCount)
  let bytes := List.replicate size 0
  match encLoop size ((input.take endIndex).drop (startIndex + zeroCount)) bytes ((size : Int) - 1) with
  | none => .overrun
  | some (bytes, lastIndex) =>
    let index := (lastIndex + 1).toNat
    .returns (List.replicate zeroCount (baseMap.getD 0 0)
      ++ (bytes.drop index).map (fun charIndex => baseMap.getD charIndex 0))

/-- The method `decode(input, start, end)` on a `Uint8Array`. -/
def decode (c : Codec) (input : List Nat) (start stop : Option Int) : Outcome (List Nat) :=
  let baseMap := c.baseMap
  let baseMapLookup := c.baseMapLookup
  let firstAlphabetCharCode := baseMap[0]?
  let length := input.length
  let startIndex := normIndex length start 0
  let endIndex := normIndex length stop length
  let newLength := endIndex - startIndex
  let zeroCount := zeroRun firstAlphabetCharCode input startIndex newLength 0
  let size := decSize (newLength - zeroCount)
  let bytes := List.replicate size 0
  match decLoopBytes baseMapLookup size ((input.take endIndex).drop (startIndex + zeroCount))
      (startIndex + zeroCount) bytes ((size : Int) - 1) with
  | .throws e => .throws e
  | .overrun => .overrun
  | .returns (bytes, lastIndex) =>
    let index := (lastIndex + 1).toNat
    .returns (List.replicate zeroCount 0 ++ bytes.drop index)

/-- A bound of standard range slicing on a sequence of `n` elements: a negative
offset `o` becomes `max(0, n + o)`, a non-negative one becomes `min(o, n)`, and
an absent one is `dflt`. -/
def sliceBound (n : Int) (x : Option Int) (dflt : Int) : Int :=
  match x with
  | none => dflt
  | some o => if o < 0 then max 0 (n + o) else min o n

/-- Standard range slicing, as `Uint8Array.prototype.slice` and
`String.prototype.slice` do it: the elements from the bound of `start`
(0 when absent) up to the bound of `end` (`n` when absent), and the empty
sequence when `end ≤ start`. -/
def slice (input : List Nat) (start stop : Option Int) : List Nat :=
  let n : Int := input.length
  let first := sliceBound n start 0
  let last := sliceBound n stop n
  if last ≤ first then [] else (input.drop first.toNat).take (last - first).toNat

/-- The elements `input[startIndex], ..., input[endIndex - 1]` that a call with
`start` and `end` works on. -/
def window (input : List Nat) (start stop : Option Int) : List Nat :=
  let startIndex := normIndex input.length start 0
  let endIndex := normIndex input.length stop input.length
  (input.take endIndex).drop startIndex

/-! ## Alphabet predicate -/

/-- The `for` loop of `isAlphabet` over `value[i]`, `value[i + 1]`, ... -/
def isAlphabetLoop (alphabetLookup : Table) : List Nat → Nat → Table → Bool
  | [], _, _ => true
  | char :: rest, i, uniqueCharsLookup =>
    if alphabetLookup char = none ∨ uniqueCharsLookup char ≠ none then false
    else isAlphabetLoop alphabetLookup rest (i + 1) (uniqueCharsLookup.set char i)

/-- The predicate `isAlphabet`, on a string. -/
def isAlphabet (value : List Nat) : Bool :=
  if value.length ≠ BASE then false
  else isAlphabetLoop base58.alphabetLookup (value.take BASE) 0 Table.empty

/-! ## Integer codecs -/

/-- The sign character: `const NEGATIVE_CHAR = '-'`. -/
def NEGATIVE_CHAR : Nat := 45

/-- The bound `NumberMAX_SAFE_INTEGER`, `2 ^ 53 - 1`; `NumberMIN_SAFE_INTEGER` is its negation. -/
def MAX_SAFE_INTEGER : Int := 9007199254740991

/-- The loop `while (number) { result = alphabet[number % BASE] + result; number = floor(number / BASE) }`
of `encodeInt` and `encodeBigInt`. The first argument bounds `number`, so that
at 0 the loop has ended. In `encodeInt` the loop runs on a double that is a
safe integer: `%` is exact, and `MathFloor(number / BASE)` is the exact
quotient, because the quotient is below `2 ^ 48`, where doubles are at most
`2 ^ -5` apart, and its fractional part is at most `57 / 58 < 1 - 2 ^ -6`. -/
def encodeIntLoop (alphabet : List Nat) : (bound number : Nat) → number ≤ bound → List Nat → List Nat
  | 0, _, _, result => result
  | bound + 1, number, h, result =>
    if hn : number ≠ 0 then
      encodeIntLoop alphabet bound (number / BASE)
        (Nat.le_of_lt_succ
          (Nat.lt_of_lt_of_le (Nat.div_lt_self (Nat.pos_of_ne_zero hn) (by decide)) h))
        (charAt alphabet (number % BASE) ++ result)
    else result

/-- The method `encodeInt(value)` on an integer. -/
def encodeInt (c : Codec) (value : Int) : Outcome (List Nat) :=
  let number := value
  if number < -MAX_SAFE_INTEGER then .throws .outOfSafeIntegerRange
  else if number > MAX_SAFE_INTEGER then .throws .outOfSafeIntegerRange
  else
    let alphabet := c.alphabet
    if number = 0 then .returns (charAt alphabet 0)
    else
      let isNegative := decide (number < 0)
      let number := if isNegative then -number else number
      let result := encodeIntLoop alphabet number.toNat number.toNat (Nat.le_refl _) []
      .returns (if isNegative then NEGATIVE_CHAR :: result else result)

/-- The method `encodeBigInt(value)` on an integer. -/
def encodeBigInt (c : Codec) (value : Int) : Outcome (List Nat) :=
  let bigInt := value
  let alphabet := c.alphabet
  if bigInt = 0 then .returns (charAt alphabet 0)
  else
    let isNegative := decide (bigInt < 0)
    let bigInt := if isNegative then -bigInt else bigInt
    let result := encodeIntLoop alphabet bigInt.toNat bigInt.toNat (Nat.le_refl _) []
    .returns (if isNegative then NEGATIVE_CHAR :: result else result)

/-- The double nearest to the natural number `x` (ties to even), as a natural
number; `2 ^ 1024` stands for the values that round to `Infinity`. -/
def roundDouble (x : Nat) : Nat :=
  if x < 9007199254740992 then x
  else
    let e := floorLog 2 x - 52
    let q := x / 2 ^ e
    let r := x % 2 ^ e
    let half := 2 ^ (e - 1)
    if r > half ∨ (r = half ∧ q % 2 = 1) then (q + 1) * 2 ^ e else q * 2 ^ e

/-- A non-negative integer as a JavaScript number: the nearest double, or
`none` for `Infinity` (the doubles end below `2 ^ 1024`). -/
def toNumber (x : Nat) : Option Nat :=
  if floorLog 2 (roundDouble x) < 1024 then some (roundDouble x) else none

/-- The expression `result * BASE + index` on numbers: two rounded operations. -/
def mulAddNumber (result : Option Nat) (index : Nat) : Option Nat :=
  match result with
  | none => none
  | some v =>
    match toNumber (v * BASE) with
    | none => none
    | some product => toNumber (product + index)

/-- A JavaScript number that is an integer or an infinity. -/
inductive Num where
  | int (value : Int)
  | infinity (negative : Bool)
  deriving DecidableEq

/-- The `for` loop of `decodeInt` over the characters `string[i]`, from index `i` on. -/
def decodeIntLoop (alphabetLookup : Table) : List Nat → Nat → Option Nat → Outcome (Option Nat)
  | [], _, result => .returns result
  | char :: rest, i, result =>
    match alphabetLookup char with
    | none => .throws (.invalidCharacter char i)
    | some index => decodeIntLoop alphabetLookup rest (i + 1) (mulAddNumber result index)

/-- The method `decodeInt(string)` on a string. -/
def decodeInt (c : Codec) (string : List Nat) : Outcome Num :=
  let alphabetLookup := c.alphabetLookup
  let length := string.length
  let isNegative := decide (string[0]? = some NEGATIVE_CHAR)
  let first := if isNegative ∧ length > 1 then 1 else 0
  match decodeIntLoop alphabetLookup (string.drop first) first (some 0) with
  | .throws e => .throws e
  | .overrun => .overrun
  | .returns none => .returns (.infinity isNegative)
  | .returns (some result) =>
    .returns (.int (if isNegative ∧ result > 0 then -(result : Int) else result))

/-- The `for` loop of `decodeBigInt` over the characters `string[i]`, from index `i` on. -/
def decodeBigIntLoop (alphabetLookup : Table) : List Nat → Nat → Nat → Outcome Nat
  | [], _, result => .returns result
  | char :: rest, i, result =>
    match alphabetLookup char with
    | none => .throws (.invalidCharacter char i)
    | some index => decodeBigIntLoop alphabetLookup rest (i + 1) (result * BASE + index)

/-- The method `decodeBigInt(string)` on a string. -/
def decodeBigInt (c : Codec) (string : List Nat) : Outcome Int :=
  let alphabetLookup := c.alphabetLookup
  let length := string.length
  let isNegative := decide (string[0]? = some NEGATIVE_CHAR)
  let first := if isNegative ∧ length > 1 then 1 else 0
  match decodeBigIntLoop alphabetLookup (string.drop first) first 0 with
  | .throws e => .throws e
  | .overrun => .overrun
  | .returns result => .returns (if isNegative then -(result : Int) else result)

/-! ## The constructor of the CommonJS variant (`src/lib/index.cjs`)

The tables, `createAlphabetLookups` and the default instance `base58` of the
CommonJS file have the same text as in the ESM file (with `58` written out);
`Codec.ofAlphabet` and `base58` stand for both. -/

namespace CJS

/-- Whether a table entry is truthy: `undefined` and `0` are not. -/
def truthy : Option Nat → Bool
  | none => false
  | some i => i != 0

/-- The `for` loop of `validateAlphabet` over `value[i]`, `value[i + 1]`, ...;
the duplicate test is `if (uniqueCharsLookup[char])`. -/
def validateAlphabetLoop (alphabetLookup : Table) : List Nat → Nat → Table → Except Error Unit
  | [], _, _ => .ok ()
  | char :: rest, i, uniqueCharsLookup =>
    if alphabetLookup char = none then
      .error (.invalidAlphabetCharacter char i)
    else if truthy (uniqueCharsLookup char) then
      .error (.duplicateAlphabetCharacter char i)
    else
      validateAlphabetLoop alphabetLookup rest (i + 1) (uniqueCharsLookup.set char i)

/-- The function `validateAlphabet`, on a string. -/
def validateAlphabet (value : List Nat) : Except Error Unit :=
  if value.length ≠ 58 then .error .invalidAlphabetLength
  else validateAlphabetLoop base58.alphabetLookup (value.take 58) 0 Table.empty

/-- The constructor `new Base58(alphabet)` of the CommonJS variant. -/
def new (alphabet : Option (List Nat)) : Except Error Codec :=
  match alphabet with
  | none => .ok (Codec.ofAlphabet ALPHABET)
  | some alphabet =>
    match validateAlphabet alphabet with
    | .error e => .error e
    | .ok _ => .ok (Codec.ofAlphabet alphabet)

end CJS

/-! ## The methods of the CommonJS variant

The carry loops of the CommonJS file have the same text as in the ESM file
(with `58` written out): `zeroRun` (from index 0), `encLoop`, `decLoop` and
`decLoopBytes` stand for both. The methods take no `start` / `end`, and the
byte-array inputs have their length read as `input.length >>> 0`. -/

namespace CJS

/-- The method `[encodeToStringSymbol](input)` of the CommonJS variant. -/
def encodeToString (c : Codec) (input : List Nat) : Outcome (List Nat) :=
  let length := u32 input.length
  let zeroCount := zeroRun (some 0) input 0 length 0
  let size := encSize (length - zeroCount)
  let bytes := List.replicate size 0
  match encLoop size ((input.take length).drop zeroCount) bytes ((size : Int) - 1) with
  | none => .overrun
  | some (bytes, lastIndex) =>
    let alphabet := c.alphabet
    let result := if zeroCount ≠ 0 then (List.replicate zeroCount (charAt alphabet 0)).flatten else []
    .returns (result ++ ((bytes.drop (lastIndex + 1).toNat).map (charAt alphabet)).flatten)

/-- The method `[decodeFromStringSymbol](string)` of the CommonJS variant. -/
def decodeFromString (c : Codec) (string : List Nat) : Outcome (List Nat) :=
  let length := string.length
  let alphabet := c.alphabet
  let alphabetLookup := c.alphabetLookup
  let firstAlphabetChar := alphabet[0]?
  let zeroCount := zeroRun firstAlphabetChar string 0 length 0
  let size := decSize (length - zeroCount)
  let bytes := List.replicate size 0
  match decLoop alphabetLookup size ((string.take length).drop zeroCount) zeroCount bytes
      ((size : Int) - 1) with
  | .throws e => .throws e
  | .overrun => .overrun
  | .returns (bytes, lastIndex) =>
    let index := (lastIndex + 1).toNat
    .returns (List.replicate zeroCount 0 ++ bytes.drop index)

/-- The method `encode(input)` of the CommonJS variant. -/
def encode (c : Codec) (input : List Nat) : Outcome (List Nat) :=
  let length := u32 input.length
  let zeroCount := zeroRun (some 0) input 0 length 0
  let size := encSize (length - zeroCount)
  let bytes := List.replicate size 0
  match encLoop size ((input.take length).drop zeroCount) bytes ((size : Int) - 1) with
  | none => .overrun
  | some (bytes, lastIndex) =>
    let index := (lastIndex + 1).toNat
    let baseMap := c.baseMap
    .returns (List.replicate zeroCount (baseMap.getD 0 0)
      ++ (bytes.drop index).map (fun charIndex => baseMap.getD charIndex 0))

/-- The method `decode(input)` of the CommonJS variant. -/
def decode (c : Codec) (input : List Nat) : Outcome (List Nat) :=
  let length := u32 input.length
  let baseMap := c.baseMap
  let baseMapLookup := c.baseMapLookup
  let firstAlphabetCharCode := baseMap[0]?
  let zeroCount := zeroRun firstAlphabetCharCode input 0 length 0
  let size := decSize (length - zeroCount)
  let bytes := List.replicate size 0
  match decLoopBytes baseMapLookup size ((input.take length).drop zeroCount) zeroCount bytes
      ((size : Int) - 1) with
  | .throws e => .throws e
  | .overrun => .overrun
  | .returns (bytes, lastIndex) =>
    let index := (lastIndex + 1).toNat
    .returns (List.replicate zeroCount 0 ++ bytes.drop index)

/-- The method `encodeInt(value)` of the CommonJS variant, on an integer; the
loop is `encodeIntLoop`, with `58` written out. -/
def encodeInt (c : Codec) (value : Int) : Outcome (List Nat) :=
  let number := value
  if number < -MAX_SAFE_INTEGER then .throws .outOfSafeIntegerRange
  else if number > MAX_SAFE_INTEGER then .throws .outOfSafeIntegerRange
  else
    let alphabet := c.alphabet
    if number = 0 then .returns (charAt alphabet 0)
    else
      let isNegative := decide (number < 0)
      let number := if isNegative then -number else number
      let result := encodeIntLoop alphabet number.toNat number.toNat (Nat.le_refl _) []
      .returns (if isNegative then 45 :: result else result)

/-- The method `decodeInt(string)` of the CommonJS variant, on a string; the
loop is `decodeIntLoop`, with `58` written out. -/
def decodeInt (c : Codec) (string : List Nat) : Outcome Num :=
  let length := string.length
  let alphabetLookup := c.alphabetLookup
  let isNegative := decide (string[0]? = some 45)
  let first := if isNegative ∧ length > 1 then 1 else 0
  match decodeIntLoop alphabetLookup (string.drop first) first (some 0) with
  | .throws e => .throws e
  | .overrun => .overrun
  | .returns none => .returns (.infinity isNegative)
  | .returns (some result) =>
    .returns (.int (if isNegative ∧ result > 0 then -(result : Int) else result))

end CJS

/-! ## The predicate `isBase58String` -/

/-- The symbols that the string iterator yields: a high surrogate followed by a
low surrogate is one symbol of two code units, every other code unit is a
symbol by itself. -/
def symbols : List Nat → List (List Nat)
  | [] => []
  | [u] => [[u]]
  | u :: v :: rest =>
    if 0xD800 ≤ u ∧ u ≤ 0xDBFF ∧ 0xDC00 ≤ v ∧ v ≤ 0xDFFF then [u, v] :: symbols rest
    else [u] :: symbols (v :: rest)

/-- The read `alphabetLookup[char]` for a symbol: the keys of the table are
strings of one code unit. -/
def lookupSymbol (alphabetLookup : Table) (char : List Nat) : Option Nat :=
  match char with
  | [u] => alphabetLookup u
  | _ => none

/-- The loop `for (const char of value)` of `isBase58String`. -/
def isBase58StringLoop (alphabetLookup : Table) : List (List Nat) → Bool
  | [] => true
  | char :: rest =>
    if lookupSymbol alphabetLookup char = none then false
    else isBase58StringLoop alphabetLookup rest

/-- The predicate `isBase58String`, on a string. -/
def isBase58String (value : List Nat) : Bool :=
  isBase58StringLoop base58.alphabetLookup (symbols value)

/-! ## The carry loops with their iterations recorded

The functions below run the same loops and list, pass by pass, what each
iteration of the inner loop starts from. -/

/-- One iteration of a carry loop: its `index`, the `carry` it starts with, and
the buffer element `bytes[index]` that it reads. -/
structure Iteration where
  index : Nat
  carry : Nat
  element : Nat
  deriving DecidableEq

/-- The iterations of the loop that `encPass` runs. -/
def encPassTrace (lastIndex : Int) : Nat → List Nat → Nat → List Iteration
  | 0, _, _ => []
  | index + 1, bytes, carry =>
    if carry ≠ 0 ∨ (index : Int) > lastIndex then
      let iteration : Iteration := ⟨index, carry, bytes.getD index 0⟩
      let carry := carry + shl8 (bytes.getD index 0)
      let bytes := bytes.set index (u8 (u32 (carry % BASE)))
      iteration :: encPassTrace lastIndex index bytes (u32 (carry / BASE))
    else []

/-- The iterations of the passes that `encLoop` runs, one list per pass. -/
def encLoopTrace (size : Nat) : List Nat → List Nat → Int → List (List Iteration)
  | [], _, _ => []
  | carry :: rest, bytes, lastIndex =>
    encPassTrace lastIndex size bytes carry ::
      match encPass lastIndex size bytes carry with
      | none => []
      | some (bytes, index) => encLoopTrace size rest bytes index

/-- The buffer size and the iterations of a call of `encodeToString` or `encode`. -/
def encodeTrace (input : List Nat) (start stop : Option Int) : Nat × List (List Iteration) :=
  let length := input.length
  let startIndex := normIndex length start 0
  let endIndex := normIndex length stop length
  let newLength := endIndex - startIndex
  let zeroCount := zeroRun (some 0) input startIndex newLength 0
  let size := encSize (newLength - zeroCount)
  let bytes := List.replicate size 0
  (size, encLoopTrace size ((input.take endIndex).drop (startIndex + zeroCount)) bytes
    ((size : Int) - 1))

/-- The iterations of the loop that `decPass` runs. -/
def decPassTrace (lastIndex : Int) : Nat → List Nat → Nat → List Iteration
  | 0, _, _ => []
  | index + 1, bytes, carry =>
    if carry ≠ 0 ∨ (index : Int) > lastIndex then
      let iteration : Iteration := ⟨index, carry, bytes.getD index 0⟩
      let carry := carry + u32 (bytes.getD index 0 * BASE)
      let bytes := bytes.set index (u8 (and255 carry))
      iteration :: decPassTrace lastIndex index bytes (sar8 carry)
    else []

/-- The iterations of the passes that `decLoop` and `decLoopBytes` run, one list per pass. -/
def decLoopTrace (lookup : Table) (size : Nat) : List Nat → List Nat → Int → List (List Iteration)
  | [], _, _ => []
  | char :: rest, bytes, lastIndex =>
    match lookup char with
    | none => []
    | some carry =>
      decPassTrace lastIndex size bytes carry ::
        match decPass lastIndex size bytes carry with
        | none => []
        | some (bytes, index) => decLoopTrace lookup size rest bytes index

/-- The buffer size and the iterations of a call of `decodeFromString` (with
`lookup = alphabetLookup`, `zero = alphabet[0]`) or of `decode` (with
`lookup = baseMapLookup`, `zero = baseMap[0]`). -/
def decodeTrace (lookup : Table) (zero : Option Nat) (input : List Nat) (start stop : Option Int) :
    Nat × List (List Iteration) :=
  let length := input.length
  let startIndex := normIndex length start 0
  let endIndex := normIndex length stop length
  let newLength := endIndex - startIndex
  let zeroCount := zeroRun zero input startIndex newLength 0
  let size := decSize (newLength - zeroCount)
  let bytes := List.replicate size 0
  (size, decLoopTrace lookup size ((input.take endIndex).drop (startIndex + zeroCount)) bytes
    ((size : Int) - 1))

/-! ## The methods with the buffer size as a 32-bit number

The definitions above take the buffer size before its conversion `>>> 0` and
stop where a carry loop leaves the buffer. The namespace `Full` repeats the
four methods of the ESM file with both: the size is converted to an unsigned
32-bit number, and a carry loop goes on below index 0. There the read
`bytes[index]` gives `undefined`, which `<< 8` or `* BASE` followed by `>>> 0`
turn into 0, and the write `bytes[index] = ...` does nothing. -/

namespace Full

/-- The size `((m) * FACTOR + 1) >>> 0` of the digit buffer of encode, with
`FACTOR = log 256 / log 58` exact and the conversion `>>> 0` to 32 bits. -/
def encSize (m : Nat) : Nat := u32 (Base58.encSize m)

/-- The size `((m) * INVERSE_FACTOR + 1) >>> 0` of the byte buffer of decode,
with `INVERSE_FACTOR = log 58 / log 256` exact and the conversion `>>> 0`. -/
def decSize (m : Nat) : Nat := u32 (Base58.decSize m)

/-- The loop `for (; carry !== 0 || index > lastIndex; index--)` of encode from
an `index` below 0 on: the body adds `(undefined << 8) >>> 0 = 0` to `carry`,
stores nothing, and sets `carry = (carry / BASE) >>> 0`. Returns the final
`index`. The first argument bounds the number of iterations;
`carry + (index - lastIndex)` of them are enough. -/
def encBelow (lastIndex : Int) : Nat → Nat → Int → Int
  | 0, _, index => index
  | fuel + 1, carry, index =>
    if carry ≠ 0 ∨ index > lastIndex then
      encBelow lastIndex fuel (u32 (carry / BASE)) (index - 1)
    else index

/-- The loop `for (; carry !== 0 || index > lastIndex; index--)` of encode, entered
with `index = n - 1` for the first argument `n`; returns the buffer and the
final `index`. -/
def encPass (lastIndex : Int) : Nat → List Nat → Nat → List Nat × Int
  | 0, bytes, carry =>
    (bytes, encBelow lastIndex (carry + ((-1 : Int) - lastIndex).toNat) carry (-1))
  | index + 1, bytes, carry =>
    if carry ≠ 0 ∨ (index : Int) > lastIndex then
      let carry := carry + shl8 (bytes.getD index 0)
      let bytes := bytes.set index (u8 (u32 (carry % BASE)))
      encPass lastIndex index bytes (u32 (carry / BASE))
    else (bytes, index)

/-- The loop `for (let i = startIndex + zeroCount; i < endIndex; i++)` of encode
over the bytes `input[i]`; carries the buffer and `lastIndex`. -/
def encLoop (size : Nat) : List Nat → List Nat → Int → List Nat × Int
  | [], bytes, lastIndex => (bytes, lastIndex)
  | carry :: rest, bytes, lastIndex =>
    match encPass lastIndex size bytes carry with
    | (bytes, index) => encLoop size rest bytes index

/-- The loop `for (; carry !== 0 || index > lastIndex; index--)` of decode from
an `index` below 0 on: the body adds `(undefined * BASE) >>> 0 = 0` to `carry`,
stores nothing, and sets `carry = (carry >> 8) >>> 0`. Returns the final
`index`, or `none` when the loop does not end, which a carry with bit 31 set
brings about. The first argument bounds the number of iterations;
`carry + (index - lastIndex)` of them are enough for a loop that ends. -/
def decBelow (lastIndex : Int) : Nat → Nat → Int → Option Int
  | 0, carry, index => if carry ≠ 0 ∨ index > lastIndex then none else some index
  | fuel + 1, carry, index =>
    if carry ≠ 0 ∨ index > lastIndex then
      decBelow lastIndex fuel (sar8 carry) (index - 1)
    else some index

/-- The loop `for (; carry !== 0 || index > lastIndex; index--)` of decode, entered
with `index = n - 1` for the first argument `n`; returns the buffer and the
final `index`, or `none` when the loop does not end. -/
def decPass (lastIndex : Int) : Nat → List Nat → Nat → Option (List Nat × Int)
  | 0, bytes, carry =>
    match decBelow lastIndex (carry + ((-1 : Int) - lastIndex).toNat) carry (-1) with
    | none => none
    | some index => some (bytes, index)
  | index + 1, bytes, carry =>
    if carry ≠ 0 ∨ (index : Int) > lastIndex then
      let carry := carry + u32 (bytes.getD index 0 * BASE)
      let bytes := bytes.set index (u8 (and255 carry))
      decPass lastIndex index bytes (sar8 carry)
    else some (bytes, index)

/-- The loop `for (let i = startIndex + zeroCount; i < endIndex; i++)` of
`decodeFromString` over the characters `string[i]`, from index `i` on. In this
namespace the outcome `overrun` stands for a carry loop that does not end. -/
def decLoop (alphabetLookup : Table) (size : Nat) :
    List Nat → Nat → List Nat → Int → Outcome (List Nat × Int)
  | [], _, bytes, lastIndex => .returns (bytes, lastIndex)
  | char :: rest, i, bytes, lastIndex =>
    match alphabetLookup char with
    | none => .throws (.invalidCharacter char i)
    | some carry =>
      match decPass lastIndex size bytes carry with
      | none => .overrun
      | some (bytes, index) => decLoop alphabetLookup size rest (i + 1) bytes index

/-- The same loop in `decode`, over the byte codes `input[i]`. -/
def decLoopBytes (baseMapLookup : Table) (size : Nat) :
    List Nat → Nat → List Nat → Int → Outcome (List Nat × Int)
  | [], _, bytes, lastIndex => .returns (bytes, lastIndex)
  | charCode :: rest, i, bytes, lastIndex =>
    match baseMapLookup charCode with
    | none => .throws (.invalidByte charCode i)
    | some carry =>
      match decPass lastIndex size bytes carry with
      | none => .overrun
      | some (bytes, index) => decLoopBytes baseMapLookup size rest (i + 1) bytes index

/-- The method `[encodeToStringSymbol](input, start, end)`. The output loop
`for (let i = lastIndex + 1; i < size; i++) result += alphabet[bytes[i]]`
appends the text of `undefined` for every `i` below 0. -/
def encodeToString (c : Codec) (input : List Nat) (start stop : Option Int) :
    Outcome (List Nat) :=
  let alphabet := c.alphabet
  let length := input.length
  let startIndex := normIndex length start 0
  let endIndex := normIndex length stop length
  let newLength := endIndex - startIndex
  let zeroCount := zeroRun (some 0) input startIndex newLength 0
  let size := encSize (newLength - zeroCount)
  let bytes := List.replicate size 0
  match encLoop size ((input.take endIndex).drop (startIndex + zeroCount)) bytes ((size : Int) - 1) with
  | (bytes, lastIndex) =>
    let result := if zeroCount ≠ 0 then (List.replicate zeroCount (charAt alphabet 0)).flatten else []
    .returns (result ++ (List.replicate (-(lastIndex + 1)).toNat undefinedText).flatten
      ++ ((bytes.drop (lastIndex + 1).toNat).map (charAt alphabet)).flatten)

/-- The method `[decodeFromStringSymbol](string, start, end)`. The result has
`zeroCount + size - index` bytes, and `bytes[index + i]` below 0 is stored as 0. -/
def decodeFromString (c : Codec) (string : List Nat) (start stop : Option Int) :
    Outcome (List Nat) :=
  let alphabet := c.alphabet
  let alphabetLookup := c.alphabetLookup
  let firstAlphabetChar := alphabet[0]?
  let length := string.length
  let startIndex := normIndex length start 0
  let endIndex := normIndex length stop length
  let newLength := endIndex - startIndex
  let zeroCount := zeroRun firstAlphabetChar string startIndex newLength 0
  let size := decSize (newLength - zeroCount)
  let bytes := List.replicate size 0
  match decLoop alphabetLookup size ((string.take endIndex).drop (startIndex + zeroCount))
      (startIndex + zeroCount) bytes ((size : Int) - 1) with
  | .throws e => .throws e
  | .overrun => .overrun
  | .returns (bytes, lastIndex) =>
    let index := lastIndex + 1
    .returns (List.replicate zeroCount 0 ++ List.replicate (-index).toNat 0
      ++ bytes.drop index.toNat)

/-- The method `encode(input, start, end)` on a `Uint8Array`. The result has
`zeroCount + size - index` bytes, and `baseMap[bytes[index + i]]` is stored as 0
where it is `undefined`. -/
def encode (c : Codec) (input : List Nat) (start stop : Option Int) : Outcome (List Nat) :=
  let baseMap := c.baseMap
  let length := input.length
  let startIndex := normIndex length start 0
  let endIndex := normIndex length stop length
  let newLength := endIndex - startIndex
  let zeroCount := zeroRun (some 0) input startIndex newLength 0
  let size := encSize (newLength - zeroCount)
  let bytes := List.replicate size 0
  match encLoop size ((input.take endIndex).drop (startIndex + zeroCount)) bytes ((size : Int) - 1) with
  | (bytes, lastIndex) =>
    let index := lastIndex + 1
    .returns (List.replicate zeroCount (baseMap.getD 0 0) ++ List.replicate (-index).toNat 0
      ++ (bytes.drop index.toNat).map (fun charIndex => baseMap.getD charIndex 0))

/-- The method `decode(input, start, end)` on a `Uint8Array`. -/
def decode (c : Codec) (input : List Nat) (start stop : Option Int) : Outcome (List Nat) :=
  let baseMap := c.baseMap
  let baseMapLookup := c.baseMapLookup
  let firstAlphabetCharCode := baseMap[0]?
  let length := input.length
  let startIndex := normIndex length start 0
  let endIndex := normIndex length stop length
  let newLength := endIndex - startIndex
  let zeroCount := zeroRun firstAlphabetCharCode input startIndex newLength 0
  let size := decSize (newLength - zeroCount)
  let bytes := List.replicate size 0
  match decLoopBytes baseMapLookup size ((input.take endIndex).drop (startIndex + zeroCount))
      (startIndex + zeroCount) bytes ((size : Int) - 1) with
  | .throws e => .throws e
  | .overrun => .overrun
  | .returns (bytes, lastIndex) =>
    let index := lastIndex + 1
    .returns (List.replicate zeroCount 0 ++ List.replicate (-index).toNat 0
      ++ bytes.drop index.toNat)

end Full

/-! ## Definitions used in the statements and proofs -/

/-- The number of characters that `decodeInt` and `decodeBigInt` skip: 1 when
the string starts with `-` and has more than one character, else 0. -/
def signLength (s : List Nat) : Nat :=
  if s[0]? = some NEGATIVE_CHAR ∧ s.length > 1 then 1 else 0

/-- The string without its skipped sign character. -/
def unsigned (s : List Nat) : List Nat := s.drop (signLength s)

/-- The digits of `n` in radix `b`, most significant first, without leading zero. -/
def canon (b n : Nat) : List Nat := (Nat.digits b n).reverse

/-- The number written by the digit list `l` in radix `b`, most significant first. -/
def valueOf (b : Nat) (l : List Nat) : Nat := Nat.ofDigits b l.reverse

/-- What `encPass` (radices 256, 58) and `decPass` (radices 58, 256) have in
common: the loop shape, and the body on values in range. -/
structure IsPass (inB outB : Nat)
    (P : Int → Nat → List Nat → Nat → Option (List Nat × Int)) : Prop where
  zero : ∀ L bytes c, P L 0 bytes c = if c ≠ 0 ∨ (-1 : Int) > L then none else some (bytes, -1)
  succ : ∀ L k bytes c, c < inB → bytes.getD k 0 < outB →
    P L (k + 1) bytes c =
      if c ≠ 0 ∨ (k : Int) > L then
        P L k (bytes.set k ((c + inB * bytes.getD k 0) % outB)) ((c + inB * bytes.getD k 0) / outB)
      else some (bytes, k)

/-- The buffer that holds `V` in `size` digits of radix `b`, with its `lastIndex`. -/
def holds (b size V : Nat) : List Nat × Int :=
  (List.replicate (size - (canon b V).length) 0 ++ canon b V,
    ((size - (canon b V).length : Nat) : Int) - 1)

/-- The running value `buffer * inB + x` over the input symbols `xs`. -/
def accum (inB V : Nat) (xs : List Nat) : Nat := xs.foldl (fun v x => inB * v + x) V

/-- Length of the run of `v` at the start of `l`. -/
def lead (v : Nat) (l : List Nat) : Nat := (l.takeWhile (fun x => decide (x = v))).length

/-- The digit characters of encode: what `encodeToString` does once its range
is cut out as `xs`. -/
def encCore (xs : List Nat) : Option (Nat × List Nat) :=
  let zeroCount := lead 0 xs
  let size := encSize (xs.length - zeroCount)
  match encLoop size (xs.drop zeroCount) (List.replicate size 0) ((size : Int) - 1) with
  | none => none
  | some (bytes, lastIndex) => some (zeroCount, bytes.drop (lastIndex + 1).toNat)

/-- What the constructor establishes: the alphabet has 58 distinct characters
of the reference alphabet, and the tables invert it. -/
structure Codec.Valid (c : Codec) : Prop where
  length : c.alphabet.length = 58
  nodup : c.alphabet.Nodup
  subset : ∀ ch ∈ c.alphabet, ch ∈ ALPHABET
  lookup_mem : ∀ ch ∈ c.alphabet, c.alphabetLookup ch = some (c.alphabet.indexOf ch)
  lookup_not_mem : ∀ ch, ch ∉ c.alphabet → c.alphabetLookup ch = none
  baseMap_eq : c.baseMap = c.alphabet
  baseMapLookup_eq : c.baseMapLookup = c.alphabetLookup

/-- The digit values that the table `T` gives to the symbols `xs`. -/
def digitsOf (T : Table) (xs : List Nat) : List Nat := xs.map (fun ch => (T ch).getD 0)

/-- The outcome with every reported index moved up by `a`. -/
def Outcome.shift {α : Type} (a : Nat) : Outcome α → Outcome α
  | .throws (.invalidCharacter ch i) => .throws (.invalidCharacter ch (a + i))
  | .throws (.invalidByte ch i) => .throws (.invalidByte ch (a + i))
  | o => o

/-- The outcome of the byte-array decode for an outcome of the string decode:
the error names a byte instead of a character. -/
def Outcome.asBytes {α : Type} : Outcome α → Outcome α
  | .throws (.invalidCharacter ch i) => .throws (.invalidByte ch i)
  | o => o

/-- What `decodeFromString` does once its range is cut out as `xs`, with
indices counted inside `xs`; `v` is the zero-digit character. -/
def decCore (T : Table) (v : Nat) (xs : List Nat) : Outcome (List Nat) :=
  let zeroCount := lead v xs
  let size := decSize (xs.length - zeroCount)
  match decLoop T size (xs.drop zeroCount) zeroCount (List.replicate size 0) ((size : Int) - 1) with
  | .throws e => .throws e
  | .overrun => .overrun
  | .returns (bytes, lastIndex) =>
    .returns (List.replicate zeroCount 0 ++ bytes.drop (lastIndex + 1).toNat)

/-! ## Machine arithmetic on the values the loops produce -/

theorem u32_of_lt {x : Nat} (h : x < 4294967296) : u32 x = x := by
  unfold u32; omega

theorem u8_of_lt {x : Nat} (h : x < 256) : u8 x = x := by
  unfold u8; omega

theorem toInt32_of_lt {x : Nat} (h : x < 2147483648) : toInt32 x = (x : Int) := by
  unfold toInt32
  have h1 : x % 4294967296 = x := by omega
  simp [h1, h]

theorem and255_of_lt {x : Nat} (h : x < 2147483648) : and255 x = x % 256 := by
  unfold and255
  rw [toInt32_of_lt h]
  have h2 : ((x : Int) % 256).toNat = x % 256 := by omega
  rw [h2]
  exact u32_of_lt (by omega)

theorem sar8_of_lt {x : Nat} (h : x < 2147483648) : sar8 x = x / 256 := by
  unfold sar8
  rw [toInt32_of_lt h]
  omega

/-! ## One pass of carry propagation, for any pair of radices -/

theorem encPass_isPass : IsPass 256 58 encPass where
  zero := by intro L bytes c; rfl
  succ := by
    intro L k bytes c hc hd
    have h1 : shl8 (bytes.getD k 0) = 256 * bytes.getD k 0 := by
      unfold shl8; rw [u32_of_lt (by omega)]; omega
    have h2 : u8 (u32 ((c + 256 * bytes.getD k 0) % 58)) = (c + 256 * bytes.getD k 0) % 58 := by
      rw [u32_of_lt (by omega), u8_of_lt (by omega)]
    have h3 : u32 ((c + 256 * bytes.getD k 0) / 58) = (c + 256 * bytes.getD k 0) / 58 :=
      u32_of_lt (by omega)
    simp only [encPass, BASE, h1, h2, h3]

theorem decPass_isPass : IsPass 58 256 decPass where
  zero := by intro L bytes c; rfl
  succ := by
    intro L k bytes c hc hd
    have h1 : u32 (bytes.getD k 0 * BASE) = 58 * bytes.getD k 0 := by
      unfold BASE; rw [u32_of_lt (by omega)]; omega
    have h2 : u8 (and255 (c + 58 * bytes.getD k 0)) = (c + 58 * bytes.getD k 0) % 256 := by
      rw [and255_of_lt (by omega), u8_of_lt (by omega)]
    have h3 : sar8 (c + 58 * bytes.getD k 0) = (c + 58 * bytes.getD k 0) / 256 :=
      sar8_of_lt (by omega)
    simp only [decPass, h1, h2, h3]

theorem getD_replicate_append_concat (z : Nat) (A B : List Nat) (d : Nat) :
    (List.replicate z 0 ++ (A ++ [d]) ++ B).getD (z + A.length) 0 = d := by
  have h : List.replicate z 0 ++ (A ++ [d]) ++ B = (List.replicate z 0 ++ A) ++ (d :: B) := by simp
  rw [h, List.getD_eq_getElem?_getD, List.getElem?_append_right (by simp)]
  simp

theorem set_replicate_append_concat (z : Nat) (A B : List Nat) (d v : Nat) :
    (List.replicate z 0 ++ (A ++ [d]) ++ B).set (z + A.length) v
      = List.replicate z 0 ++ A ++ (v :: B) := by
  have h : List.replicate z 0 ++ (A ++ [d]) ++ B = (List.replicate z 0 ++ A) ++ (d :: B) := by simp
  rw [h, List.set_append_right _ _ (by simp)]
  simp

theorem canon_step {b : Nat} (hb : 1 < b) (v q : Nat) (hv : v < b) (h : v ≠ 0 ∨ q ≠ 0) :
    canon b (v + b * q) = canon b q ++ [v] := by
  unfold canon
  rw [Nat.digits_add b hb v q hv h]
  simp

theorem canon_length_le {b : Nat} (hb : 1 < b) (n k : Nat) (h : n < b ^ k) :
    (canon b n).length ≤ k := by
  unfold canon
  rw [List.length_reverse]
  by_cases hn : n = 0
  · subst hn; simp
  · rw [Nat.digits_len b n hb hn]
    exact (Nat.lt_pow_iff_log_lt hb hn).1 h

/-- The pass over the untouched zero part of the buffer: the carry is written
out in radix `outB`, and the loop stops as soon as it is used up. -/
theorem IsPass.zeros {inB outB : Nat} {P} (hP : IsPass inB outB P) (hb : 1 < outB) :
    ∀ (z : Nat) (B : List Nat) (c : Nat) (L : Int), c < inB → (z : Int) ≤ L + 1 →
      (canon outB c).length ≤ z →
      P L z (List.replicate z 0 ++ B) c
        = some (List.replicate (z - (canon outB c).length) 0 ++ canon outB c ++ B,
            ((z - (canon outB c).length : Nat) : Int) - 1) := by
  intro z
  induction z with
  | zero =>
    intro B c L hc hL hlen
    have hc0 : c = 0 := by
      have : canon outB c = [] := List.length_eq_zero.1 (Nat.le_zero.1 hlen)
      unfold canon at this
      simpa [Nat.digits_eq_nil_iff_eq_zero] using this
    subst hc0
    rw [hP.zero]
    have : ¬ ((0 : Nat) ≠ 0 ∨ (-1 : Int) > L) := by
      simp only [Nat.cast_zero] at hL; omega
    rw [if_neg this]
    simp [canon]
  | succ z ih =>
    intro B c L hc hL hlen
    have hget : (List.replicate (z + 1) 0 ++ B).getD z 0 = 0 := by
      have := getD_replicate_append_concat z [] B 0
      simpa [List.replicate_succ'] using this
    have hset : ∀ v, (List.replicate (z + 1) 0 ++ B).set z v = List.replicate z 0 ++ (v :: B) := by
      intro v
      have := set_replicate_append_concat z [] B 0 v
      simp only [List.length_nil, Nat.add_zero, List.nil_append, List.append_nil] at this
      rw [List.replicate_succ', this]
    rw [hP.succ L z _ c hc (by rw [hget]; omega), hget, hset]
    by_cases hc0 : c = 0
    · subst hc0
      have : ¬ ((0 : Nat) ≠ 0 ∨ (z : Int) > L) := by
        push_cast at hL; omega
      rw [if_neg this]
      simp [canon]
    · have hg : c ≠ 0 ∨ (z : Int) > L := Or.inl hc0
      have hstep : canon outB c = canon outB (c / outB) ++ [c % outB] := by
        have := canon_step hb (c % outB) (c / outB) (Nat.mod_lt _ (by omega))
          (by
            by_contra hcon
            push_neg at hcon
            have := Nat.mod_add_div c outB
            rw [hcon.1, hcon.2] at this
            omega)
        rwa [Nat.mod_add_div] at this
      have hlen2 : (canon outB (c / outB)).length ≤ z := by
        rw [hstep] at hlen
        simp at hlen
        exact hlen
      have hc2 : c / outB < inB := lt_of_le_of_lt (Nat.div_le_self _ _) hc
      rw [if_pos hg]
      simp only [Nat.mul_zero, Nat.add_zero]
      rw [ih ((c % outB) :: B) (c / outB) L hc2 (by push_cast at hL; omega) hlen2, hstep]
      simp only [List.length_append, List.length_singleton, List.append_assoc,
        List.singleton_append]
      have : z + 1 - ((canon outB (c / outB)).length + 1) = z - (canon outB (c / outB)).length := by
        omega
      rw [this]

theorem ofDigits_ne_zero_of_getLast {b : Nat} (hb : 1 < b) (l : List Nat)
    (hl : ∀ x ∈ l, x < b) (hne : l ≠ []) (hlast : ∀ h : l ≠ [], l.getLast h ≠ 0) :
    Nat.ofDigits b l ≠ 0 := by
  intro h0
  have := Nat.digits_ofDigits b hb l hl hlast
  rw [h0] at this
  simp at this
  exact hne this

/-- The pass over the digits written so far (`Dr`, least significant first) and
then over the zero part: the buffer is multiplied by `inB` and `c` is added. -/
theorem IsPass.digits {inB outB : Nat} {P} (hP : IsPass inB outB P) (hb : 1 < outB)
    (hi : 0 < inB) :
    ∀ (Dr : List Nat), (∀ x ∈ Dr, x < outB) → (∀ h : Dr ≠ [], Dr.getLast h ≠ 0) →
      ∀ (z : Nat) (B : List Nat) (c : Nat) (L : Int), c < inB → (z : Int) ≤ L + 1 →
      (Dr ≠ [] → L + 1 = z) →
      (canon outB (inB * Nat.ofDigits outB Dr + c)).length ≤ z + Dr.length →
      P L (z + Dr.length) (List.replicate z 0 ++ Dr.reverse ++ B) c
        = some (List.replicate (z + Dr.length
              - (canon outB (inB * Nat.ofDigits outB Dr + c)).length) 0
            ++ canon outB (inB * Nat.ofDigits outB Dr + c) ++ B,
            ((z + Dr.length - (canon outB (inB * Nat.ofDigits outB Dr + c)).length : Nat) : Int)
              - 1) := by
  intro Dr
  induction Dr with
  | nil =>
    intro _ _ z B c L hc hL _ hlen
    simpa using hP.zeros hb z B c L hc hL (by simpa using hlen)
  | cons d Dr ih =>
    intro hlt hlast z B c L hc hL hLz hlen
    have hd : d < outB := hlt d (List.mem_cons_self _ _)
    have hlt2 : ∀ x ∈ Dr, x < outB := fun x hx => hlt x (List.mem_cons_of_mem _ hx)
    have hlast2 : ∀ h : Dr ≠ [], Dr.getLast h ≠ 0 := by
      intro h
      have := hlast (List.cons_ne_nil _ _)
      rwa [List.getLast_cons h] at this
    have hLz1 : L + 1 = z := hLz (List.cons_ne_nil _ _)
    have hbytes : List.replicate z 0 ++ (d :: Dr).reverse ++ B
        = List.replicate z 0 ++ (Dr.reverse ++ [d]) ++ B := by simp
    have hidx : z + (d :: Dr).length = (z + Dr.reverse.length) + 1 := by simp; omega
    rw [hbytes, hidx]
    have hget := getD_replicate_append_concat z Dr.reverse B d
    rw [hP.succ L _ _ c hc (by rw [hget]; exact hd), hget, set_replicate_append_concat]
    have hg : c ≠ 0 ∨ ((z + Dr.reverse.length : Nat) : Int) > L := by
      right; push_cast; omega
    rw [if_pos hg]
    have hc2 : (c + inB * d) / outB < inB := by
      rw [Nat.div_lt_iff_lt_mul (by omega)]
      have : inB * d ≤ inB * (outB - 1) := Nat.mul_le_mul_left _ (by omega)
      have h2 : inB * (outB - 1) + inB = inB * outB := by
        rw [← Nat.mul_succ]; congr 1; omega
      omega
    have hN : inB * Nat.ofDigits outB (d :: Dr) + c
        = (c + inB * d) % outB + outB * (inB * Nat.ofDigits outB Dr + (c + inB * d) / outB) := by
      rw [Nat.ofDigits_cons]
      have := Nat.mod_add_div (c + inB * d) outB
      calc inB * (d + outB * Nat.ofDigits outB Dr) + c
          = (c + inB * d) + outB * (inB * Nat.ofDigits outB Dr) := by ring
        _ = ((c + inB * d) % outB + outB * ((c + inB * d) / outB))
              + outB * (inB * Nat.ofDigits outB Dr) := by rw [this]
        _ = _ := by ring
    have hNne : inB * Nat.ofDigits outB (d :: Dr) + c ≠ 0 := by
      have := ofDigits_ne_zero_of_getLast hb (d :: Dr) hlt (List.cons_ne_nil _ _) hlast
      have : 0 < inB * Nat.ofDigits outB (d :: Dr) := Nat.mul_pos hi (Nat.pos_of_ne_zero this)
      omega
    have hstep : canon outB (inB * Nat.ofDigits outB (d :: Dr) + c)
        = canon outB (inB * Nat.ofDigits outB Dr + (c + inB * d) / outB)
            ++ [(c + inB * d) % outB] := by
      rw [hN]
      apply canon_step hb _ _ (Nat.mod_lt _ (by omega))
      by_contra hcon
      push_neg at hcon
      rw [hN, hcon.1, hcon.2] at hNne
      simp at hNne
    rw [hstep] at hlen ⊢
    have hlen2 : (canon outB (inB * Nat.ofDigits outB Dr + (c + inB * d) / outB)).length
        ≤ z + Dr.length := by
      simp at hlen
      omega
    have := ih hlt2 hlast2 z (((c + inB * d) % outB) :: B) ((c + inB * d) / outB) L hc2 hL
      (fun _ => hLz1) hlen2
    simp only [List.length_reverse] at this ⊢
    rw [this]
    simp only [List.length_append, List.length_singleton, List.length_cons, List.append_assoc,
      List.singleton_append]
    have he : z + Dr.length + 1
        - ((canon outB (inB * Nat.ofDigits outB Dr + (c + inB * d) / outB)).length
            + (([] : List Nat).length + 1))
        = z + Dr.length
          - (canon outB (inB * Nat.ofDigits outB Dr + (c + inB * d) / outB)).length := by
      simp only [List.length_nil]; omega
    rw [he]

/-- One pass on a buffer holding `V` gives the buffer holding `inB * V + c`. -/
theorem IsPass.holds {inB outB : Nat} {P} (hP : IsPass inB outB P) (hb : 1 < outB)
    (hi : 0 < inB) (size V c : Nat) (hc : c < inB) (hfit : inB * V + c < outB ^ size) :
    P (holds outB size V).2 size (holds outB size V).1 c = some (holds outB size (inB * V + c)) := by
  have hVle : V ≤ inB * V + c := by
    have : 1 * V ≤ inB * V := Nat.mul_le_mul_right _ hi
    omega
  have hlenV : (canon outB V).length ≤ size := canon_length_le hb _ _ (lt_of_le_of_lt hVle hfit)
  have hlen : (canon outB (inB * V + c)).length ≤ size := canon_length_le hb _ _ hfit
  have key := hP.digits hb hi (Nat.digits outB V) (fun x hx => Nat.digits_lt_base hb hx)
    (fun h => Nat.getLast_digit_ne_zero outB (Nat.digits_ne_nil_iff_ne_zero.1 h))
    (size - (canon outB V).length) [] c (((size - (canon outB V).length : Nat) : Int) - 1) hc
    (by omega) (fun _ => by omega)
  have hsz : size - (canon outB V).length + (Nat.digits outB V).length = size := by
    unfold canon at hlenV ⊢
    simp only [List.length_reverse] at hlenV ⊢
    omega
  rw [Nat.ofDigits_digits, hsz] at key
  have := key hlen
  simp only [List.append_nil] at this
  exact this

/-! ## The outer loops -/

theorem accum_ge {inB : Nat} (hi : 0 < inB) (xs : List Nat) (V : Nat) : V ≤ accum inB V xs := by
  induction xs generalizing V with
  | nil => simp [accum]
  | cons x xs ih =>
    have h1 : 1 * V ≤ inB * V := Nat.mul_le_mul_right _ hi
    have := ih (inB * V + x)
    simp only [accum, List.foldl_cons] at this ⊢
    omega

theorem accum_zero_eq_valueOf (inB : Nat) (xs : List Nat) : accum inB 0 xs = valueOf inB xs := by
  induction xs using List.reverseRecOn with
  | nil => simp [accum, valueOf]
  | append_singleton xs x ih =>
    unfold accum valueOf at *
    rw [List.foldl_append, ih]
    simp [Nat.ofDigits_cons]
    ring

theorem valueOf_lt_pow {b : Nat} (hb : 1 < b) (xs : List Nat) (h : ∀ x ∈ xs, x < b) :
    valueOf b xs < b ^ xs.length := by
  have := Nat.ofDigits_lt_base_pow_length hb (l := xs.reverse) (by simpa using h)
  simpa [valueOf] using this

theorem canon_valueOf {b : Nat} (hb : 1 < b) (r : List Nat) (h : ∀ x ∈ r, x < b)
    (hhead : ∀ x, r.head? = some x → x ≠ 0) : canon b (valueOf b r) = r := by
  unfold canon valueOf
  rw [Nat.digits_ofDigits b hb r.reverse (by simpa using h)]
  · simp
  · intro hne
    rw [List.getLast_reverse]
    apply hhead
    cases r with
    | nil => simp at hne
    | cons a t => simp

theorem valueOf_canon (b n : Nat) : valueOf b (canon b n) = n := by
  simp [valueOf, canon, Nat.ofDigits_digits]

theorem canon_lt {b : Nat} (hb : 1 < b) (n : Nat) : ∀ d ∈ canon b n, d < b := by
  intro d hd
  exact Nat.digits_lt_base hb (by simpa [canon] using hd)

theorem canon_head_ne_zero (b n : Nat) : ∀ x, (canon b n).head? = some x → x ≠ 0 := by
  intro x hx
  unfold canon at hx
  rw [List.head?_reverse] at hx
  by_cases hn : n = 0
  · subst hn; simp at hx
  · have := Nat.getLast_digit_ne_zero b hn
    rw [List.getLast?_eq_getLast _ (Nat.digits_ne_nil_iff_ne_zero.2 hn)] at hx
    cases hx
    exact this

theorem holds_zero (b size : Nat) : holds b size 0 = (List.replicate size 0, (size : Int) - 1) := by
  simp [holds, canon]

theorem encLoop_holds (size : Nat) : ∀ (xs : List Nat) (V : Nat), (∀ x ∈ xs, x < 256) →
    accum 256 V xs < 58 ^ size →
    encLoop size xs (holds 58 size V).1 (holds 58 size V).2
      = some (holds 58 size (accum 256 V xs)) := by
  intro xs
  induction xs with
  | nil => intro V _ _; simp [encLoop, accum]
  | cons x xs ih =>
    intro V hx hfit
    have hx1 : x < 256 := hx x (List.mem_cons_self _ _)
    have hfit1 : 256 * V + x < 58 ^ size :=
      lt_of_le_of_lt (accum_ge (by norm_num) xs _) hfit
    have hp := encPass_isPass.holds (by norm_num) (by norm_num) size V x hx1 hfit1
    simp only [encLoop, hp]
    exact ih (256 * V + x) (fun y hy => hx y (List.mem_cons_of_mem _ hy)) hfit

theorem floorLogAux_eq {b : Nat} (hb : 1 < b) : ∀ (fuel n : Nat), n ≤ fuel →
    floorLogAux b fuel n = Nat.log b n := by
  intro fuel
  induction fuel with
  | zero =>
    intro n hn
    have : n = 0 := by omega
    subst this
    simp [floorLogAux]
  | succ fuel ih =>
    intro n hn
    unfold floorLogAux
    by_cases h : b ≤ n
    · rw [if_pos h, Nat.log_of_one_lt_of_le hb h]
      have : n / b < n := Nat.div_lt_self (by omega) hb
      rw [ih (n / b) (by omega)]
    · rw [if_neg h, Nat.log_of_lt (by omega)]

theorem floorLog_eq {b : Nat} (hb : 1 < b) (n : Nat) : floorLog b n = Nat.log b n :=
  floorLogAux_eq hb n n le_rfl

theorem lt_pow_encSize (m : Nat) : 256 ^ m < 58 ^ encSize m := by
  unfold encSize
  rw [floorLog_eq (by norm_num)]
  exact Nat.lt_pow_succ_log_self (by norm_num) _

theorem lt_pow_decSize (m : Nat) : 58 ^ m < 256 ^ decSize m := by
  unfold decSize
  rw [floorLog_eq (by norm_num)]
  exact Nat.lt_pow_succ_log_self (by norm_num) _

/-! ## Range normalisation and the leading-zero run -/

theorem normIndex_le (length : Nat) (x : Option Int) (dflt : Nat) (h : dflt ≤ length) :
    normIndex length x dflt ≤ length := by
  unfold normIndex
  cases x with
  | none => exact h
  | some x =>
    simp only
    split <;> omega

theorem zeroRun_eq (v : Nat) (input : List Nat) (a : Nat) : ∀ (n k : Nat) (l : List Nat),
    input.drop (a + k) = l → zeroRun (some v) input a n k = k + lead v (l.take n) := by
  intro n
  induction n with
  | zero => intro k l _; simp [zeroRun, lead]
  | succ n ih =>
    intro k l hl
    cases l with
    | nil =>
      have : input[a + k]? = none := by
        rw [List.getElem?_eq_none_iff]
        exact List.drop_eq_nil_iff.1 hl
      simp [zeroRun, this, lead]
    | cons x rest =>
      have hx : input[a + k]? = some x := by
        have := List.getElem?_drop input (a + k) 0
        rw [hl] at this
        simpa using this.symm
      have hrest : input.drop (a + (k + 1)) = rest := by
        have : List.drop 1 (input.drop (a + k)) = rest := by rw [hl]; rfl
        rw [List.drop_drop] at this
        rw [← this]; congr 1
      simp only [zeroRun, hx, Option.some.injEq, List.take_succ_cons, lead]
      by_cases hxv : x = v
      · rw [if_pos hxv, ih (k + 1) rest hrest, List.takeWhile_cons_of_pos (by simpa using hxv)]
        simp only [lead, List.length_cons]
        omega
      · rw [if_neg hxv, List.takeWhile_cons_of_neg (by simpa using hxv)]
        simp

theorem lead_replicate_append (v z : Nat) (r : List Nat) (h : ∀ x, r.head? = some x → x ≠ v) :
    lead v (List.replicate z v ++ r) = z := by
  unfold lead
  induction z with
  | zero =>
    cases r with
    | nil => simp
    | cons x t =>
      have := h x rfl
      simp [List.takeWhile_cons_of_neg, this]
  | succ z ih =>
    simp only [List.replicate_succ, List.cons_append]
    rw [List.takeWhile_cons_of_pos (by simp), List.length_cons, ih]

theorem window_length (input : List Nat) (start stop : Option Int) :
    (window input start stop).length
      = normIndex input.length stop input.length - normIndex input.length start 0 := by
  have := normIndex_le input.length stop input.length le_rfl
  simp [window]
  omega

/-! ## The codec methods on a range are the methods on the window -/

theorem range_facts (v : Nat) (input : List Nat) (start stop : Option Int) :
    zeroRun (some v) input (normIndex input.length start 0)
        (normIndex input.length stop input.length - normIndex input.length start 0) 0
      = lead v (window input start stop)
    ∧ (input.take (normIndex input.length stop input.length)).drop
        (normIndex input.length start 0 + lead v (window input start stop))
      = (window input start stop).drop (lead v (window input start stop)) := by
  constructor
  · simp only [window]
    generalize normIndex input.length start 0 = a
    generalize normIndex input.length stop input.length = e
    rw [zeroRun_eq v input a (e - a) 0 (input.drop a) (by simp)]
    simp [List.drop_take]
  · simp [window, List.drop_drop]

theorem encodeToString_eq_core (c : Codec) (input : List Nat) (start stop : Option Int) :
    encodeToString c input start stop =
      match encCore (window input start stop) with
      | none => .overrun
      | some (zeroCount, digits) =>
        .returns ((if zeroCount ≠ 0 then (List.replicate zeroCount (charAt c.alphabet 0)).flatten
            else []) ++ (digits.map (charAt c.alphabet)).flatten) := by
  obtain ⟨h1, h2⟩ := range_facts 0 input start stop
  unfold encodeToString encCore
  simp only [h1, h2, window_length]
  cases encLoop _ _ _ _ with
  | none => rfl
  | some r => rfl

theorem encode_eq_core (c : Codec) (input : List Nat) (start stop : Option Int) :
    encode c input start stop =
      match encCore (window input start stop) with
      | none => .overrun
      | some (zeroCount, digits) =>
        .returns (List.replicate zeroCount (c.baseMap.getD 0 0)
          ++ digits.map (fun charIndex => c.baseMap.getD charIndex 0)) := by
  obtain ⟨h1, h2⟩ := range_facts 0 input start stop
  unfold encode encCore
  simp only [h1, h2, window_length]
  cases encLoop _ _ _ _ with
  | none => rfl
  | some r => rfl

/-- The digits that encode computes: the leading-zero count and the canonical
radix-58 digits of the rest. -/
theorem encCore_eq (z : Nat) (r : List Nat) (hr : ∀ x ∈ r, x < 256)
    (hhead : ∀ x, r.head? = some x → x ≠ 0) :
    encCore (List.replicate z 0 ++ r) = some (z, canon 58 (valueOf 256 r)) := by
  unfold encCore
  have hz : lead 0 (List.replicate z 0 ++ r) = z := lead_replicate_append 0 z r hhead
  have hlen : (List.replicate z 0 ++ r).length - z = r.length := by simp
  have hdrop : (List.replicate z 0 ++ r).drop z = r := by
    rw [List.drop_append_of_le_length (by simp)]
    simp
  simp only [hz, hlen, hdrop]
  have hfit : accum 256 0 r < 58 ^ encSize r.length := by
    rw [accum_zero_eq_valueOf]
    exact lt_trans (valueOf_lt_pow (by norm_num) r hr) (lt_pow_encSize _)
  have := encLoop_holds (encSize r.length) r 0 hr hfit
  rw [holds_zero] at this
  simp only at this
  rw [this, accum_zero_eq_valueOf]
  simp only [holds]
  have hle : (canon 58 (valueOf 256 r)).length ≤ encSize r.length :=
    canon_length_le (by norm_num) _ _ (by rw [← accum_zero_eq_valueOf]; exact hfit)
  have ht : ((((encSize r.length - (canon 58 (valueOf 256 r)).length : Nat) : Int) - 1) + 1).toNat
      = encSize r.length - (canon 58 (valueOf 256 r)).length := by omega
  rw [ht, List.drop_append_of_le_length (by simp)]
  simp

/-! ## The tables of a constructed codec -/

theorem createLoop_lookup_not_mem (ch : Nat) : ∀ (l : List Nat) (i : Nat) (t : Lookups),
    ch ∉ l → (createLoop l i t).lookup ch = t.lookup ch := by
  intro l
  induction l with
  | nil => intro i t _; rfl
  | cons x rest ih =>
    intro i t h
    simp only [List.mem_cons, not_or] at h
    rw [createLoop, ih _ _ h.2]
    simp [Table.set, h.1]

theorem createLoop_lookup_mem (ch : Nat) : ∀ (l : List Nat) (i : Nat) (t : Lookups),
    l.Nodup → ch ∈ l → (createLoop l i t).lookup ch = some (i + l.indexOf ch) := by
  intro l
  induction l with
  | nil => intro i t _ h; simp at h
  | cons x rest ih =>
    intro i t hnd h
    rw [List.nodup_cons] at hnd
    rw [createLoop]
    by_cases hx : ch = x
    · subst hx
      rw [createLoop_lookup_not_mem _ _ _ _ hnd.1]
      simp [Table.set]
    · have hmem : ch ∈ rest := by
        rcases List.mem_cons.1 h with h | h
        · exact absurd h hx
        · exact h
      rw [ih _ _ hnd.2 hmem, List.indexOf_cons_ne _ (Ne.symm hx)]
      congr 1
      omega

theorem createLoop_baseMapLookup : ∀ (l : List Nat) (i : Nat) (t : Lookups),
    t.baseMapLookup = t.lookup → (createLoop l i t).baseMapLookup = (createLoop l i t).lookup := by
  intro l
  induction l with
  | nil => intro i t h; exact h
  | cons x rest ih =>
    intro i t h
    rw [createLoop]
    apply ih
    simp [h]

theorem createLoop_baseMap : ∀ (l : List Nat) (i : Nat) (t : Lookups),
    i + l.length ≤ t.baseMap.length →
    (createLoop l i t).baseMap
      = t.baseMap.take i ++ l.map u8 ++ t.baseMap.drop (i + l.length) := by
  intro l
  induction l with
  | nil => intro i t _; simp [createLoop]
  | cons x rest ih =>
    intro i t h
    simp only [List.length_cons] at h
    rw [createLoop, ih _ _ (by simp; omega)]
    simp only [List.length_cons, List.map_cons]
    have hi : i < t.baseMap.length := by omega
    rw [List.drop_set_of_lt _ _ (by omega)]
    have htake : List.take (i + 1) (t.baseMap.set i (u8 x)) = List.take i t.baseMap ++ [u8 x] := by
      rw [List.set_eq_take_append_cons_drop, if_pos hi, List.take_append_eq_append_take,
        List.take_take]
      have h1 : min (i + 1) i = i := by omega
      have h2 : (List.take i t.baseMap).length = i := by simp; omega
      rw [h1, h2]
      have h3 : i + 1 - i = 1 := by omega
      simp [h3]
    rw [htake]
    have h4 : i + 1 + rest.length = i + (rest.length + 1) := by omega
    simp [h4]

theorem ALPHABET_lt : ∀ ch ∈ ALPHABET, ch < 128 := by decide

theorem Codec.ofAlphabet_valid (a : List Nat) (hlen : a.length = 58) (hnd : a.Nodup)
    (hsub : ∀ ch ∈ a, ch ∈ ALPHABET) : (Codec.ofAlphabet a).Valid := by
  have htake : a.take BASE = a := by
    rw [List.take_of_length_le]; simp [BASE, hlen]
  refine ⟨hlen, hnd, hsub, ?_, ?_, ?_, ?_⟩
  · intro ch hch
    simp only [Codec.ofAlphabet, createAlphabetLookups, htake]
    rw [createLoop_lookup_mem ch a 0 _ hnd hch]
    simp
  · intro ch hch
    simp only [Codec.ofAlphabet, createAlphabetLookups, htake]
    rw [createLoop_lookup_not_mem ch a 0 _ hch]
    rfl
  · simp only [Codec.ofAlphabet, createAlphabetLookups, htake]
    rw [createLoop_baseMap a 0 _ (by simp [BASE, hlen])]
    simp only [List.take_zero, List.nil_append, Nat.zero_add]
    rw [List.drop_of_length_le (by simp [BASE, hlen])]
    simp only [List.append_nil]
    conv_rhs => rw [← List.map_id a]
    apply List.map_congr_left
    intro ch hch
    exact u8_of_lt (by have := ALPHABET_lt ch (hsub ch hch); omega)
  · simp only [Codec.ofAlphabet, createAlphabetLookups]
    exact createLoop_baseMapLookup _ _ _ rfl

theorem base58_valid : base58.Valid :=
  Codec.ofAlphabet_valid ALPHABET (by decide) (by decide) (fun _ h => h)

theorem toAlphabetLoop_ok (T : Table) : ∀ (l : List Nat) (i : Nat) (U : Table),
    toAlphabetLoop T l i U = .ok () →
    (∀ ch ∈ l, T ch ≠ none) ∧ (∀ ch ∈ l, U ch = none) ∧ l.Nodup := by
  intro l
  induction l with
  | nil => intro i U _; simp
  | cons x rest ih =>
    intro i U h
    rw [toAlphabetLoop] at h
    by_cases h1 : T x = none
    · rw [if_pos h1] at h; cases h
    · rw [if_neg h1] at h
      by_cases h2 : U x ≠ none
      · rw [if_pos h2] at h; cases h
      · rw [if_neg h2] at h
        push_neg at h2
        obtain ⟨a1, a2, a3⟩ := ih _ _ h
        have hx : x ∉ rest := by
          intro hmem
          have := a2 x hmem
          simp [Table.set] at this
        refine ⟨?_, ?_, List.nodup_cons.2 ⟨hx, a3⟩⟩
        · intro ch hch
          rcases List.mem_cons.1 hch with h | h
          · rw [h]; exact h1
          · exact a1 ch h
        · intro ch hch
          rcases List.mem_cons.1 hch with h | h
          · rw [h]; exact h2
          · have := a2 ch h
            by_cases hcx : ch = x
            · rw [hcx]; exact h2
            · simpa [Table.set, hcx] using this

/-- Every codec that the constructor returns is valid. -/
theorem Codec.new_valid (arg : Option (List Nat)) (c : Codec) (h : Codec.new arg = .ok c) :
    c.Valid := by
  unfold Codec.new at h
  cases arg with
  | none =>
    simp only [toAlphabet] at h
    cases h
    exact base58_valid
  | some v =>
    simp only [toAlphabet] at h
    by_cases hlen : v.length ≠ BASE
    · rw [if_pos hlen] at h; cases h
    · rw [if_neg hlen] at h
      push_neg at hlen
      have htake : v.take BASE = v := by rw [List.take_of_length_le]; omega
      rw [htake] at h
      cases hloop : toAlphabetLoop base58.alphabetLookup v 0 Table.empty with
      | error e => rw [hloop] at h; cases h
      | ok u =>
        rw [hloop] at h
        simp only at h
        cases h
        obtain ⟨a1, _, a3⟩ := toAlphabetLoop_ok _ _ _ _ hloop
        apply Codec.ofAlphabet_valid v hlen a3
        intro ch hch
        by_contra hnot
        exact a1 ch hch (base58_valid.lookup_not_mem ch hnot)

/-! ## Decoding -/

theorem decLoop_returns (T : Table) (size : Nat) : ∀ (xs : List Nat) (i V : Nat),
    (∀ ch ∈ xs, ∃ d, T ch = some d ∧ d < 58) →
    accum 58 V (digitsOf T xs) < 256 ^ size →
    decLoop T size xs i (holds 256 size V).1 (holds 256 size V).2
      = .returns (holds 256 size (accum 58 V (digitsOf T xs))) := by
  intro xs
  induction xs with
  | nil => intro i V _ _; simp [decLoop, accum, digitsOf]
  | cons x xs ih =>
    intro i V hx hfit
    obtain ⟨d, hd, hd58⟩ := hx x (List.mem_cons_self _ _)
    have hdig : digitsOf T (x :: xs) = d :: digitsOf T xs := by simp [digitsOf, hd]
    rw [hdig] at hfit ⊢
    have hfit1 : 58 * V + d < 256 ^ size :=
      lt_of_le_of_lt (accum_ge (by norm_num) (digitsOf T xs) _) hfit
    have hp := decPass_isPass.holds (by norm_num) (by norm_num) size V d hd58 hfit1
    simp only [decLoop, hd, hp]
    exact ih (i + 1) (58 * V + d) (fun y hy => hx y (List.mem_cons_of_mem _ hy)) hfit

theorem decLoop_throws (T : Table) (size : Nat) (bad : Nat) (post : List Nat)
    (hbad : T bad = none) : ∀ (pre : List Nat) (i V : Nat),
    (∀ ch ∈ pre, ∃ d, T ch = some d ∧ d < 58) →
    accum 58 V (digitsOf T pre) < 256 ^ size →
    decLoop T size (pre ++ bad :: post) i (holds 256 size V).1 (holds 256 size V).2
      = .throws (.invalidCharacter bad (i + pre.length)) := by
  intro pre
  induction pre with
  | nil => intro i V _ _; simp [decLoop, hbad]
  | cons x xs ih =>
    intro i V hx hfit
    obtain ⟨d, hd, hd58⟩ := hx x (List.mem_cons_self _ _)
    have hdig : digitsOf T (x :: xs) = d :: digitsOf T xs := by simp [digitsOf, hd]
    rw [hdig] at hfit
    have hfit1 : 58 * V + d < 256 ^ size :=
      lt_of_le_of_lt (accum_ge (by norm_num) (digitsOf T xs) _) hfit
    have hp := decPass_isPass.holds (by norm_num) (by norm_num) size V d hd58 hfit1
    have := ih (i + 1) (58 * V + d) (fun y hy => hx y (List.mem_cons_of_mem _ hy)) hfit
    simp only [List.cons_append, decLoop, hd, hp, List.length_cons]
    refine Eq.trans this ?_
    congr 2
    omega

theorem decLoop_shift (T : Table) (size a : Nat) : ∀ (xs : List Nat) (k : Nat) (bytes : List Nat)
    (L : Int), decLoop T size xs (a + k) bytes L = (decLoop T size xs k bytes L).shift a := by
  intro xs
  induction xs with
  | nil => intro k bytes L; rfl
  | cons x xs ih =>
    intro k bytes L
    simp only [decLoop]
    cases T x with
    | none => rfl
    | some d =>
      simp only
      cases decPass L size bytes d with
      | none => rfl
      | some r => exact ih (k + 1) r.1 r.2

theorem decLoopBytes_eq (T : Table) (size : Nat) : ∀ (xs : List Nat) (k : Nat)
    (bytes : List Nat) (L : Int),
    decLoopBytes T size xs k bytes L = (decLoop T size xs k bytes L).asBytes := by
  intro xs
  induction xs with
  | nil => intro k bytes L; rfl
  | cons x xs ih =>
    intro k bytes L
    simp only [decLoop, decLoopBytes]
    cases T x with
    | none => rfl
    | some d =>
      simp only
      cases decPass L size bytes d with
      | none => rfl
      | some r => exact ih (k + 1) r.1 r.2

theorem decodeFromString_eq_core (c : Codec) (v : Nat) (hv : c.alphabet[0]? = some v)
    (string : List Nat) (start stop : Option Int) :
    decodeFromString c string start stop
      = (decCore c.alphabetLookup v (window string start stop)).shift
          (normIndex string.length start 0) := by
  obtain ⟨h1, h2⟩ := range_facts v string start stop
  unfold decodeFromString decCore
  simp only [hv, h1, h2, window_length]
  rw [decLoop_shift]
  cases decLoop _ _ _ _ _ _ with
  | returns r => rfl
  | overrun => rfl
  | throws e => cases e <;> rfl

theorem decode_eq_core (c : Codec) (v : Nat) (hv : c.baseMap[0]? = some v)
    (input : List Nat) (start stop : Option Int) :
    decode c input start stop
      = ((decCore c.baseMapLookup v (window input start stop)).shift
          (normIndex input.length start 0)).asBytes := by
  obtain ⟨h1, h2⟩ := range_facts v input start stop
  unfold decode decCore
  simp only [hv, h1, h2, window_length]
  rw [decLoopBytes_eq, decLoop_shift]
  cases decLoop _ _ _ _ _ _ with
  | returns r => rfl
  | overrun => rfl
  | throws e => cases e <;> rfl

theorem lead_le_length (v : Nat) (xs : List Nat) : lead v xs ≤ xs.length := by
  unfold lead
  exact (List.takeWhile_sublist _).length_le

theorem decCore_returns (T : Table) (v : Nat) (xs : List Nat)
    (h : ∀ ch ∈ xs.drop (lead v xs), ∃ d, T ch = some d ∧ d < 58) :
    decCore T v xs = .returns (List.replicate (lead v xs) 0
      ++ canon 256 (valueOf 58 (digitsOf T (xs.drop (lead v xs))))) := by
  unfold decCore
  have hlen : xs.length - lead v xs = (digitsOf T (xs.drop (lead v xs))).length := by
    simp [digitsOf]
  have hfit : accum 58 0 (digitsOf T (xs.drop (lead v xs))) < 256 ^ decSize (xs.length - lead v xs) := by
    rw [accum_zero_eq_valueOf, hlen]
    refine lt_trans (valueOf_lt_pow (by norm_num) _ ?_) (lt_pow_decSize _)
    intro d hd
    simp only [digitsOf, List.mem_map] at hd
    obtain ⟨ch, hch, rfl⟩ := hd
    obtain ⟨d, hd1, hd2⟩ := h ch hch
    simp [hd1, hd2]
  have := decLoop_returns T (decSize (xs.length - lead v xs)) _ (lead v xs) 0 h hfit
  rw [holds_zero] at this
  simp only at this
  simp only [this, accum_zero_eq_valueOf, holds]
  have hle : (canon 256 (valueOf 58 (digitsOf T (xs.drop (lead v xs))))).length
      ≤ decSize (xs.length - lead v xs) :=
    canon_length_le (by norm_num) _ _ (by rw [← accum_zero_eq_valueOf]; exact hfit)
  have ht : ((((decSize (xs.length - lead v xs)
      - (canon 256 (valueOf 58 (digitsOf T (xs.drop (lead v xs))))).length : Nat) : Int) - 1)
        + 1).toNat
      = decSize (xs.length - lead v xs)
        - (canon 256 (valueOf 58 (digitsOf T (xs.drop (lead v xs))))).length := by omega
  rw [ht, List.drop_append_of_le_length (by simp)]
  simp

theorem decCore_throws (T : Table) (v : Nat) (xs pre post : List Nat) (bad : Nat)
    (hxs : xs.drop (lead v xs) = pre ++ bad :: post)
    (h : ∀ ch ∈ pre, ∃ d, T ch = some d ∧ d < 58) (hbad : T bad = none) :
    decCore T v xs = .throws (.invalidCharacter bad (lead v xs + pre.length)) := by
  unfold decCore
  have hlen : pre.length ≤ xs.length - lead v xs := by
    have := congrArg List.length hxs
    simp at this
    omega
  have hfit : accum 58 0 (digitsOf T pre) < 256 ^ decSize (xs.length - lead v xs) := by
    rw [accum_zero_eq_valueOf]
    have h1 : valueOf 58 (digitsOf T pre) < 58 ^ (digitsOf T pre).length := by
      apply valueOf_lt_pow (by norm_num)
      intro d hd
      simp only [digitsOf, List.mem_map] at hd
      obtain ⟨ch, hch, rfl⟩ := hd
      obtain ⟨d, hd1, hd2⟩ := h ch hch
      simp [hd1, hd2]
    have h2 : 58 ^ (digitsOf T pre).length ≤ 58 ^ (xs.length - lead v xs) := by
      apply Nat.pow_le_pow_right (by norm_num)
      simpa [digitsOf] using hlen
    exact lt_of_lt_of_le h1 (le_trans h2 (le_of_lt (lt_pow_decSize _)))
  have := decLoop_throws T (decSize (xs.length - lead v xs)) bad post hbad pre (lead v xs) 0 h hfit
  rw [holds_zero] at this
  simp only at this
  simp only [hxs, this]

theorem sliceBound_spec (n : Nat) (x : Option Int) (dflt : Nat) :
    0 ≤ sliceBound n x dflt ∧ (sliceBound n x dflt).toNat = normIndex n x dflt := by
  unfold sliceBound normIndex
  cases x with
  | none => simp
  | some o =>
    simp only
    by_cases h : o < 0
    · rw [if_pos h, if_pos h]; exact ⟨by omega, rfl⟩
    · rw [if_neg h, if_neg h]; exact ⟨by omega, rfl⟩

theorem drop_take_int (input : List Nat) (F T : Int) (hF : 0 ≤ F) (hT : 0 ≤ T) :
    (if T ≤ F then [] else (input.drop F.toNat).take (T - F).toNat)
      = (input.take T.toNat).drop F.toNat := by
  rw [List.drop_take]
  split
  · have : T.toNat - F.toNat = 0 := by omega
    simp [this]
  · have : (T - F).toNat = T.toNat - F.toNat := by omega
    rw [this]

theorem slice_eq_window (input : List Nat) (start stop : Option Int) :
    slice input start stop = window input start stop := by
  obtain ⟨h1, h2⟩ := sliceBound_spec input.length start 0
  obtain ⟨h3, h4⟩ := sliceBound_spec input.length stop input.length
  simp only [Nat.cast_zero] at h1 h2
  unfold slice window
  simp only
  rw [drop_take_int input _ _ h1 h3, h2, h4]

/-! ## Reference behaviour of a valid codec -/

theorem lead_split (v : Nat) (xs : List Nat) :
    xs = List.replicate (lead v xs) v ++ xs.drop (lead v xs)
      ∧ ∀ x, (xs.drop (lead v xs)).head? = some x → x ≠ v := by
  unfold lead
  induction xs with
  | nil => simp
  | cons a t ih =>
    by_cases h : a = v
    · subst h
      rw [List.takeWhile_cons_of_pos (by simp)]
      simp only [List.length_cons, List.replicate_succ, List.cons_append, List.drop_succ_cons]
      exact ⟨by rw [← ih.1], ih.2⟩
    · rw [List.takeWhile_cons_of_neg (by simpa using h)]
      simp only [List.length_nil, List.replicate_zero, List.nil_append, List.drop_zero,
        List.head?_cons, Option.some.injEq, true_and]
      intro x hx
      rw [← hx]; exact h

theorem Codec.Valid.getD_eq {c : Codec} (hv : c.Valid) {d : Nat} (hd : d < 58) :
    c.alphabet[d]? = some (c.alphabet.getD d 0) := by
  have : d < c.alphabet.length := by rw [hv.length]; exact hd
  simp [List.getD_eq_getElem?_getD, List.getElem?_eq_getElem this]

theorem Codec.Valid.getD_mem {c : Codec} (hv : c.Valid) {d : Nat} (hd : d < 58) :
    c.alphabet.getD d 0 ∈ c.alphabet :=
  List.getElem?_mem (hv.getD_eq hd)

theorem Codec.Valid.charAt_eq {c : Codec} (hv : c.Valid) {d : Nat} (hd : d < 58) :
    charAt c.alphabet d = [c.alphabet.getD d 0] := by
  unfold charAt
  rw [hv.getD_eq hd]

theorem Codec.Valid.indexOf_getD {c : Codec} (hv : c.Valid) {d : Nat} (hd : d < 58) :
    c.alphabet.indexOf (c.alphabet.getD d 0) = d := by
  have hlt : d < c.alphabet.length := by rw [hv.length]; exact hd
  have := List.indexOf_getElem hv.nodup d hlt
  rw [List.getD_eq_getElem _ _ hlt]
  exact this

theorem Codec.Valid.getD_indexOf {c : Codec} (_hv : c.Valid) {ch : Nat} (hch : ch ∈ c.alphabet) :
    c.alphabet.getD (c.alphabet.indexOf ch) 0 = ch := by
  have hlt : c.alphabet.indexOf ch < c.alphabet.length := List.indexOf_lt_length.2 hch
  rw [List.getD_eq_getElem _ _ hlt]
  exact List.getElem_indexOf hlt

theorem Codec.Valid.indexOf_lt {c : Codec} (hv : c.Valid) {ch : Nat} (hch : ch ∈ c.alphabet) :
    c.alphabet.indexOf ch < 58 := by
  rw [← hv.length]; exact List.indexOf_lt_length.2 hch

theorem Codec.Valid.lookup_valid {c : Codec} (hv : c.Valid) (t : List Nat)
    (ht : ∀ ch ∈ t, ch ∈ c.alphabet) :
    ∀ ch ∈ t, ∃ d, c.alphabetLookup ch = some d ∧ d < 58 :=
  fun ch hch => ⟨_, hv.lookup_mem ch (ht ch hch), hv.indexOf_lt (ht ch hch)⟩

theorem Codec.Valid.digitsOf_eq {c : Codec} (hv : c.Valid) (t : List Nat)
    (ht : ∀ ch ∈ t, ch ∈ c.alphabet) :
    digitsOf c.alphabetLookup t = t.map (fun ch => c.alphabet.indexOf ch) := by
  unfold digitsOf
  apply List.map_congr_left
  intro ch hch
  rw [hv.lookup_mem ch (ht ch hch)]
  rfl

theorem Codec.Valid.baseMap_head {c : Codec} (hv : c.Valid) :
    c.baseMap[0]? = some (c.alphabet.getD 0 0) := by
  rw [hv.baseMap_eq]; exact hv.getD_eq (by norm_num)

theorem window_none (input : List Nat) : window input none none = input := by
  simp [window, normIndex]

theorem encodeToString_spec {c : Codec} (hv : c.Valid) (z : Nat) (r : List Nat)
    (hr : ∀ x ∈ r, x < 256) (hhead : ∀ x, r.head? = some x → x ≠ 0) :
    encodeToString c (List.replicate z 0 ++ r) none none
      = .returns (List.replicate z (c.alphabet.getD 0 0)
          ++ (canon 58 (valueOf 256 r)).map (fun d => c.alphabet.getD d 0)) := by
  rw [encodeToString_eq_core, window_none, encCore_eq z r hr hhead]
  simp only
  congr 2
  · by_cases hz : z = 0
    · simp [hz]
    · rw [if_pos hz, hv.charAt_eq (by norm_num)]
      induction z with
      | zero => simp
      | succ n ih =>
        by_cases hn : n = 0
        · simp [hn]
        · simp only [List.replicate_succ, List.flatten_cons, List.singleton_append]
          rw [ih hn]
  · have hlt := canon_lt (b := 58) (by norm_num) (valueOf 256 r)
    generalize canon 58 (valueOf 256 r) = E at hlt
    induction E with
    | nil => simp
    | cons d E ih =>
      simp only [List.map_cons, List.flatten_cons]
      rw [hv.charAt_eq (hlt d (List.mem_cons_self _ _)),
        ih (fun x hx => hlt x (List.mem_cons_of_mem _ hx))]
      simp

theorem decodeFromString_spec {c : Codec} (hv : c.Valid) (z : Nat) (t : List Nat)
    (ht : ∀ ch ∈ t, ch ∈ c.alphabet) (hhead : ∀ x, t.head? = some x → x ≠ c.alphabet.getD 0 0) :
    decodeFromString c (List.replicate z (c.alphabet.getD 0 0) ++ t) none none
      = .returns (List.replicate z 0
          ++ canon 256 (valueOf 58 (t.map (fun ch => c.alphabet.indexOf ch)))) := by
  rw [decodeFromString_eq_core c _ (hv.getD_eq (by norm_num)), window_none]
  have hz := lead_replicate_append (c.alphabet.getD 0 0) z t hhead
  have hdrop : (List.replicate z (c.alphabet.getD 0 0) ++ t).drop z = t := by
    rw [List.drop_append_of_le_length (by simp)]
    simp
  rw [decCore_returns _ _ _ (by rw [hz, hdrop]; exact hv.lookup_valid t ht), hz, hdrop,
    hv.digitsOf_eq t ht]
  rfl

/-- The buffer sizes of the model are the floors of the real expressions. -/
theorem encSize_eq_floor (m : Nat) :
    ((encSize m : Nat) : Int) = ⌊(m : ℝ) * (Real.log 256 / Real.log 58)⌋ + 1 := by
  unfold encSize
  rw [floorLog_eq (by norm_num)]
  have h : (m : ℝ) * (Real.log 256 / Real.log 58) = Real.logb (58 : ℕ) ((256 ^ m : ℕ) : ℝ) := by
    rw [Real.log_div_log]
    push_cast
    rw [Real.logb_pow]
  rw [h, Real.floor_logb_natCast (Nat.cast_nonneg _), Int.log_natCast]
  push_cast
  rfl

theorem decSize_eq_floor (m : Nat) :
    ((decSize m : Nat) : Int) = ⌊(m : ℝ) * (Real.log 58 / Real.log 256)⌋ + 1 := by
  unfold decSize
  rw [floorLog_eq (by norm_num)]
  have h : (m : ℝ) * (Real.log 58 / Real.log 256) = Real.logb (256 : ℕ) ((58 ^ m : ℕ) : ℝ) := by
    rw [Real.log_div_log]
    push_cast
    rw [Real.logb_pow]
  rw [h, Real.floor_logb_natCast (Nat.cast_nonneg _), Int.log_natCast]
  push_cast
  rfl

theorem decode_encode_aux {c : Codec} (hv : c.Valid) (b : List Nat) (hb : ∀ x ∈ b, x < 256) :
    ∃ s, encodeToString c b none none = .returns s
      ∧ decodeFromString c s none none = .returns b := by
  obtain ⟨hsplit, hhead⟩ := lead_split 0 b
  have hr : ∀ x ∈ b.drop (lead 0 b), x < 256 := fun x hx => hb x (List.mem_of_mem_drop hx)
  refine ⟨_, by rw [hsplit]; exact encodeToString_spec hv _ _ hr hhead, ?_⟩
  have hE := canon_lt (b := 58) (by norm_num) (valueOf 256 (b.drop (lead 0 b)))
  have hEh := canon_head_ne_zero 58 (valueOf 256 (b.drop (lead 0 b)))
  rw [decodeFromString_spec hv]
  · rw [List.map_map]
    have hmap : List.map ((fun ch => c.alphabet.indexOf ch) ∘ fun d => c.alphabet.getD d 0)
        (canon 58 (valueOf 256 (b.drop (lead 0 b)))) = canon 58 (valueOf 256 (b.drop (lead 0 b))) := by
      conv_rhs => rw [← List.map_id (canon 58 (valueOf 256 (b.drop (lead 0 b))))]
      apply List.map_congr_left
      intro d hd
      exact hv.indexOf_getD (hE d hd)
    rw [hmap, valueOf_canon, canon_valueOf (by norm_num) _ hr hhead]
    exact congrArg _ hsplit.symm
  · intro ch hch
    obtain ⟨d, hd, rfl⟩ := List.mem_map.1 hch
    exact hv.getD_mem (hE d hd)
  · intro x hx
    rw [List.head?_map] at hx
    cases hcan : (canon 58 (valueOf 256 (b.drop (lead 0 b)))).head? with
    | none => rw [hcan] at hx; cases hx
    | some d =>
      rw [hcan] at hx
      cases hx
      have hd0 : d ≠ 0 := hEh d hcan
      have hdlt : d < 58 := hE d (List.mem_of_mem_head? hcan)
      intro heq
      have := congrArg (fun ch => c.alphabet.indexOf ch) heq
      simp only [hv.indexOf_getD hdlt, hv.indexOf_getD (show 0 < 58 by norm_num)] at this
      exact hd0 this

theorem encode_decode_aux {c : Codec} (hv : c.Valid) (s : List Nat)
    (hs : ∀ ch ∈ s, ch ∈ c.alphabet) :
    ∃ b, decodeFromString c s none none = .returns b
      ∧ encodeToString c b none none = .returns s := by
  obtain ⟨hsplit, hhead⟩ := lead_split (c.alphabet.getD 0 0) s
  have ht : ∀ ch ∈ s.drop (lead (c.alphabet.getD 0 0) s), ch ∈ c.alphabet :=
    fun x hx => hs x (List.mem_of_mem_drop hx)
  refine ⟨_, by rw [hsplit]; exact decodeFromString_spec hv _ _ ht hhead, ?_⟩
  generalize s.drop (lead (c.alphabet.getD 0 0) s) = t at hsplit hhead ht
  generalize lead (c.alphabet.getD 0 0) s = z at hsplit
  rw [encodeToString_spec hv z _ (canon_lt (by norm_num) _) (canon_head_ne_zero _ _),
    valueOf_canon, canon_valueOf (by norm_num)]
  · rw [List.map_map]
    have hmap : List.map ((fun d => c.alphabet.getD d 0) ∘ fun ch => c.alphabet.indexOf ch) t
        = t := by
      conv_rhs => rw [← List.map_id t]
      apply List.map_congr_left
      intro ch hch
      exact hv.getD_indexOf (ht ch hch)
    rw [hmap]
    exact congrArg _ hsplit.symm
  · intro d hd
    obtain ⟨ch, hch, rfl⟩ := List.mem_map.1 hd
    exact hv.indexOf_lt (ht ch hch)
  · intro x hx
    rw [List.head?_map] at hx
    cases hth : t.head? with
    | none => rw [hth] at hx; cases hx
    | some ch =>
      rw [hth] at hx
      cases hx
      intro h0
      have hmem : ch ∈ c.alphabet := ht ch (List.mem_of_mem_head? hth)
      have := hv.getD_indexOf hmem
      simp only at h0
      rw [h0] at this
      exact hhead ch hth this.symm

theorem lead_append_bad (v bad : Nat) (hbad : bad ≠ v) (post : List Nat) : ∀ pre : List Nat,
    lead v (pre ++ bad :: post) = lead v pre := by
  intro pre
  unfold lead
  induction pre with
  | nil => simp [List.takeWhile_cons_of_neg, hbad]
  | cons a t ih =>
    by_cases h : a = v
    · simp only [List.cons_append]
      rw [List.takeWhile_cons_of_pos (by simpa using h), List.takeWhile_cons_of_pos (by simpa using h)]
      simp only [List.length_cons, ih]
    · simp only [List.cons_append]
      rw [List.takeWhile_cons_of_neg (by simpa using h), List.takeWhile_cons_of_neg (by simpa using h)]

theorem exists_first_bad (P : Nat → Prop) : ∀ s : List Nat, (∃ ch ∈ s, ¬ P ch) →
    ∃ pre bad post, s = pre ++ bad :: post ∧ (∀ ch ∈ pre, P ch) ∧ ¬ P bad := by
  intro s
  induction s with
  | nil => intro h; obtain ⟨_, h, _⟩ := h; simp at h
  | cons a t ih =>
    intro h
    by_cases ha : P a
    · have : ∃ ch ∈ t, ¬ P ch := by
        obtain ⟨ch, hch, hP⟩ := h
        rcases List.mem_cons.1 hch with h1 | h1
        · subst h1; exact absurd ha hP
        · exact ⟨ch, h1, hP⟩
      obtain ⟨pre, bad, post, h1, h2, h3⟩ := ih this
      refine ⟨a :: pre, bad, post, by rw [h1]; rfl, ?_, h3⟩
      intro ch hch
      rcases List.mem_cons.1 hch with h4 | h4
      · rw [h4]; exact ha
      · exact h2 ch h4
    · exact ⟨[], a, t, rfl, by simp, ha⟩

/-- The decode of a whole sequence over a valid alphabet returns. -/
theorem decCore_valid_returns {c : Codec} (hv : c.Valid) (xs : List Nat)
    (h : ∀ ch ∈ xs, ch ∈ c.alphabet) :
    ∃ b, decCore c.alphabetLookup (c.alphabet.getD 0 0) xs = .returns b :=
  ⟨_, decCore_returns _ _ _
    (hv.lookup_valid _ (fun ch hch => h ch (List.mem_of_mem_drop hch)))⟩

/-- The decode of a sequence throws at its first symbol outside the alphabet. -/
theorem decCore_valid_throws {c : Codec} (hv : c.Valid) (pre post : List Nat) (bad : Nat)
    (h : ∀ ch ∈ pre, ch ∈ c.alphabet) (hbad : bad ∉ c.alphabet) :
    decCore c.alphabetLookup (c.alphabet.getD 0 0) (pre ++ bad :: post)
      = .throws (.invalidCharacter bad pre.length) := by
  have hne : bad ≠ c.alphabet.getD 0 0 := by
    intro h0
    exact hbad (h0 ▸ hv.getD_mem (by norm_num))
  have hl := lead_append_bad (c.alphabet.getD 0 0) bad hne post pre
  have hle := lead_le_length (c.alphabet.getD 0 0) pre
  have hdrop : (pre ++ bad :: post).drop (lead (c.alphabet.getD 0 0) (pre ++ bad :: post))
      = pre.drop (lead (c.alphabet.getD 0 0) pre) ++ bad :: post := by
    rw [hl, List.drop_append_of_le_length hle]
  rw [decCore_throws _ _ _ _ post bad hdrop
    (hv.lookup_valid _ (fun ch hch => h ch (List.mem_of_mem_drop hch)))
    (hv.lookup_not_mem bad hbad), hl]
  congr 2
  simp only [List.length_drop]
  omega

theorem Outcome.shift_zero {α : Type} (o : Outcome α) : o.shift 0 = o := by
  cases o with
  | returns v => rfl
  | overrun => rfl
  | throws e => cases e <;> simp [Outcome.shift]

/-- Every outcome of `decCore` on a valid codec: either all symbols are in the
alphabet and it returns, or it throws at the first one that is not. -/
theorem decCore_valid_cases {c : Codec} (hv : c.Valid) (xs : List Nat) :
    ((∀ ch ∈ xs, ch ∈ c.alphabet)
        ∧ ∃ b, decCore c.alphabetLookup (c.alphabet.getD 0 0) xs = .returns b)
      ∨ ∃ pre bad post, xs = pre ++ bad :: post ∧ (∀ ch ∈ pre, ch ∈ c.alphabet)
          ∧ bad ∉ c.alphabet
          ∧ decCore c.alphabetLookup (c.alphabet.getD 0 0) xs
              = .throws (.invalidCharacter bad pre.length) := by
  by_cases h : ∀ ch ∈ xs, ch ∈ c.alphabet
  · exact Or.inl ⟨h, decCore_valid_returns hv xs h⟩
  · right
    push_neg at h
    obtain ⟨pre, bad, post, h1, h2, h3⟩ := exists_first_bad (fun ch => ch ∈ c.alphabet) xs h
    exact ⟨pre, bad, post, h1, h2, h3, by rw [h1]; exact decCore_valid_throws hv pre post bad h2 h3⟩

theorem encCore_some (xs : List Nat) (h : ∀ x ∈ xs, x < 256) : ∃ r, encCore xs = some r := by
  obtain ⟨hsplit, hhead⟩ := lead_split 0 xs
  have := encCore_eq (lead 0 xs) (xs.drop (lead 0 xs))
    (fun x hx => h x (List.mem_of_mem_drop hx)) hhead
  rw [← hsplit] at this
  exact ⟨_, this⟩

theorem window_subset (input : List Nat) (start stop : Option Int) :
    ∀ x ∈ window input start stop, x ∈ input := by
  intro x hx
  exact List.mem_of_mem_take (List.mem_of_mem_drop hx)

theorem window_eq_nil (input : List Nat) (start stop : Option Int)
    (h : normIndex input.length stop input.length ≤ normIndex input.length start 0) :
    window input start stop = [] := by
  unfold window
  rw [List.drop_eq_nil_iff]
  simp only [List.length_take]
  omega

theorem encCore_nil : encCore [] = some (0, []) := by decide

theorem Codec.Valid.map_head_ne {c : Codec} (hv : c.Valid) (E : List Nat) (hE : ∀ d ∈ E, d < 58)
    (hEh : ∀ d, E.head? = some d → d ≠ 0) :
    ∀ x, (E.map (fun d => c.alphabet.getD d 0)).head? = some x → x ≠ c.alphabet.getD 0 0 := by
  intro x hx
  rw [List.head?_map] at hx
  cases hcan : E.head? with
  | none => rw [hcan] at hx; cases hx
  | some d =>
    rw [hcan] at hx
    cases hx
    have hd0 : d ≠ 0 := hEh d hcan
    have hdlt : d < 58 := hE d (List.mem_of_mem_head? hcan)
    intro heq
    have := congrArg (fun ch => c.alphabet.indexOf ch) heq
    simp only [hv.indexOf_getD hdlt, hv.indexOf_getD (show 0 < 58 by norm_num)] at this
    exact hd0 this

/-! ## The alphabet predicate and the constructors -/

theorem isAlphabetLoop_iff (T : Table) : ∀ (l : List Nat) (i : Nat) (U : Table),
    isAlphabetLoop T l i U = true
      ↔ (∀ ch ∈ l, T ch ≠ none) ∧ (∀ ch ∈ l, U ch = none) ∧ l.Nodup := by
  intro l
  induction l with
  | nil => intro i U; simp [isAlphabetLoop]
  | cons x rest ih =>
    intro i U
    rw [isAlphabetLoop]
    by_cases h : T x = none ∨ U x ≠ none
    · rw [if_pos h]
      constructor
      · intro hf; cases hf
      · rintro ⟨h1, h2, _⟩
        rcases h with h | h
        · exact absurd h (h1 x (List.mem_cons_self _ _))
        · exact absurd (h2 x (List.mem_cons_self _ _)) h
    · rw [if_neg h, ih]
      push_neg at h
      constructor
      · rintro ⟨a1, a2, a3⟩
        have hx : x ∉ rest := by
          intro hmem
          have := a2 x hmem
          simp [Table.set] at this
        refine ⟨?_, ?_, List.nodup_cons.2 ⟨hx, a3⟩⟩
        · intro ch hch
          rcases List.mem_cons.1 hch with h1 | h1
          · rw [h1]; exact h.1
          · exact a1 ch h1
        · intro ch hch
          rcases List.mem_cons.1 hch with h1 | h1
          · rw [h1]; exact h.2
          · have := a2 ch h1
            by_cases hcx : ch = x
            · rw [hcx]; exact h.2
            · simpa [Table.set, hcx] using this
      · rintro ⟨a1, a2, a3⟩
        rw [List.nodup_cons] at a3
        refine ⟨fun ch hch => a1 ch (List.mem_cons_of_mem _ hch), ?_, a3.2⟩
        intro ch hch
        have hcx : ch ≠ x := fun hcx => a3.1 (hcx ▸ hch)
        simpa [Table.set, hcx] using a2 ch (List.mem_cons_of_mem _ hch)

theorem toAlphabetLoop_eq_ok_iff (T : Table) : ∀ (l : List Nat) (i : Nat) (U : Table),
    toAlphabetLoop T l i U = .ok () ↔ isAlphabetLoop T l i U = true := by
  intro l
  induction l with
  | nil => intro i U; simp [toAlphabetLoop, isAlphabetLoop]
  | cons x rest ih =>
    intro i U
    rw [toAlphabetLoop, isAlphabetLoop]
    by_cases h1 : T x = none
    · simp [h1]
    · by_cases h2 : U x ≠ none
      · simp [h1, h2]
      · rw [if_neg h1, if_neg h2, if_neg (by push_neg; exact ⟨h1, by simpa using h2⟩)]
        exact ih _ _

theorem toAlphabetLoop_error (T : Table) (x : Nat) (post : List Nat) : ∀ (pre : List Nat)
    (i : Nat) (U : Table), (∀ ch ∈ pre, T ch ≠ none) → (∀ ch ∈ pre, U ch = none) → pre.Nodup →
    (T x = none →
      toAlphabetLoop T (pre ++ x :: post) i U
        = .error (.invalidAlphabetCharacter x (i + pre.length)))
    ∧ (T x ≠ none → (x ∈ pre ∨ U x ≠ none) →
      toAlphabetLoop T (pre ++ x :: post) i U
        = .error (.duplicateAlphabetCharacter x (i + pre.length))) := by
  intro pre
  induction pre with
  | nil =>
    intro i U _ _ _
    constructor
    · intro hx; simp [toAlphabetLoop, hx]
    · intro hx hdup
      have hU : U x ≠ none := by
        rcases hdup with h | h
        · simp at h
        · exact h
      simp [toAlphabetLoop, hx, hU]
  | cons a pre ih =>
    intro i U h1 h2 h3
    rw [List.nodup_cons] at h3
    have ha1 : T a ≠ none := h1 a (List.mem_cons_self _ _)
    have ha2 : ¬ U a ≠ none := by
      have := h2 a (List.mem_cons_self _ _)
      simp [this]
    have hrec := ih (i + 1) (U.set a i) (fun ch hch => h1 ch (List.mem_cons_of_mem _ hch))
      (by
        intro ch hch
        have hca : ch ≠ a := fun hca => h3.1 (hca ▸ hch)
        simpa [Table.set, hca] using h2 ch (List.mem_cons_of_mem _ hch))
      h3.2
    have hidx : i + 1 + pre.length = i + (a :: pre).length := by simp; omega
    simp only [List.cons_append, toAlphabetLoop, if_neg ha1, if_neg ha2]
    constructor
    · intro hx
      rw [← hidx]; exact hrec.1 hx
    · intro hx hdup
      rw [← hidx]
      apply hrec.2 hx
      by_cases hxa : x = a
      · right; simp [Table.set, hxa]
      · rcases hdup with h | h
        · left
          rcases List.mem_cons.1 h with h | h
          · exact absurd h hxa
          · exact h
        · right; simpa [Table.set, hxa] using h

theorem base58_lookup_ne_none_iff (ch : Nat) : base58.alphabetLookup ch ≠ none ↔ ch ∈ ALPHABET := by
  constructor
  · intro h
    by_contra hnot
    exact h (base58_valid.lookup_not_mem ch hnot)
  · intro h
    rw [base58_valid.lookup_mem ch h]
    simp

theorem isAlphabet_iff (v : List Nat) :
    isAlphabet v = true ↔ v.length = 58 ∧ (∀ ch ∈ v, ch ∈ ALPHABET) ∧ v.Nodup := by
  unfold isAlphabet
  by_cases hlen : v.length ≠ BASE
  · rw [if_pos hlen]
    constructor
    · intro h; cases h
    · rintro ⟨h, _⟩; exact absurd h hlen
  · rw [if_neg hlen]
    push_neg at hlen
    have htake : v.take BASE = v := by rw [List.take_of_length_le]; omega
    rw [htake, isAlphabetLoop_iff]
    constructor
    · rintro ⟨h1, _, h3⟩
      exact ⟨hlen, fun ch hch => (base58_lookup_ne_none_iff ch).1 (h1 ch hch), h3⟩
    · rintro ⟨_, h2, h3⟩
      exact ⟨fun ch hch => (base58_lookup_ne_none_iff ch).2 (h2 ch hch), fun _ _ => rfl, h3⟩

theorem toAlphabet_some_eq (v : List Nat) (hlen : v.length = 58) :
    toAlphabet (some v)
      = match toAlphabetLoop base58.alphabetLookup v 0 Table.empty with
        | .error e => .error e
        | .ok _ => .ok v := by
  have htake : v.take BASE = v := by rw [List.take_of_length_le]; simp [BASE, hlen]
  simp only [toAlphabet]
  rw [if_neg (by simp [BASE, hlen]), htake]

theorem new_ok_iff (v : List Nat) :
    (∃ c, Codec.new (some v) = .ok c) ↔ isAlphabet v = true := by
  unfold Codec.new isAlphabet
  by_cases hlen : v.length ≠ BASE
  · simp [toAlphabet, hlen]
  · have h58 : v.length = 58 := by simpa [BASE] using hlen
    have htake : v.take BASE = v := by rw [List.take_of_length_le]; simp [BASE, h58]
    rw [toAlphabet_some_eq v h58, if_neg hlen, htake, ← toAlphabetLoop_eq_ok_iff]
    cases hloop : toAlphabetLoop base58.alphabetLookup v 0 Table.empty with
    | error e => simp
    | ok u => simp

theorem new_ok_alphabet (arg : Option (List Nat)) (c : Codec) (h : Codec.new arg = .ok c) :
    c.alphabet = arg.getD ALPHABET := by
  unfold Codec.new at h
  cases arg with
  | none =>
    simp only [toAlphabet] at h
    cases h
    rfl
  | some v =>
    simp only [toAlphabet] at h
    by_cases hlen : v.length ≠ BASE
    · rw [if_pos hlen] at h; cases h
    · rw [if_neg hlen] at h
      cases hloop : toAlphabetLoop base58.alphabetLookup (v.take BASE) 0 Table.empty with
      | error e => rw [hloop] at h; cases h
      | ok u =>
        rw [hloop] at h
        simp only at h
        cases h
        rfl

theorem new_error (v : List Nat) :
    (v.length ≠ 58 → Codec.new (some v) = .error .invalidAlphabetLength)
      ∧ (v.length = 58 → ∀ pre x post, v = pre ++ x :: post → (∀ ch ∈ pre, ch ∈ ALPHABET) →
          pre.Nodup →
          (x ∉ ALPHABET → Codec.new (some v) = .error (.invalidAlphabetCharacter x pre.length))
            ∧ (x ∈ ALPHABET → x ∈ pre →
                Codec.new (some v) = .error (.duplicateAlphabetCharacter x pre.length))) := by
  constructor
  · intro hlen
    simp [Codec.new, toAlphabet, BASE, hlen]
  · intro hlen pre x post hv hpre hnd
    have key := toAlphabetLoop_error base58.alphabetLookup x post pre 0 Table.empty
      (fun ch hch => (base58_lookup_ne_none_iff ch).2 (hpre ch hch)) (fun _ _ => rfl) hnd
    unfold Codec.new
    rw [toAlphabet_some_eq v hlen, hv]
    constructor
    · intro hx
      have hT : base58.alphabetLookup x = none := by
        by_contra h
        exact hx ((base58_lookup_ne_none_iff x).1 h)
      rw [key.1 hT]
      simp
    · intro hx hmem
      rw [key.2 ((base58_lookup_ne_none_iff x).2 hx) (Or.inl hmem)]
      simp

/-! ## The integer codecs -/

theorem encodeIntLoop_eq {c : Codec} (hv : c.Valid) : ∀ (bound number : Nat)
    (h : number ≤ bound) (result : List Nat),
    encodeIntLoop c.alphabet bound number h result
      = (canon 58 number).map (fun d => c.alphabet.getD d 0) ++ result := by
  intro bound
  induction bound with
  | zero =>
    intro number h result
    have : number = 0 := by omega
    subst this
    simp [encodeIntLoop, canon]
  | succ bound ih =>
    intro number h result
    rw [encodeIntLoop]
    by_cases hn : number ≠ 0
    · rw [dif_pos hn, ih]
      have hstep : canon 58 number = canon 58 (number / 58) ++ [number % 58] := by
        have := canon_step (b := 58) (by norm_num) (number % 58) (number / 58)
          (Nat.mod_lt _ (by norm_num))
          (by
            by_contra hcon
            push_neg at hcon
            have := Nat.mod_add_div number 58
            rw [hcon.1, hcon.2] at this
            omega)
        rwa [Nat.mod_add_div] at this
      rw [hstep, hv.charAt_eq (show number % BASE < 58 from Nat.mod_lt _ (by decide))]
      simp [BASE]
    · rw [dif_neg hn]
      push_neg at hn
      subst hn
      simp [canon]

theorem encodeBigInt_eq {c : Codec} (hv : c.Valid) (v : Int) :
    encodeBigInt c v
      = .returns (if v = 0 then [c.alphabet.getD 0 0]
          else if v < 0 then NEGATIVE_CHAR :: (canon 58 (-v).toNat).map (fun d => c.alphabet.getD d 0)
          else (canon 58 v.toNat).map (fun d => c.alphabet.getD d 0)) := by
  unfold encodeBigInt
  by_cases h0 : v = 0
  · simp [h0, hv.charAt_eq (show 0 < 58 by norm_num)]
  · simp only [h0, if_false]
    by_cases hneg : v < 0
    · simp [hneg, encodeIntLoop_eq hv]
    · simp [hneg, encodeIntLoop_eq hv]

theorem encodeInt_eq (c : Codec) (n : Int) (h1 : -MAX_SAFE_INTEGER ≤ n)
    (h2 : n ≤ MAX_SAFE_INTEGER) : encodeInt c n = encodeBigInt c n := by
  unfold encodeInt encodeBigInt
  rw [if_neg (not_lt.2 h1), if_neg (not_lt.2 h2)]

theorem encodeInt_throws_iff (c : Codec) (n : Int) :
    ((∃ e, encodeInt c n = .throws e) ↔ (n < -MAX_SAFE_INTEGER ∨ n > MAX_SAFE_INTEGER))
      ∧ (∀ e, encodeInt c n = .throws e → e = .outOfSafeIntegerRange) := by
  unfold encodeInt
  by_cases h1 : n < -MAX_SAFE_INTEGER
  · simp [h1]
  · by_cases h2 : n > MAX_SAFE_INTEGER
    · simp [h1, h2]
    · simp only [h1, h2, if_false, or_self, iff_false, not_exists]
      by_cases h0 : n = 0
      · simp [h0]
      · simp [h0]

theorem roundDouble_of_lt {x : Nat} (h : x < 9007199254740992) : roundDouble x = x := by
  unfold roundDouble
  rw [if_pos h]

theorem toNumber_of_lt {x : Nat} (h : x < 9007199254740992) : toNumber x = some x := by
  unfold toNumber
  rw [roundDouble_of_lt h, floorLog_eq (by norm_num)]
  have : Nat.log 2 x < 1024 := by
    by_cases hx : x = 0
    · subst hx; simp
    · apply (Nat.lt_pow_iff_log_lt (by norm_num) hx).1
      calc x < 9007199254740992 := h
        _ = 2 ^ 53 := by norm_num
        _ ≤ 2 ^ 1024 := Nat.pow_le_pow_right (by norm_num) (by norm_num)
  rw [if_pos this]

theorem mulAddNumber_of_lt {v d : Nat} (h : 58 * v + d < 9007199254740992) :
    mulAddNumber (some v) d = some (58 * v + d) := by
  unfold mulAddNumber
  simp only [BASE]
  rw [toNumber_of_lt (by omega)]
  simp only
  rw [toNumber_of_lt (by omega), Nat.mul_comm]

theorem decodeBigIntLoop_returns (T : Table) : ∀ (t : List Nat) (i V : Nat),
    (∀ ch ∈ t, ∃ d, T ch = some d ∧ d < 58) →
    decodeBigIntLoop T t i V = .returns (accum 58 V (digitsOf T t)) := by
  intro t
  induction t with
  | nil => intro i V _; simp [decodeBigIntLoop, accum, digitsOf]
  | cons x xs ih =>
    intro i V hx
    obtain ⟨d, hd, _⟩ := hx x (List.mem_cons_self _ _)
    have hdig : digitsOf T (x :: xs) = d :: digitsOf T xs := by simp [digitsOf, hd]
    rw [hdig]
    simp only [decodeBigIntLoop, hd, BASE]
    rw [ih (i + 1) _ (fun y hy => hx y (List.mem_cons_of_mem _ hy))]
    simp [accum, Nat.mul_comm]

theorem decodeBigIntLoop_throws (T : Table) (bad : Nat) (post : List Nat) (hbad : T bad = none) :
    ∀ (pre : List Nat) (i V : Nat), (∀ ch ∈ pre, ∃ d, T ch = some d ∧ d < 58) →
    decodeBigIntLoop T (pre ++ bad :: post) i V
      = .throws (.invalidCharacter bad (i + pre.length)) := by
  intro pre
  induction pre with
  | nil => intro i V _; simp [decodeBigIntLoop, hbad]
  | cons x xs ih =>
    intro i V hx
    obtain ⟨d, hd, _⟩ := hx x (List.mem_cons_self _ _)
    have := ih (i + 1) (V * BASE + d) (fun y hy => hx y (List.mem_cons_of_mem _ hy))
    simp only [List.cons_append, decodeBigIntLoop, hd, List.length_cons]
    refine Eq.trans this ?_
    congr 2
    omega

theorem decodeIntLoop_returns (T : Table) : ∀ (t : List Nat) (i V : Nat),
    (∀ ch ∈ t, ∃ d, T ch = some d ∧ d < 58) →
    accum 58 V (digitsOf T t) < 9007199254740992 →
    decodeIntLoop T t i (some V) = .returns (some (accum 58 V (digitsOf T t))) := by
  intro t
  induction t with
  | nil => intro i V _ _; simp [decodeIntLoop, accum, digitsOf]
  | cons x xs ih =>
    intro i V hx hfit
    obtain ⟨d, hd, _⟩ := hx x (List.mem_cons_self _ _)
    have hdig : digitsOf T (x :: xs) = d :: digitsOf T xs := by simp [digitsOf, hd]
    rw [hdig] at hfit ⊢
    have hfit1 : 58 * V + d < 9007199254740992 :=
      lt_of_le_of_lt (accum_ge (by norm_num) (digitsOf T xs) _) hfit
    simp only [decodeIntLoop, hd, mulAddNumber_of_lt hfit1]
    exact ih (i + 1) _ (fun y hy => hx y (List.mem_cons_of_mem _ hy)) hfit

theorem decodeIntLoop_throws (T : Table) (bad : Nat) (post : List Nat) (hbad : T bad = none) :
    ∀ (pre : List Nat) (i : Nat) (V : Option Nat), (∀ ch ∈ pre, ∃ d, T ch = some d ∧ d < 58) →
    decodeIntLoop T (pre ++ bad :: post) i V
      = .throws (.invalidCharacter bad (i + pre.length)) := by
  intro pre
  induction pre with
  | nil => intro i V _; simp [decodeIntLoop, hbad]
  | cons x xs ih =>
    intro i V hx
    obtain ⟨d, hd, _⟩ := hx x (List.mem_cons_self _ _)
    have := ih (i + 1) (mulAddNumber V d) (fun y hy => hx y (List.mem_cons_of_mem _ hy))
    simp only [List.cons_append, decodeIntLoop, hd, List.length_cons]
    refine Eq.trans this ?_
    congr 2
    omega

theorem decodeIntLoop_throws_kind (T : Table) : ∀ (t : List Nat) (i : Nat) (V : Option Nat)
    (e : Error), decodeIntLoop T t i V = .throws e → e ≠ .outOfSafeIntegerRange := by
  intro t
  induction t with
  | nil => intro i V e h; simp [decodeIntLoop] at h
  | cons x xs ih =>
    intro i V e h
    rw [decodeIntLoop] at h
    cases hx : T x with
    | none =>
      rw [hx] at h
      simp only at h
      cases h
      intro he; cases he
    | some d =>
      rw [hx] at h
      exact ih _ _ e h

theorem decodeInt_eq_loop (c : Codec) (s : List Nat) :
    decodeInt c s
      = match decodeIntLoop c.alphabetLookup (unsigned s) (signLength s) (some 0) with
        | .throws e => .throws e
        | .overrun => .overrun
        | .returns none => .returns (.infinity (decide (s[0]? = some NEGATIVE_CHAR)))
        | .returns (some result) =>
          .returns (.int (if s[0]? = some NEGATIVE_CHAR ∧ result > 0 then -(result : Int)
            else result)) := by
  unfold decodeInt unsigned signLength
  simp only [decide_eq_true_eq]

theorem decodeBigInt_eq_loop (c : Codec) (s : List Nat) :
    decodeBigInt c s
      = match decodeBigIntLoop c.alphabetLookup (unsigned s) (signLength s) 0 with
        | .throws e => .throws e
        | .overrun => .overrun
        | .returns result =>
          .returns (if s[0]? = some NEGATIVE_CHAR then -(result : Int) else result) := by
  unfold decodeBigInt unsigned signLength
  simp only [decide_eq_true_eq]

theorem decodeBigInt_returns {c : Codec} (hv : c.Valid) (s : List Nat)
    (h : ∀ ch ∈ unsigned s, ch ∈ c.alphabet) :
    decodeBigInt c s
      = .returns (if s[0]? = some NEGATIVE_CHAR
          then -(valueOf 58 ((unsigned s).map (fun ch => c.alphabet.indexOf ch)) : Int)
          else valueOf 58 ((unsigned s).map (fun ch => c.alphabet.indexOf ch))) := by
  rw [decodeBigInt_eq_loop, decodeBigIntLoop_returns _ _ _ _ (hv.lookup_valid _ h),
    accum_zero_eq_valueOf, hv.digitsOf_eq _ h]

theorem decodeInt_returns {c : Codec} (hv : c.Valid) (s : List Nat)
    (h : ∀ ch ∈ unsigned s, ch ∈ c.alphabet)
    (hV : valueOf 58 ((unsigned s).map (fun ch => c.alphabet.indexOf ch)) < 9007199254740992) :
    decodeInt c s
      = .returns (.int (if s[0]? = some NEGATIVE_CHAR
          then -(valueOf 58 ((unsigned s).map (fun ch => c.alphabet.indexOf ch)) : Int)
          else valueOf 58 ((unsigned s).map (fun ch => c.alphabet.indexOf ch)))) := by
  rw [← hv.digitsOf_eq _ h] at hV ⊢
  rw [← accum_zero_eq_valueOf] at hV ⊢
  rw [decodeInt_eq_loop, decodeIntLoop_returns _ _ _ _ (hv.lookup_valid _ h) hV]
  simp only
  congr 2
  by_cases hneg : s[0]? = some NEGATIVE_CHAR
  · by_cases h0 : accum 58 0 (digitsOf c.alphabetLookup (unsigned s)) > 0
    · simp [hneg, h0]
    · have : accum 58 0 (digitsOf c.alphabetLookup (unsigned s)) = 0 := by omega
      simp [hneg, this]
  · simp [hneg]

theorem decodeInt_throws {c : Codec} (hv : c.Valid) (s pre post : List Nat) (bad : Nat)
    (hs : unsigned s = pre ++ bad :: post) (h : ∀ ch ∈ pre, ch ∈ c.alphabet)
    (hbad : bad ∉ c.alphabet) :
    decodeInt c s = .throws (.invalidCharacter bad (signLength s + pre.length))
      ∧ decodeBigInt c s = .throws (.invalidCharacter bad (signLength s + pre.length)) := by
  constructor
  · rw [decodeInt_eq_loop, hs, decodeIntLoop_throws _ _ _ (hv.lookup_not_mem bad hbad) _ _ _
      (hv.lookup_valid _ h)]
  · rw [decodeBigInt_eq_loop, hs, decodeBigIntLoop_throws _ _ _ (hv.lookup_not_mem bad hbad) _ _ _
      (hv.lookup_valid _ h)]

theorem NEGATIVE_CHAR_not_mem : NEGATIVE_CHAR ∉ ALPHABET := by decide

theorem Codec.Valid.ne_negative {c : Codec} (hv : c.Valid) {ch : Nat} (h : ch ∈ c.alphabet) :
    ch ≠ NEGATIVE_CHAR := by
  intro h45
  exact NEGATIVE_CHAR_not_mem (h45 ▸ hv.subset ch h)

theorem unsigned_of_mem {c : Codec} (hv : c.Valid) (s : List Nat)
    (h : ∀ ch ∈ s, ch ∈ c.alphabet) : s[0]? ≠ some NEGATIVE_CHAR ∧ unsigned s = s := by
  have h1 : s[0]? ≠ some NEGATIVE_CHAR := by
    intro h0
    exact hv.ne_negative (h _ (List.getElem?_mem h0)) rfl
  refine ⟨h1, ?_⟩
  unfold unsigned signLength
  rw [if_neg (fun hh => h1 hh.1)]
  rfl

theorem unsigned_negative (x : Nat) (rest : List Nat) :
    signLength (NEGATIVE_CHAR :: x :: rest) = 1 ∧ unsigned (NEGATIVE_CHAR :: x :: rest) = x :: rest := by
  unfold unsigned signLength
  simp

theorem Codec.Valid.map_indexOf_getD {c : Codec} (hv : c.Valid) (E : List Nat)
    (hE : ∀ d ∈ E, d < 58) :
    (E.map (fun d => c.alphabet.getD d 0)).map (fun ch => c.alphabet.indexOf ch) = E := by
  rw [List.map_map]
  conv_rhs => rw [← List.map_id E]
  apply List.map_congr_left
  intro d hd
  exact hv.indexOf_getD (hE d hd)

theorem Codec.Valid.map_getD_mem {c : Codec} (hv : c.Valid) (E : List Nat)
    (hE : ∀ d ∈ E, d < 58) : ∀ ch ∈ E.map (fun d => c.alphabet.getD d 0), ch ∈ c.alphabet := by
  intro ch hch
  obtain ⟨d, hd, rfl⟩ := List.mem_map.1 hch
  exact hv.getD_mem (hE d hd)

theorem canon_ne_nil {b : Nat} {n : Nat} (hn : n ≠ 0) : canon b n ≠ [] := by
  unfold canon
  simp [Nat.digits_eq_nil_iff_eq_zero, hn]

/-- Decoding what the integer encoders produce, for the exact decoder and, while
the value is below `2 ^ 53`, for the double-precision one. -/
theorem decode_encodeBigInt_aux {c : Codec} (hv : c.Valid) (v : Int) :
    ∃ s, encodeBigInt c v = .returns s ∧ decodeBigInt c s = .returns v
      ∧ (v.natAbs < 9007199254740992 → decodeInt c s = .returns (.int v)) := by
  refine ⟨_, encodeBigInt_eq hv v, ?_⟩
  by_cases h0 : v = 0
  · subst h0
    simp only [if_true]
    have hmem : ∀ ch ∈ [c.alphabet.getD 0 0], ch ∈ c.alphabet := by
      intro ch hch
      rw [List.mem_singleton.1 hch]; exact hv.getD_mem (by norm_num)
    obtain ⟨hneg, hun⟩ := unsigned_of_mem hv _ hmem
    have hval : valueOf 58 ((unsigned [c.alphabet.getD 0 0]).map (fun ch => c.alphabet.indexOf ch))
        = 0 := by
      rw [hun]
      simp only [List.map_cons, List.map_nil, hv.indexOf_getD (show 0 < 58 by norm_num)]
      simp [valueOf]
    constructor
    · rw [decodeBigInt_returns hv _ (by rw [hun]; exact hmem), hval, if_neg hneg]; rfl
    · intro _
      rw [decodeInt_returns hv _ (by rw [hun]; exact hmem) (by rw [hval]; norm_num), hval,
        if_neg hneg]; rfl
  · rw [if_neg h0]
    by_cases hneg : v < 0
    · rw [if_pos hneg]
      have hm : (-v).toNat ≠ 0 := by omega
      have hE := canon_lt (b := 58) (by norm_num) (-v).toNat
      cases hbody : (canon 58 (-v).toNat).map (fun d => c.alphabet.getD d 0) with
      | nil =>
        exact absurd (List.map_eq_nil_iff.1 hbody) (canon_ne_nil hm)
      | cons x rest =>
        obtain ⟨hs1, hs2⟩ := unsigned_negative x rest
        have hmem : ∀ ch ∈ x :: rest, ch ∈ c.alphabet := by
          rw [← hbody]; exact hv.map_getD_mem _ hE
        have hval : valueOf 58 ((x :: rest).map (fun ch => c.alphabet.indexOf ch))
            = (-v).toNat := by
          rw [← hbody, hv.map_indexOf_getD _ hE, valueOf_canon]
        have hhead : (NEGATIVE_CHAR :: x :: rest)[0]? = some NEGATIVE_CHAR := rfl
        constructor
        · rw [decodeBigInt_returns hv _ (by rw [hs2]; exact hmem), hs2, hval, if_pos hhead]
          congr 1; omega
        · intro hb
          rw [decodeInt_returns hv _ (by rw [hs2]; exact hmem) (by rw [hs2, hval]; omega), hs2,
            hval, if_pos hhead]
          congr 2; omega
    · rw [if_neg hneg]
      have hm : v.toNat ≠ 0 := by omega
      have hE := canon_lt (b := 58) (by norm_num) v.toNat
      have hmem := hv.map_getD_mem _ hE
      obtain ⟨hnn, hun⟩ := unsigned_of_mem hv _ hmem
      have hval : valueOf 58
          ((unsigned ((canon 58 v.toNat).map (fun d => c.alphabet.getD d 0))).map
            (fun ch => c.alphabet.indexOf ch)) = v.toNat := by
        rw [hun, hv.map_indexOf_getD _ hE, valueOf_canon]
      constructor
      · rw [decodeBigInt_returns hv _ (by rw [hun]; exact hmem), hval, if_neg hnn]
        congr 1; omega
      · intro hb
        rw [decodeInt_returns hv _ (by rw [hun]; exact hmem) (by rw [hval]; omega), hval,
          if_neg hnn]
        congr 2; omega

/-! ## The byte-array methods against the string methods -/

theorem Codec.Valid.text_eq {c : Codec} (hv : c.Valid) (z : Nat) (E : List Nat)
    (hE : ∀ d ∈ E, d < 58) :
    (if z ≠ 0 then (List.replicate z (charAt c.alphabet 0)).flatten else [])
        ++ (E.map (charAt c.alphabet)).flatten
      = List.replicate z (c.alphabet.getD 0 0) ++ E.map (fun d => c.alphabet.getD d 0) := by
  congr 1
  · by_cases hz : z = 0
    · simp [hz]
    · rw [if_pos hz, hv.charAt_eq (by norm_num)]
      clear hz
      induction z with
      | zero => simp
      | succ n ih =>
        simp only [List.replicate_succ, List.flatten_cons, List.singleton_append]
        rw [ih]
  · induction E with
    | nil => simp
    | cons d E ih =>
      simp only [List.map_cons, List.flatten_cons]
      rw [hv.charAt_eq (hE d (List.mem_cons_self _ _)),
        ih (fun x hx => hE x (List.mem_cons_of_mem _ hx))]
      simp

theorem encCore_window (b : List Nat) (start stop : Option Int) (hb : ∀ x ∈ b, x < 256) :
    ∃ z E, encCore (window b start stop) = some (z, E) ∧ ∀ d ∈ E, d < 58 := by
  obtain ⟨hsplit, hhead⟩ := lead_split 0 (window b start stop)
  have := encCore_eq (lead 0 (window b start stop))
    ((window b start stop).drop (lead 0 (window b start stop)))
    (fun x hx => hb x (window_subset b start stop x (List.mem_of_mem_drop hx))) hhead
  rw [← hsplit] at this
  exact ⟨_, _, this, canon_lt (by norm_num) _⟩

theorem encode_eq_encodeToString {c : Codec} (hv : c.Valid) (b : List Nat)
    (start stop : Option Int) (hb : ∀ x ∈ b, x < 256) :
    encode c b start stop = encodeToString c b start stop
      ∧ ∀ s, encodeToString c b start stop = .returns s → ∀ x ∈ s, x ∈ c.alphabet := by
  obtain ⟨z, E, hcore, hE⟩ := encCore_window b start stop hb
  rw [encode_eq_core, encodeToString_eq_core, hcore]
  simp only
  rw [hv.text_eq z E hE, hv.baseMap_eq]
  refine ⟨rfl, ?_⟩
  intro s hs x hx
  cases hs
  rcases List.mem_append.1 hx with h | h
  · rw [(List.mem_replicate.1 h).2]; exact hv.getD_mem (by norm_num)
  · exact hv.map_getD_mem E hE x h

theorem decode_eq_asBytes {c : Codec} (hv : c.Valid) (e : List Nat) (start stop : Option Int) :
    decode c e start stop = (decodeFromString c e start stop).asBytes := by
  rw [decode_eq_core c _ hv.baseMap_head, decodeFromString_eq_core c _ (hv.getD_eq (by norm_num)),
    hv.baseMapLookup_eq]

theorem decodeFromString_cases {c : Codec} (hv : c.Valid) (e : List Nat)
    (start stop : Option Int) :
    (∃ bytes, decodeFromString c e start stop = .returns bytes)
      ∨ ∃ ch i, decodeFromString c e start stop = .throws (.invalidCharacter ch i) := by
  rw [decodeFromString_eq_core c _ (hv.getD_eq (by norm_num))]
  rcases decCore_valid_cases hv (window e start stop) with
    ⟨_, b, hb⟩ | ⟨pre, bad, post, _, _, _, h4⟩
  · rw [hb]; exact Or.inl ⟨b, rfl⟩
  · rw [h4]; exact Or.inr ⟨bad, _, rfl⟩

/-! ## The predicate `isBase58String` -/

theorem isBase58StringLoop_symbols (T : Table) (hT : ∀ u, 0xD800 ≤ u → T u = none) :
    ∀ s : List Nat, isBase58StringLoop T (symbols s) = true ↔ ∀ ch ∈ s, T ch ≠ none := by
  intro s
  induction s using symbols.induct with
  | case1 => simp [symbols, isBase58StringLoop]
  | case2 u =>
    simp only [symbols, isBase58StringLoop, lookupSymbol]
    by_cases h : T u = none
    · simp [h]
    · simp [h]
  | case3 u v rest hpair ih =>
    simp only [symbols, if_pos hpair, isBase58StringLoop, lookupSymbol]
    have hu : T u = none := hT u hpair.1
    simp [hu]
  | case4 u v rest hpair ih =>
    simp only [symbols, if_neg hpair, isBase58StringLoop, lookupSymbol]
    by_cases h : T u = none
    · simp [h]
    · rw [if_neg h, ih]
      constructor
      · intro h2 ch hch
        rcases List.mem_cons.1 hch with h3 | h3
        · rw [h3]; exact h
        · exact h2 ch h3
      · intro h2 ch hch
        exact h2 ch (List.mem_cons_of_mem _ hch)

theorem base58_lookup_surrogate (u : Nat) (hu : 0xD800 ≤ u) : base58.alphabetLookup u = none := by
  apply base58_valid.lookup_not_mem
  intro hmem
  have := ALPHABET_lt u hmem
  omega

theorem isBase58String_iff (s : List Nat) : isBase58String s = true ↔ ∀ ch ∈ s, ch ∈ ALPHABET := by
  unfold isBase58String
  rw [isBase58StringLoop_symbols _ base58_lookup_surrogate]
  constructor
  · intro h ch hch; exact (base58_lookup_ne_none_iff ch).1 (h ch hch)
  · intro h ch hch; exact (base58_lookup_ne_none_iff ch).2 (h ch hch)

theorem base58_decode_returns_iff (s : List Nat) :
    (∃ b, decodeFromString base58 s none none = .returns b) ↔ ∀ ch ∈ s, ch ∈ ALPHABET := by
  have hS : decodeFromString base58 s none none
      = decCore base58.alphabetLookup (base58.alphabet.getD 0 0) s := by
    rw [decodeFromString_eq_core base58 _ (base58_valid.getD_eq (by norm_num)), window_none]
    exact Outcome.shift_zero _
  rw [hS]
  rcases decCore_valid_cases base58_valid s with ⟨hall, b, hb⟩ | ⟨pre, bad, post, h1, _, h3, h4⟩
  · exact ⟨fun _ => hall, fun _ => ⟨b, hb⟩⟩
  · rw [h4]
    constructor
    · rintro ⟨b, hb⟩; cases hb
    · intro hall
      exact absurd (hall bad (by rw [h1]; simp)) h3

/-! ## The CommonJS methods against the ESM methods -/

theorem new_ok_eq (arg : Option (List Nat)) (c : Codec) (h : Codec.new arg = .ok c) :
    c = Codec.ofAlphabet (arg.getD ALPHABET) := by
  unfold Codec.new at h
  cases arg with
  | none =>
    simp only [toAlphabet] at h
    cases h
    rfl
  | some v =>
    simp only [toAlphabet] at h
    by_cases hlen : v.length ≠ BASE
    · rw [if_pos hlen] at h; cases h
    · rw [if_neg hlen] at h
      cases hloop : toAlphabetLoop base58.alphabetLookup (v.take BASE) 0 Table.empty with
      | error e => rw [hloop] at h; cases h
      | ok u =>
        rw [hloop] at h
        simp only at h
        cases h
        rfl

theorem cjs_new_ok_eq (arg : Option (List Nat)) (c : Codec) (h : CJS.new arg = .ok c) :
    c = Codec.ofAlphabet (arg.getD ALPHABET) := by
  unfold CJS.new at h
  cases arg with
  | none => cases h; rfl
  | some v =>
    simp only at h
    cases hval : CJS.validateAlphabet v with
    | error e => rw [hval] at h; cases h
    | ok u =>
      rw [hval] at h
      cases h
      rfl

theorem cjs_validateAlphabetLoop_ok (T : Table) : ∀ (l : List Nat) (i : Nat) (U : Table),
    (∀ ch ∈ l, T ch ≠ none) → (∀ ch ∈ l, U ch = none) → l.Nodup →
    CJS.validateAlphabetLoop T l i U = .ok () := by
  intro l
  induction l with
  | nil => intro i U _ _ _; rfl
  | cons x rest ih =>
    intro i U h1 h2 h3
    rw [List.nodup_cons] at h3
    rw [CJS.validateAlphabetLoop, if_neg (h1 x (List.mem_cons_self _ _)),
      h2 x (List.mem_cons_self _ _)]
    simp only [CJS.truthy, Bool.false_eq_true, if_false]
    apply ih _ _ (fun ch hch => h1 ch (List.mem_cons_of_mem _ hch)) _ h3.2
    intro ch hch
    have hcx : ch ≠ x := fun hcx => h3.1 (hcx ▸ hch)
    simpa [Table.set, hcx] using h2 ch (List.mem_cons_of_mem _ hch)

/-- Every alphabet that the ESM constructor accepts is accepted by the CommonJS
constructor, with the same codec. -/
theorem cjs_new_of_new (arg : Option (List Nat)) (c : Codec) (h : Codec.new arg = .ok c) :
    CJS.new arg = .ok c := by
  have hc := new_ok_eq arg c h
  cases arg with
  | none => rw [hc]; rfl
  | some v =>
    have hv := (isAlphabet_iff v).1 ((new_ok_iff v).1 ⟨c, h⟩)
    have hloop := cjs_validateAlphabetLoop_ok base58.alphabetLookup v 0 Table.empty
      (fun ch hch => (base58_lookup_ne_none_iff ch).2 (hv.2.1 ch hch)) (fun _ _ => rfl) hv.2.2
    have htake : v.take 58 = v := by rw [List.take_of_length_le]; omega
    unfold CJS.new CJS.validateAlphabet
    simp only
    rw [if_neg (by simp [hv.1]), htake, hloop, hc]
    rfl

theorem cjs_decodeFromString_eq (c : Codec) (s : List Nat) :
    CJS.decodeFromString c s = decodeFromString c s none none := by
  unfold CJS.decodeFromString decodeFromString normIndex
  simp only [Nat.sub_zero, Nat.zero_add]

theorem cjs_encodeToString_eq (c : Codec) (input : List Nat) (h : input.length < 4294967296) :
    CJS.encodeToString c input = encodeToString c input none none := by
  unfold CJS.encodeToString encodeToString normIndex
  simp only [u32_of_lt h, Nat.sub_zero, Nat.zero_add]

theorem cjs_encode_eq (c : Codec) (input : List Nat) (h : input.length < 4294967296) :
    CJS.encode c input = encode c input none none := by
  unfold CJS.encode encode normIndex
  simp only [u32_of_lt h, Nat.sub_zero, Nat.zero_add]

theorem cjs_decode_eq (c : Codec) (input : List Nat) (h : input.length < 4294967296) :
    CJS.decode c input = decode c input none none := by
  unfold CJS.decode decode normIndex
  simp only [u32_of_lt h, Nat.sub_zero, Nat.zero_add]

theorem cjs_encodeInt_eq (c : Codec) (n : Int) : CJS.encodeInt c n = encodeInt c n := rfl

theorem cjs_decodeInt_eq (c : Codec) (s : List Nat) : CJS.decodeInt c s = decodeInt c s := by
  unfold CJS.decodeInt decodeInt
  rfl

theorem cjs_encode_of_wrap (c : Codec) (input : List Nat) (h : u32 input.length = 0) :
    CJS.encode c input = .returns [] ∧ CJS.encodeToString c input = .returns [] := by
  have hsize : encSize 0 = 1 := by decide
  constructor
  · unfold CJS.encode
    simp only [h, zeroRun, Nat.sub_zero, List.take_zero, List.drop_nil, hsize, encLoop]
    rfl
  · unfold CJS.encodeToString
    simp only [h, zeroRun, Nat.sub_zero, List.take_zero, List.drop_nil, hsize, encLoop]
    rfl

theorem encode_zeros (c : Codec) (z : Nat) :
    encode c (List.replicate z 0) none none = .returns (List.replicate z (c.baseMap.getD 0 0)) := by
  have h := encCore_eq z [] (by simp) (by simp)
  rw [List.append_nil] at h
  rw [encode_eq_core, window_none, h]
  simp [canon, valueOf]

/-! ## The recorded iterations of the carry loops -/

theorem getD_le_of_forall (bytes : List Nat) (i k : Nat) (h : ∀ d ∈ bytes, d ≤ k) :
    bytes.getD i 0 ≤ k := by
  rw [List.getD_eq_getElem?_getD]
  cases hi : bytes[i]? with
  | none => simp
  | some d => simpa using h d (List.getElem?_mem hi)

theorem forall_set_le (bytes : List Nat) (i v k : Nat) (h : ∀ d ∈ bytes, d ≤ k) (hv : v ≤ k) :
    ∀ d ∈ bytes.set i v, d ≤ k := by
  intro d hd
  rcases List.mem_or_eq_of_mem_set hd with h1 | h1
  · exact h d h1
  · rw [h1]; exact hv

theorem encPassTrace_index (L : Int) : ∀ (n : Nat) (bytes : List Nat) (carry : Nat),
    (encPassTrace L n bytes carry).length ≤ n
      ∧ ∀ it ∈ encPassTrace L n bytes carry, it.index < n := by
  intro n
  induction n with
  | zero => intro bytes carry; simp [encPassTrace]
  | succ n ih =>
    intro bytes carry
    rw [encPassTrace]
    split
    · obtain ⟨h1, h2⟩ := ih (bytes.set n (u8 (u32 ((carry + shl8 (bytes.getD n 0)) % BASE))))
        (u32 ((carry + shl8 (bytes.getD n 0)) / BASE))
      refine ⟨by simpa using h1, ?_⟩
      intro it hit
      rcases List.mem_cons.1 hit with h3 | h3
      · rw [h3]; exact Nat.lt_succ_self n
      · exact Nat.lt_succ_of_lt (h2 it h3)
    · simp

theorem decPassTrace_index (L : Int) : ∀ (n : Nat) (bytes : List Nat) (carry : Nat),
    (decPassTrace L n bytes carry).length ≤ n
      ∧ ∀ it ∈ decPassTrace L n bytes carry, it.index < n := by
  intro n
  induction n with
  | zero => intro bytes carry; simp [decPassTrace]
  | succ n ih =>
    intro bytes carry
    rw [decPassTrace]
    split
    · obtain ⟨h1, h2⟩ := ih (bytes.set n (u8 (and255 (carry + u32 (bytes.getD n 0 * BASE)))))
        (sar8 (carry + u32 (bytes.getD n 0 * BASE)))
      refine ⟨by simpa using h1, ?_⟩
      intro it hit
      rcases List.mem_cons.1 hit with h3 | h3
      · rw [h3]; exact Nat.lt_succ_self n
      · exact Nat.lt_succ_of_lt (h2 it h3)
    · simp

theorem encLoopTrace_index (size : Nat) : ∀ (xs bytes : List Nat) (L : Int),
    ∀ pass ∈ encLoopTrace size xs bytes L, pass.length ≤ size ∧ ∀ it ∈ pass, it.index < size := by
  intro xs
  induction xs with
  | nil => intro bytes L pass h; simp [encLoopTrace] at h
  | cons x xs ih =>
    intro bytes L pass h
    rw [encLoopTrace] at h
    rcases List.mem_cons.1 h with h1 | h1
    · rw [h1]; exact encPassTrace_index L size bytes x
    · cases hp : encPass L size bytes x with
      | none => rw [hp] at h1; simp at h1
      | some r => rw [hp] at h1; exact ih r.1 r.2 pass h1

theorem decLoopTrace_index (T : Table) (size : Nat) : ∀ (xs bytes : List Nat) (L : Int),
    ∀ pass ∈ decLoopTrace T size xs bytes L,
      pass.length ≤ size ∧ ∀ it ∈ pass, it.index < size := by
  intro xs
  induction xs with
  | nil => intro bytes L pass h; simp [decLoopTrace] at h
  | cons x xs ih =>
    intro bytes L pass h
    rw [decLoopTrace] at h
    cases hx : T x with
    | none => rw [hx] at h; simp at h
    | some d =>
      rw [hx] at h
      simp only at h
      rcases List.mem_cons.1 h with h1 | h1
      · rw [h1]; exact decPassTrace_index L size bytes d
      · cases hp : decPass L size bytes d with
        | none => rw [hp] at h1; simp at h1
        | some r => rw [hp] at h1; exact ih r.1 r.2 pass h1

/-- The operators of the encode loop body on a carry of at most 255 and a digit
of at most 57: every intermediate value is below `2 ^ 31` and exact. -/
theorem enc_step_exact (carry element : Nat) (hc : carry ≤ 255) (he : element ≤ 57) :
    shl8 element = element * 256
      ∧ carry + shl8 element ≤ 14847
      ∧ u32 ((carry + shl8 element) % BASE) = (carry + element * 256) % 58
      ∧ u8 (u32 ((carry + shl8 element) % BASE)) = (carry + element * 256) % 58
      ∧ (carry + element * 256) % 58 ≤ 57
      ∧ u32 ((carry + shl8 element) / BASE) = (carry + element * 256) / 58
      ∧ (carry + element * 256) / 58 ≤ 255 := by
  have h1 : shl8 element = element * 256 := by
    unfold shl8; exact u32_of_lt (by omega)
  have h2 : u32 ((carry + element * 256) % 58) = (carry + element * 256) % 58 :=
    u32_of_lt (by omega)
  have h3 : u8 ((carry + element * 256) % 58) = (carry + element * 256) % 58 :=
    u8_of_lt (by omega)
  have h4 : u32 ((carry + element * 256) / 58) = (carry + element * 256) / 58 :=
    u32_of_lt (by omega)
  refine ⟨h1, ?_⟩
  rw [h1]
  simp only [BASE]
  rw [h2, h3, h4]
  exact ⟨by omega, rfl, rfl, by omega, rfl, by omega⟩

/-- The operators of the decode loop body on a carry of at most 57 and a byte
of at most 255: every intermediate value is below `2 ^ 31` and exact. -/
theorem dec_step_exact (carry element : Nat) (hc : carry ≤ 57) (he : element ≤ 255) :
    u32 (element * BASE) = element * 58
      ∧ carry + u32 (element * BASE) ≤ 14847
      ∧ and255 (carry + u32 (element * BASE)) = (carry + element * 58) % 256
      ∧ u8 (and255 (carry + u32 (element * BASE))) = (carry + element * 58) % 256
      ∧ (carry + element * 58) % 256 ≤ 255
      ∧ sar8 (carry + u32 (element * BASE)) = (carry + element * 58) / 256
      ∧ (carry + element * 58) / 256 ≤ 57 := by
  have h1 : u32 (element * BASE) = element * 58 := by
    simp only [BASE]; exact u32_of_lt (by omega)
  refine ⟨h1, ?_⟩
  rw [h1, and255_of_lt (show carry + element * 58 < 2147483648 by omega),
    sar8_of_lt (show carry + element * 58 < 2147483648 by omega),
    u8_of_lt (show (carry + element * 58) % 256 < 256 by omega)]
  exact ⟨by omega, rfl, rfl, by omega, rfl, by omega⟩

theorem encPassTrace_bound (L : Int) : ∀ (n : Nat) (bytes : List Nat) (carry : Nat),
    carry ≤ 255 → (∀ d ∈ bytes, d ≤ 57) →
    (∀ it ∈ encPassTrace L n bytes carry, it.carry ≤ 255 ∧ it.element ≤ 57)
      ∧ ∀ r, encPass L n bytes carry = some r → ∀ d ∈ r.1, d ≤ 57 := by
  intro n
  induction n with
  | zero =>
    intro bytes carry _ hb
    refine ⟨by simp [encPassTrace], ?_⟩
    intro r hr
    rw [encPass] at hr
    split at hr
    · cases hr
    · cases hr; exact hb
  | succ n ih =>
    intro bytes carry hc hb
    have he := getD_le_of_forall bytes n 57 hb
    obtain ⟨_, _, _, e4, e5, e6, e7⟩ := enc_step_exact carry (bytes.getD n 0) hc he
    have hrec := ih (bytes.set n (u8 (u32 ((carry + shl8 (bytes.getD n 0)) % BASE))))
      (u32 ((carry + shl8 (bytes.getD n 0)) / BASE)) (by rw [e6]; exact e7)
      (forall_set_le bytes n _ 57 hb (by rw [e4]; exact e5))
    rw [encPassTrace, encPass]
    split
    · refine ⟨?_, hrec.2⟩
      intro it hit
      rcases List.mem_cons.1 hit with h3 | h3
      · rw [h3]; exact ⟨hc, he⟩
      · exact hrec.1 it h3
    · refine ⟨by simp, ?_⟩
      intro r hr
      cases hr; exact hb

theorem decPassTrace_bound (L : Int) : ∀ (n : Nat) (bytes : List Nat) (carry : Nat),
    carry ≤ 57 → (∀ d ∈ bytes, d ≤ 255) →
    (∀ it ∈ decPassTrace L n bytes carry, it.carry ≤ 57 ∧ it.element ≤ 255)
      ∧ ∀ r, decPass L n bytes carry = some r → ∀ d ∈ r.1, d ≤ 255 := by
  intro n
  induction n with
  | zero =>
    intro bytes carry _ hb
    refine ⟨by simp [decPassTrace], ?_⟩
    intro r hr
    rw [decPass] at hr
    split at hr
    · cases hr
    · cases hr; exact hb
  | succ n ih =>
    intro bytes carry hc hb
    have he := getD_le_of_forall bytes n 255 hb
    obtain ⟨_, _, _, e4, e5, e6, e7⟩ := dec_step_exact carry (bytes.getD n 0) hc he
    have hrec := ih (bytes.set n (u8 (and255 (carry + u32 (bytes.getD n 0 * BASE)))))
      (sar8 (carry + u32 (bytes.getD n 0 * BASE))) (by rw [e6]; exact e7)
      (forall_set_le bytes n _ 255 hb (by rw [e4]; exact e5))
    rw [decPassTrace, decPass]
    split
    · refine ⟨?_, hrec.2⟩
      intro it hit
      rcases List.mem_cons.1 hit with h3 | h3
      · rw [h3]; exact ⟨hc, he⟩
      · exact hrec.1 it h3
    · refine ⟨by simp, ?_⟩
      intro r hr
      cases hr; exact hb

theorem encLoopTrace_bound (size : Nat) : ∀ (xs bytes : List Nat) (L : Int),
    (∀ x ∈ xs, x < 256) → (∀ d ∈ bytes, d ≤ 57) →
    ∀ pass ∈ encLoopTrace size xs bytes L, ∀ it ∈ pass, it.carry ≤ 255 ∧ it.element ≤ 57 := by
  intro xs
  induction xs with
  | nil => intro bytes L _ _ pass h; simp [encLoopTrace] at h
  | cons x xs ih =>
    intro bytes L hx hb pass h
    have hx1 : x ≤ 255 := by have := hx x (List.mem_cons_self _ _); omega
    obtain ⟨b1, b2⟩ := encPassTrace_bound L size bytes x hx1 hb
    rw [encLoopTrace] at h
    rcases List.mem_cons.1 h with h1 | h1
    · rw [h1]; exact b1
    · cases hp : encPass L size bytes x with
      | none => rw [hp] at h1; simp at h1
      | some r =>
        rw [hp] at h1
        exact ih r.1 r.2 (fun y hy => hx y (List.mem_cons_of_mem _ hy)) (b2 r hp) pass h1

theorem decLoopTrace_bound (T : Table) (hT : ∀ ch d, T ch = some d → d < 58) (size : Nat) :
    ∀ (xs bytes : List Nat) (L : Int), (∀ d ∈ bytes, d ≤ 255) →
    ∀ pass ∈ decLoopTrace T size xs bytes L, ∀ it ∈ pass, it.carry ≤ 57 ∧ it.element ≤ 255 := by
  intro xs
  induction xs with
  | nil => intro bytes L _ pass h; simp [decLoopTrace] at h
  | cons x xs ih =>
    intro bytes L hb pass h
    rw [decLoopTrace] at h
    cases hx : T x with
    | none => rw [hx] at h; simp at h
    | some d =>
      rw [hx] at h
      simp only at h
      have hd : d ≤ 57 := by have := hT x d hx; omega
      obtain ⟨b1, b2⟩ := decPassTrace_bound L size bytes d hd hb
      rcases List.mem_cons.1 h with h1 | h1
      · rw [h1]; exact b1
      · cases hp : decPass L size bytes d with
        | none => rw [hp] at h1; simp at h1
        | some r => rw [hp] at h1; exact ih r.1 r.2 (b2 r hp) pass h1

theorem Codec.Valid.lookup_lt {c : Codec} (hv : c.Valid) :
    ∀ ch d, c.alphabetLookup ch = some d → d < 58 := by
  intro ch d h
  by_cases hmem : ch ∈ c.alphabet
  · rw [hv.lookup_mem ch hmem] at h
    cases h
    exact hv.indexOf_lt hmem
  · rw [hv.lookup_not_mem ch hmem] at h
    cases h

theorem forall_replicate_zero_le (size k : Nat) : ∀ d ∈ List.replicate size 0, d ≤ k := by
  intro d hd
  rw [(List.mem_replicate.1 hd).2]
  exact Nat.zero_le k

theorem encPassTrace_length (L : Int) : ∀ (n : Nat) (bytes : List Nat) (carry : Nat) r,
    encPass L n bytes carry = some r →
    ((encPassTrace L n bytes carry).length : Int) = (n : Int) - 1 - r.2 := by
  intro n
  induction n with
  | zero =>
    intro bytes carry r hr
    rw [encPass] at hr
    split at hr
    · cases hr
    · cases hr; simp [encPassTrace]
  | succ n ih =>
    intro bytes carry r hr
    rw [encPass] at hr
    rw [encPassTrace]
    split at hr
    · rename_i hcond
      rw [if_pos hcond]
      have := ih _ _ r hr
      simp only [List.length_cons]
      push_cast
      omega
    · rename_i hcond
      rw [if_neg hcond]
      cases hr
      simp

theorem decPassTrace_length (L : Int) : ∀ (n : Nat) (bytes : List Nat) (carry : Nat) r,
    decPass L n bytes carry = some r →
    ((decPassTrace L n bytes carry).length : Int) = (n : Int) - 1 - r.2 := by
  intro n
  induction n with
  | zero =>
    intro bytes carry r hr
    rw [decPass] at hr
    split at hr
    · cases hr
    · cases hr; simp [decPassTrace]
  | succ n ih =>
    intro bytes carry r hr
    rw [decPass] at hr
    rw [decPassTrace]
    split at hr
    · rename_i hcond
      rw [if_pos hcond]
      have := ih _ _ r hr
      simp only [List.length_cons]
      push_cast
      omega
    · rename_i hcond
      rw [if_neg hcond]
      cases hr
      simp

theorem encodeTrace_size (input : List Nat) (start stop : Option Int) :
    (encodeTrace input start stop).1
      = encSize ((window input start stop).length - lead 0 (window input start stop)) := by
  unfold encodeTrace
  simp only [(range_facts 0 input start stop).1, window_length]

theorem decodeTrace_size (T : Table) (v : Nat) (input : List Nat) (start stop : Option Int) :
    (decodeTrace T (some v) input start stop).1
      = decSize ((window input start stop).length - lead v (window input start stop)) := by
  unfold decodeTrace
  simp only [(range_facts v input start stop).1, window_length]

theorem encodeTrace_index (input : List Nat) (start stop : Option Int) :
    ∀ pass ∈ (encodeTrace input start stop).2,
      pass.length ≤ (encodeTrace input start stop).1
        ∧ ∀ it ∈ pass, it.index < (encodeTrace input start stop).1 := by
  unfold encodeTrace
  exact encLoopTrace_index _ _ _ _

theorem decodeTrace_index (T : Table) (zero : Option Nat) (input : List Nat)
    (start stop : Option Int) :
    ∀ pass ∈ (decodeTrace T zero input start stop).2,
      pass.length ≤ (decodeTrace T zero input start stop).1
        ∧ ∀ it ∈ pass, it.index < (decodeTrace T zero input start stop).1 := by
  unfold decodeTrace
  exact decLoopTrace_index T _ _ _ _

theorem encodeTrace_bound (input : List Nat) (start stop : Option Int)
    (hb : ∀ x ∈ input, x < 256) :
    ∀ pass ∈ (encodeTrace input start stop).2, ∀ it ∈ pass,
      it.carry ≤ 255 ∧ it.element ≤ 57 := by
  unfold encodeTrace
  exact encLoopTrace_bound _ _ _ _
    (fun x hx => hb x (List.mem_of_mem_take (List.mem_of_mem_drop hx)))
    (forall_replicate_zero_le _ 57)

theorem decodeTrace_bound (T : Table) (hT : ∀ ch d, T ch = some d → d < 58) (zero : Option Nat)
    (input : List Nat) (start stop : Option Int) :
    ∀ pass ∈ (decodeTrace T zero input start stop).2, ∀ it ∈ pass,
      it.carry ≤ 57 ∧ it.element ≤ 255 := by
  unfold decodeTrace
  exact decLoopTrace_bound T hT _ _ _ _ (forall_replicate_zero_le _ 255)

theorem encode_returns (c : Codec) (input : List Nat) (start stop : Option Int)
    (hb : ∀ x ∈ input, x < 256) :
    (∃ s, encodeToString c input start stop = .returns s)
      ∧ ∃ b, encode c input start stop = .returns b := by
  obtain ⟨z, E, hcore, _⟩ := encCore_window input start stop hb
  rw [encode_eq_core, encodeToString_eq_core, hcore]
  exact ⟨⟨_, rfl⟩, ⟨_, rfl⟩⟩

theorem decode_ne_overrun {c : Codec} (hv : c.Valid) (e : List Nat) (start stop : Option Int) :
    decodeFromString c e start stop ≠ .overrun ∧ decode c e start stop ≠ .overrun := by
  have hdec := decode_eq_asBytes hv e start stop
  rcases decodeFromString_cases hv e start stop with ⟨r, hr⟩ | ⟨ch, i, hr⟩
  · rw [hdec, hr]; simp [Outcome.asBytes]
  · rw [hdec, hr]; simp [Outcome.asBytes]

/-! ## The buffer size below and at `2 ^ 32`

The digit buffer of encode has `2 ^ 32 - 1` entries at most for up to
3144979598 bytes and `2 ^ 32` entries before the conversion for 3144979599
bytes. The two bounds on `log 256 / log 58` behind this are the fractions
`67667 / 49549` and `212887 / 155886`. -/

set_option exponentiation.threshold 300000 in
theorem pow_256_lt_pow_58 : 256 ^ 155886 < 58 ^ 212887 := by decide

set_option exponentiation.threshold 300000 in
theorem pow_256_le_pow_58_below : 256 ^ 135434 ≤ 58 ^ 184957 := by decide

set_option exponentiation.threshold 300000 in
theorem pow_256_le_pow_58_at : 256 ^ 135435 ≤ 58 ^ 184958 := by decide

set_option exponentiation.threshold 300000 in
theorem pow_58_le_pow_256 : 58 ^ 67667 ≤ 256 ^ 49549 := by decide

set_option exponentiation.threshold 300000 in
theorem pow_58_le_pow_256_at : 58 ^ 7471 ≤ 256 ^ 5471 := by decide

theorem pow_lt_of_parts (a q r p t M N : Nat) (ha : a ≠ 0) (hM : M = q * a + r)
    (hN : N = p * a + t) (h1 : 256 ^ q < 58 ^ p) (h2 : 256 ^ r ≤ 58 ^ t) : 256 ^ M < 58 ^ N := by
  rw [hM, hN, pow_add, pow_add, pow_mul, pow_mul]
  exact Nat.mul_lt_mul_of_lt_of_le (Nat.pow_lt_pow_left h1 ha) h2 (Nat.pow_pos (by norm_num))

theorem pow_le_of_parts (a q r p t M N : Nat) (hN : N = p * a + r) (hM : M = q * a + t)
    (h1 : 58 ^ p ≤ 256 ^ q) (h2 : 58 ^ r ≤ 256 ^ t) : 58 ^ N ≤ 256 ^ M := by
  rw [hM, hN, pow_add, pow_add, pow_mul, pow_mul]
  exact Nat.mul_le_mul (Nat.pow_le_pow_left h1 a) h2

theorem pow_256_lt_below_wrap : 256 ^ 3144979598 < 58 ^ 4294967295 :=
  pow_lt_of_parts 20174 155886 135434 212887 184957 _ _ (by decide) (by decide) (by decide)
    pow_256_lt_pow_58 pow_256_le_pow_58_below

theorem pow_256_lt_at_wrap : 256 ^ 3144979599 < 58 ^ (4294967295 + 1) :=
  pow_lt_of_parts 20174 155886 135435 212887 184958 _ _ (by decide) (by decide) (by decide)
    pow_256_lt_pow_58 pow_256_le_pow_58_at

theorem pow_58_le_at_wrap : 58 ^ 4294967295 ≤ 256 ^ 3144979599 :=
  pow_le_of_parts 63472 49549 7471 67667 5471 _ _ (by decide) (by decide)
    pow_58_le_pow_256 pow_58_le_pow_256_at

theorem log_eq_of_bounds (b m n : Nat) (h1 : b ^ m ≤ n) (h2 : n < b ^ (m + 1)) :
    Nat.log b n = m :=
  Nat.log_eq_of_pow_le_of_lt_pow h1 h2

theorem log_lt_of_bound (b c k m : Nat) (hb : 0 < b) (h : b ^ m < c ^ k) :
    Nat.log c (b ^ m) < k :=
  Nat.log_lt_of_lt_pow (Nat.pos_iff_ne_zero.1 (Nat.pow_pos hb)) h

theorem log_mono_pow (b c m n : Nat) (hb : 0 < b) (h : m ≤ n) :
    Nat.log c (b ^ m) ≤ Nat.log c (b ^ n) :=
  Nat.log_mono_right (Nat.pow_le_pow_right hb h)

theorem encSize_eq_log (m : Nat) : encSize m = Nat.log 58 (256 ^ m) + 1 := by
  unfold encSize
  rw [floorLog_eq (by norm_num)]

theorem encSize_at_wrap : encSize 3144979599 = 4294967296 := by
  rw [encSize_eq_log,
    log_eq_of_bounds 58 4294967295 (256 ^ 3144979599) pow_58_le_at_wrap pow_256_lt_at_wrap]

theorem encSize_lt_wrap (m : Nat) (h : m < 3144979599) : encSize m < 4294967296 := by
  rw [encSize_eq_log]
  have h1 := log_mono_pow 256 58 m 3144979598 (by decide) (by omega)
  have h2 := log_lt_of_bound 256 58 4294967295 3144979598 (by decide) pow_256_lt_below_wrap
  generalize Nat.log 58 (256 ^ 3144979598) = x at h1 h2
  omega

theorem decSize_le (m : Nat) : decSize m ≤ max m 1 := by
  unfold decSize
  rw [floorLog_eq (by norm_num)]
  rcases Nat.eq_zero_or_pos m with h | h
  · subst h; simp
  · have h1 : 58 ^ m < 256 ^ m := Nat.pow_lt_pow_left (by norm_num) (by omega)
    have h2 := log_lt_of_bound 58 256 m m (by decide) h1
    omega

theorem full_encSize_at_wrap : Full.encSize 3144979599 = 0 := by
  unfold Full.encSize
  rw [encSize_at_wrap]
  decide

theorem full_encSize_of_lt (m : Nat) (h : m < 3144979599) : Full.encSize m = encSize m := by
  unfold Full.encSize
  exact u32_of_lt (encSize_lt_wrap m h)

theorem full_decSize_of_lt (m : Nat) (h : m < 4294967296) : Full.decSize m = decSize m := by
  unfold Full.decSize
  have := decSize_le m
  exact u32_of_lt (by omega)

/-! ## The methods with the 32-bit size against the methods above -/

theorem full_encBelow_exit (L : Int) (fuel carry : Nat) (index : Int)
    (h : ¬(carry ≠ 0 ∨ index > L)) : Full.encBelow L fuel carry index = index := by
  cases fuel with
  | zero => rfl
  | succ fuel => rw [Full.encBelow, if_neg h]

/-- More iterations than `carry + (index - lastIndex)` change nothing: the
loop below index 0 of encode has ended by then. -/
theorem full_encBelow_fuel (L : Int) : ∀ (fuel carry : Nat) (index : Int),
    carry + (index - L).toNat ≤ fuel →
    Full.encBelow L (fuel + 1) carry index = Full.encBelow L fuel carry index := by
  intro fuel
  induction fuel with
  | zero =>
    intro carry index h
    have hc : ¬(carry ≠ 0 ∨ index > L) := by omega
    rw [full_encBelow_exit L 1 carry index hc, full_encBelow_exit L 0 carry index hc]
  | succ fuel ih =>
    intro carry index h
    have e1 : Full.encBelow L (fuel + 1 + 1) carry index
        = if carry ≠ 0 ∨ index > L then
            Full.encBelow L (fuel + 1) (u32 (carry / BASE)) (index - 1)
          else index := rfl
    have e2 : Full.encBelow L (fuel + 1) carry index
        = if carry ≠ 0 ∨ index > L then Full.encBelow L fuel (u32 (carry / BASE)) (index - 1)
          else index := rfl
    rw [e1, e2]
    by_cases hcond : carry ≠ 0 ∨ index > L
    · rw [if_pos hcond, if_pos hcond]
      apply ih
      have h1 : u32 (carry / BASE) ≤ carry / 58 := by
        unfold u32; simp only [BASE]; exact Nat.mod_le _ _
      rcases hcond with hc | hc
      · have : carry / 58 < carry := Nat.div_lt_self (Nat.pos_of_ne_zero hc) (by norm_num)
        omega
      · have : carry / 58 ≤ carry := Nat.div_le_self _ _
        omega
    · rw [if_neg hcond, if_neg hcond]

theorem encPass_index_ge (L : Int) : ∀ (n : Nat) (bytes : List Nat) (carry : Nat) r,
    encPass L n bytes carry = some r → -1 ≤ r.2 := by
  intro n
  induction n with
  | zero =>
    intro bytes carry r hr
    rw [encPass] at hr
    split at hr
    · cases hr
    · cases hr; simp
  | succ n ih =>
    intro bytes carry r hr
    rw [encPass] at hr
    split at hr
    · exact ih _ _ r hr
    · cases hr
      show (-1 : Int) ≤ (n : Int)
      omega

theorem full_encPass_of_some (L : Int) : ∀ (n : Nat) (bytes : List Nat) (carry : Nat) r,
    encPass L n bytes carry = some r → Full.encPass L n bytes carry = r := by
  intro n
  induction n with
  | zero =>
    intro bytes carry r hr
    rw [encPass] at hr
    split at hr
    · cases hr
    · rename_i hcond
      cases hr
      rw [Full.encPass, full_encBelow_exit L _ carry (-1) hcond]
  | succ n ih =>
    intro bytes carry r hr
    rw [encPass] at hr
    rw [Full.encPass]
    split at hr
    · rename_i hcond
      rw [if_pos hcond]
      exact ih _ _ r hr
    · rename_i hcond
      rw [if_neg hcond]
      cases hr
      rfl

theorem full_encLoop_of_some (size : Nat) : ∀ (xs bytes : List Nat) (L : Int) r,
    encLoop size xs bytes L = some r → -1 ≤ L →
    Full.encLoop size xs bytes L = r ∧ -1 ≤ r.2 := by
  intro xs
  induction xs with
  | nil =>
    intro bytes L r hr hL
    rw [encLoop] at hr
    cases hr
    exact ⟨rfl, hL⟩
  | cons x xs ih =>
    intro bytes L r hr hL
    rw [encLoop] at hr
    rw [Full.encLoop]
    cases hp : encPass L size bytes x with
    | none => rw [hp] at hr; cases hr
    | some r1 =>
      rw [hp] at hr
      rw [full_encPass_of_some L size bytes x r1 hp]
      exact ih r1.1 r1.2 r hr (encPass_index_ge L size bytes x r1 hp)

theorem full_encodeToString_eq_core (c : Codec) (input : List Nat) (start stop : Option Int) :
    Full.encodeToString c input start stop =
      match Full.encLoop
          (Full.encSize ((window input start stop).length - lead 0 (window input start stop)))
          ((window input start stop).drop (lead 0 (window input start stop)))
          (List.replicate
            (Full.encSize ((window input start stop).length - lead 0 (window input start stop))) 0)
          ((Full.encSize ((window input start stop).length
            - lead 0 (window input start stop)) : Nat) - 1) with
      | (bytes, lastIndex) =>
        .returns ((if lead 0 (window input start stop) ≠ 0 then
              (List.replicate (lead 0 (window input start stop)) (charAt c.alphabet 0)).flatten
            else [])
          ++ (List.replicate (-(lastIndex + 1)).toNat undefinedText).flatten
          ++ ((bytes.drop (lastIndex + 1).toNat).map (charAt c.alphabet)).flatten) := by
  obtain ⟨h1, h2⟩ := range_facts 0 input start stop
  unfold Full.encodeToString
  simp only [h1, h2, window_length]

theorem full_encode_eq_core (c : Codec) (input : List Nat) (start stop : Option Int) :
    Full.encode c input start stop =
      match Full.encLoop
          (Full.encSize ((window input start stop).length - lead 0 (window input start stop)))
          ((window input start stop).drop (lead 0 (window input start stop)))
          (List.replicate
            (Full.encSize ((window input start stop).length - lead 0 (window input start stop))) 0)
          ((Full.encSize ((window input start stop).length
            - lead 0 (window input start stop)) : Nat) - 1) with
      | (bytes, lastIndex) =>
        .returns (List.replicate (lead 0 (window input start stop)) (c.baseMap.getD 0 0)
          ++ List.replicate (-(lastIndex + 1)).toNat 0
          ++ (bytes.drop (lastIndex + 1).toNat).map (fun charIndex => c.baseMap.getD charIndex 0)) := by
  obtain ⟨h1, h2⟩ := range_facts 0 input start stop
  unfold Full.encode
  simp only [h1, h2, window_length]

/-- Where the size fits 32 bits and the carry loops stay in the buffer, the
methods with the 32-bit size do what the methods above do. -/
theorem full_encode_eq (c : Codec) (input : List Nat) (start stop : Option Int)
    (hsize : encSize ((window input start stop).length - lead 0 (window input start stop))
      < 4294967296)
    (z : Nat) (E : List Nat) (hcore : encCore (window input start stop) = some (z, E)) :
    Full.encodeToString c input start stop = encodeToString c input start stop
      ∧ Full.encode c input start stop = encode c input start stop := by
  rw [full_encodeToString_eq_core, full_encode_eq_core, encodeToString_eq_core, encode_eq_core,
    hcore]
  unfold encCore at hcore
  simp only at hcore
  have hs : Full.encSize ((window input start stop).length - lead 0 (window input start stop))
      = encSize ((window input start stop).length - lead 0 (window input start stop)) := by
    unfold Full.encSize; exact u32_of_lt hsize
  rw [hs]
  generalize encSize ((window input start stop).length - lead 0 (window input start stop))
    = size at hcore ⊢
  cases hloop : encLoop size ((window input start stop).drop (lead 0 (window input start stop)))
      (List.replicate size 0) ((size : Int) - 1) with
  | none => rw [hloop] at hcore; cases hcore
  | some r =>
    rw [hloop] at hcore
    obtain ⟨hfull, hge⟩ := full_encLoop_of_some size _ _ _ r hloop (by omega)
    rw [hfull]
    have h0 : (-(r.2 + 1)).toNat = 0 := by omega
    obtain ⟨bytes, L⟩ := r
    simp only at hcore h0 ⊢
    cases hcore
    rw [h0]
    simp

theorem Codec.Valid.zero_text_eq {c : Codec} (hv : c.Valid) (z : Nat) :
    (if z ≠ 0 then (List.replicate z (charAt c.alphabet 0)).flatten else [])
      = List.replicate z (c.alphabet.getD 0 0) := by
  have h := hv.text_eq z [] (by simp)
  simpa using h

/-- The encode methods on `z` zero bytes followed by `r`: the zero digits, and
a text that depends on `r` only. -/
theorem full_encodeToString_zeros {c : Codec} (hv : c.Valid) (r : List Nat)
    (hhead : ∀ x, r.head? = some x → x ≠ 0) :
    ∃ t, ∀ z, Full.encodeToString c (List.replicate z 0 ++ r) none none
      = .returns (List.replicate z (c.alphabet.getD 0 0) ++ t) := by
  refine ⟨(List.replicate (-((Full.encLoop (Full.encSize r.length) r
      (List.replicate (Full.encSize r.length) 0) ((Full.encSize r.length : Nat) - 1)).2 + 1)).toNat
        undefinedText).flatten
      ++ (((Full.encLoop (Full.encSize r.length) r
        (List.replicate (Full.encSize r.length) 0) ((Full.encSize r.length : Nat) - 1)).1.drop
          ((Full.encLoop (Full.encSize r.length) r (List.replicate (Full.encSize r.length) 0)
            ((Full.encSize r.length : Nat) - 1)).2 + 1).toNat).map (charAt c.alphabet)).flatten,
    ?_⟩
  intro z
  have hz : lead 0 (List.replicate z 0 ++ r) = z := lead_replicate_append 0 z r hhead
  have hlen : (List.replicate z 0 ++ r).length - z = r.length := by simp
  have hdrop : (List.replicate z 0 ++ r).drop z = r := by
    rw [List.drop_append_of_le_length (by simp)]
    simp
  rw [full_encodeToString_eq_core, window_none]
  simp only [hz, hlen, hdrop, hv.zero_text_eq, List.append_assoc]

theorem full_encPass_zero_size : Full.encPass (-1) 0 [] 255 = ([], -3)
    ∧ Full.encPass (-3) 0 [] 255 = ([], -3) := by decide

theorem full_encLoop_zero_size : ∀ n : Nat,
    Full.encLoop 0 (List.replicate n 255) [] (-3) = ([], -3) := by
  intro n
  induction n with
  | zero => rfl
  | succ n ih =>
    rw [List.replicate_succ, Full.encLoop, full_encPass_zero_size.2]
    exact ih

theorem full_encLoop_zero_size_first (n : Nat) (hn : 0 < n) :
    Full.encLoop 0 (List.replicate n 255) [] (-1) = ([], -3) := by
  obtain ⟨k, rfl⟩ := Nat.exists_eq_succ_of_ne_zero (Nat.pos_iff_ne_zero.1 hn)
  rw [List.replicate_succ, Full.encLoop, full_encPass_zero_size.1]
  exact full_encLoop_zero_size k

/-- The encode methods on `n` bytes `0xFF` whose buffer has size 0: every pass
runs below index 0, `lastIndex` ends at -3, and the output loop reads
`bytes[-2]` and `bytes[-1]`. -/
theorem full_encode_zero_size (c : Codec) (n : Nat) (hn : 0 < n) (hsize : Full.encSize n = 0) :
    Full.encodeToString c (List.replicate n 255) none none
        = .returns (undefinedText ++ undefinedText)
      ∧ Full.encode c (List.replicate n 255) none none = .returns [0, 0] := by
  have hhead : ∀ x, (List.replicate n 255).head? = some x → x ≠ 0 := by
    intro x hx
    obtain ⟨k, rfl⟩ := Nat.exists_eq_succ_of_ne_zero (Nat.pos_iff_ne_zero.1 hn)
    rw [List.replicate_succ] at hx
    cases hx
    decide
  have hz : lead 0 (List.replicate n 255) = 0 := by
    have := lead_replicate_append 0 0 (List.replicate n 255) hhead
    simpa using this
  rw [full_encodeToString_eq_core, full_encode_eq_core, window_none]
  simp only [hz, List.length_replicate, Nat.sub_zero, List.drop_zero, hsize,
    List.replicate_zero]
  have hL : ((0 : Nat) : Int) - 1 = -1 := by decide
  rw [hL, full_encLoop_zero_size_first n hn]
  exact ⟨rfl, rfl⟩

theorem full_decBelow_exit (L : Int) (fuel carry : Nat) (index : Int)
    (h : ¬(carry ≠ 0 ∨ index > L)) : Full.decBelow L fuel carry index = some index := by
  cases fuel with
  | zero => rw [Full.decBelow, if_neg h]
  | succ fuel => rw [Full.decBelow, if_neg h]

theorem decPass_index_ge (L : Int) : ∀ (n : Nat) (bytes : List Nat) (carry : Nat) r,
    decPass L n bytes carry = some r → -1 ≤ r.2 := by
  intro n
  induction n with
  | zero =>
    intro bytes carry r hr
    rw [decPass] at hr
    split at hr
    · cases hr
    · cases hr; simp
  | succ n ih =>
    intro bytes carry r hr
    rw [decPass] at hr
    split at hr
    · exact ih _ _ r hr
    · cases hr
      show (-1 : Int) ≤ (n : Int)
      omega

theorem full_decPass_of_some (L : Int) : ∀ (n : Nat) (bytes : List Nat) (carry : Nat) r,
    decPass L n bytes carry = some r → Full.decPass L n bytes carry = some r := by
  intro n
  induction n with
  | zero =>
    intro bytes carry r hr
    rw [decPass] at hr
    split at hr
    · cases hr
    · rename_i hcond
      cases hr
      rw [Full.decPass, full_decBelow_exit L _ carry (-1) hcond]
  | succ n ih =>
    intro bytes carry r hr
    rw [decPass] at hr
    rw [Full.decPass]
    split at hr
    · rename_i hcond
      rw [if_pos hcond]
      exact ih _ _ r hr
    · rename_i hcond
      rw [if_neg hcond]
      exact hr

theorem full_decLoop_eq (T : Table) (size : Nat) : ∀ (xs : List Nat) (i : Nat)
    (bytes : List Nat) (L : Int), -1 ≤ L → decLoop T size xs i bytes L ≠ .overrun →
    Full.decLoop T size xs i bytes L = decLoop T size xs i bytes L
      ∧ ∀ r, decLoop T size xs i bytes L = .returns r → -1 ≤ r.2 := by
  intro xs
  induction xs with
  | nil =>
    intro i bytes L hL _
    refine ⟨rfl, ?_⟩
    intro r hr
    rw [decLoop] at hr
    cases hr
    exact hL
  | cons x xs ih =>
    intro i bytes L hL hne
    rw [decLoop] at hne ⊢
    rw [Full.decLoop]
    cases hx : T x with
    | none => simp
    | some d =>
      rw [hx] at hne
      simp only at hne ⊢
      cases hp : decPass L size bytes d with
      | none => rw [hp] at hne; exact absurd rfl hne
      | some r1 =>
        rw [hp] at hne
        rw [full_decPass_of_some L size bytes d r1 hp]
        exact ih (i + 1) r1.1 r1.2 (decPass_index_ge L size bytes d r1 hp) hne

/-- Where the size fits 32 bits and the carry loops stay in the buffer,
`decodeFromString` with the 32-bit size does what the method above does. -/
theorem full_decodeFromString_eq (c : Codec) (v : Nat) (hv0 : c.alphabet[0]? = some v)
    (string : List Nat) (start stop : Option Int)
    (hsize : decSize ((window string start stop).length - lead v (window string start stop))
      < 4294967296)
    (hne : decodeFromString c string start stop ≠ .overrun) :
    Full.decodeFromString c string start stop = decodeFromString c string start stop := by
  obtain ⟨h1, h2⟩ := range_facts v string start stop
  unfold decodeFromString at hne ⊢
  unfold Full.decodeFromString
  simp only [hv0, h1, h2, window_length] at hsize hne ⊢
  have hs : Full.decSize (normIndex string.length stop string.length
      - normIndex string.length start 0 - lead v (window string start stop))
      = decSize (normIndex string.length stop string.length
        - normIndex string.length start 0 - lead v (window string start stop)) := by
    unfold Full.decSize; exact u32_of_lt hsize
  rw [hs]
  generalize decSize (normIndex string.length stop string.length
      - normIndex string.length start 0 - lead v (window string start stop)) = size at hne ⊢
  cases hloop : decLoop c.alphabetLookup size
      ((window string start stop).drop (lead v (window string start stop)))
      (normIndex string.length start 0 + lead v (window string start stop))
      (List.replicate size 0) ((size : Int) - 1) with
  | overrun => rw [hloop] at hne; exact absurd rfl hne
  | throws e =>
    have key := full_decLoop_eq c.alphabetLookup size
      ((window string start stop).drop (lead v (window string start stop)))
      (normIndex string.length start 0 + lead v (window string start stop))
      (List.replicate size 0) ((size : Int) - 1) (by omega)
      (by rw [hloop]; exact fun h => Outcome.noConfusion h)
    rw [key.1, hloop]
  | returns r =>
    have key := full_decLoop_eq c.alphabetLookup size
      ((window string start stop).drop (lead v (window string start stop)))
      (normIndex string.length start 0 + lead v (window string start stop))
      (List.replicate size 0) ((size : Int) - 1) (by omega)
      (by rw [hloop]; exact fun h => Outcome.noConfusion h)
    rw [key.1, hloop]
    have hge := key.2 r hloop
    have h0 : (-(r.2 + 1)).toNat = 0 := by omega
    obtain ⟨bytes, L⟩ := r
    simp only at h0 ⊢
    rw [h0]
    simp

theorem full_decLoopBytes_eq (T : Table) (size : Nat) : ∀ (xs : List Nat) (k : Nat)
    (bytes : List Nat) (L : Int),
    Full.decLoopBytes T size xs k bytes L = (Full.decLoop T size xs k bytes L).asBytes := by
  intro xs
  induction xs with
  | nil => intro k bytes L; rfl
  | cons x xs ih =>
    intro k bytes L
    simp only [Full.decLoop, Full.decLoopBytes]
    cases T x with
    | none => rfl
    | some d =>
      simp only
      cases Full.decPass L size bytes d with
      | none => rfl
      | some r => exact ih (k + 1) r.1 r.2

theorem full_decLoop_throws (T : Table) (size : Nat) : ∀ (xs : List Nat) (k : Nat)
    (bytes : List Nat) (L : Int) (e : Error), Full.decLoop T size xs k bytes L = .throws e →
    ∃ ch i, e = .invalidCharacter ch i := by
  intro xs
  induction xs with
  | nil => intro k bytes L e h; rw [Full.decLoop] at h; cases h
  | cons x xs ih =>
    intro k bytes L e h
    rw [Full.decLoop] at h
    cases hx : T x with
    | none => rw [hx] at h; cases h; exact ⟨x, k, rfl⟩
    | some d =>
      rw [hx] at h
      simp only at h
      cases hp : Full.decPass L size bytes d with
      | none => rw [hp] at h; cases h
      | some r => rw [hp] at h; exact ih (k + 1) r.1 r.2 e h

/-- The byte-array `decode` with the 32-bit size does on every input what
`decodeFromString` with the 32-bit size does on the same codes. -/
theorem full_decode_eq_asBytes {c : Codec} (hv : c.Valid) (e : List Nat)
    (start stop : Option Int) :
    Full.decode c e start stop = (Full.decodeFromString c e start stop).asBytes := by
  unfold Full.decode Full.decodeFromString
  simp only [hv.baseMap_eq, hv.baseMapLookup_eq]
  rw [full_decLoopBytes_eq]
  cases Full.decLoop _ _ _ _ _ _ with
  | returns r => rfl
  | overrun => rfl
  | throws e => cases e <;> rfl

theorem full_decBelow_some (L : Int) : ∀ (fuel carry : Nat) (index : Int), carry < 256 →
    carry + (index - L).toNat ≤ fuel → ∃ i, Full.decBelow L fuel carry index = some i := by
  intro fuel
  induction fuel with
  | zero =>
    intro carry index _ h
    have hc : ¬(carry ≠ 0 ∨ index > L) := by omega
    exact ⟨index, full_decBelow_exit L 0 carry index hc⟩
  | succ fuel ih =>
    intro carry index hc h
    by_cases hcond : carry ≠ 0 ∨ index > L
    · rw [Full.decBelow, if_pos hcond]
      have hs : sar8 carry = 0 := by
        rw [sar8_of_lt (by omega)]
        exact Nat.div_eq_of_lt hc
      rw [hs]
      apply ih 0 (index - 1) (by norm_num)
      rcases hcond with h1 | h1
      · have := Nat.pos_of_ne_zero h1
        omega
      · omega
    · exact ⟨index, full_decBelow_exit L _ carry index hcond⟩

theorem full_decPass_some (L : Int) : ∀ (n : Nat) (bytes : List Nat) (carry : Nat),
    carry ≤ 57 → (∀ d ∈ bytes, d ≤ 255) →
    ∃ r, Full.decPass L n bytes carry = some r ∧ ∀ d ∈ r.1, d ≤ 255 := by
  intro n
  induction n with
  | zero =>
    intro bytes carry hc hb
    obtain ⟨i, hi⟩ := full_decBelow_some L (carry + ((-1 : Int) - L).toNat) carry (-1)
      (by omega) le_rfl
    refine ⟨(bytes, i), ?_, hb⟩
    rw [Full.decPass, hi]
  | succ n ih =>
    intro bytes carry hc hb
    have he := getD_le_of_forall bytes n 255 hb
    obtain ⟨_, _, _, e4, e5, e6, e7⟩ := dec_step_exact carry (bytes.getD n 0) hc he
    rw [Full.decPass]
    split
    · exact ih (bytes.set n (u8 (and255 (carry + u32 (bytes.getD n 0 * BASE)))))
        (sar8 (carry + u32 (bytes.getD n 0 * BASE))) (by rw [e6]; exact e7)
        (forall_set_le bytes n _ 255 hb (by rw [e4]; exact e5))
    · exact ⟨(bytes, n), rfl, hb⟩

theorem full_decLoop_cases (T : Table) (hT : ∀ ch d, T ch = some d → d < 58) (size : Nat) :
    ∀ (xs : List Nat) (i : Nat) (bytes : List Nat) (L : Int), (∀ d ∈ bytes, d ≤ 255) →
    (∃ r, Full.decLoop T size xs i bytes L = .returns r)
      ∨ ∃ ch j, Full.decLoop T size xs i bytes L = .throws (.invalidCharacter ch j) := by
  intro xs
  induction xs with
  | nil => intro i bytes L _; exact Or.inl ⟨(bytes, L), rfl⟩
  | cons x xs ih =>
    intro i bytes L hb
    rw [Full.decLoop]
    cases hx : T x with
    | none => exact Or.inr ⟨x, i, rfl⟩
    | some d =>
      have hd : d ≤ 57 := by have := hT x d hx; omega
      obtain ⟨r, hr, hrb⟩ := full_decPass_some L size bytes d hd hb
      simp only
      rw [hr]
      exact ih (i + 1) r.1 r.2 hrb

/-- With a constructed codec `decodeFromString` with the 32-bit size returns or
throws for a character on every input: its carry loops end. -/
theorem full_decodeFromString_cases {c : Codec} (hv : c.Valid) (e : List Nat)
    (start stop : Option Int) :
    (∃ bytes, Full.decodeFromString c e start stop = .returns bytes)
      ∨ ∃ ch i, Full.decodeFromString c e start stop = .throws (.invalidCharacter ch i) := by
  unfold Full.decodeFromString
  simp only
  rcases full_decLoop_cases c.alphabetLookup hv.lookup_lt
      (Full.decSize (normIndex e.length stop e.length - normIndex e.length start 0
        - zeroRun c.alphabet[0]? e (normIndex e.length start 0)
            (normIndex e.length stop e.length - normIndex e.length start 0) 0))
      ((e.take (normIndex e.length stop e.length)).drop (normIndex e.length start 0
        + zeroRun c.alphabet[0]? e (normIndex e.length start 0)
            (normIndex e.length stop e.length - normIndex e.length start 0) 0))
      (normIndex e.length start 0
        + zeroRun c.alphabet[0]? e (normIndex e.length start 0)
            (normIndex e.length stop e.length - normIndex e.length start 0) 0)
      (List.replicate (Full.decSize (normIndex e.length stop e.length
        - normIndex e.length start 0
        - zeroRun c.alphabet[0]? e (normIndex e.length start 0)
            (normIndex e.length stop e.length - normIndex e.length start 0) 0)) 0)
      (((Full.decSize (normIndex e.length stop e.length - normIndex e.length start 0
        - zeroRun c.alphabet[0]? e (normIndex e.length start 0)
            (normIndex e.length stop e.length - normIndex e.length start 0) 0) : Nat) : Int) - 1)
      (forall_replicate_zero_le _ 255) with ⟨r, hr⟩ | ⟨ch, j, hr⟩
  · rw [hr]; exact Or.inl ⟨_, rfl⟩
  · rw [hr]; exact Or.inr ⟨ch, j, rfl⟩

/-- The round trip with the 32-bit size, for a byte sequence whose part after
the leading zero bytes is below the length at which the size wraps. -/
theorem full_roundtrip {c : Codec} (hv : c.Valid) (b : List Nat) (hb : ∀ x ∈ b, x < 256)
    (hlen : b.length - lead 0 b < 3144979599) :
    ∃ s, Full.encodeToString c b none none = .returns s
      ∧ Full.decodeFromString c s none none = .returns b
      ∧ encodeToString c b none none = .returns s := by
  obtain ⟨hsplit, hhead⟩ := lead_split 0 b
  have hr : ∀ x ∈ b.drop (lead 0 b), x < 256 := fun x hx => hb x (List.mem_of_mem_drop hx)
  have hspec := encodeToString_spec hv (lead 0 b) (b.drop (lead 0 b)) hr hhead
  rw [← hsplit] at hspec
  obtain ⟨s, h1, h2⟩ := decode_encode_aux hv b hb
  rw [hspec] at h1
  have hs := (Outcome.returns.inj h1).symm
  obtain ⟨z, E, hcore, _⟩ := encCore_window b none none hb
  have hfull := (full_encode_eq c b none none
    (by rw [window_none]; exact encSize_lt_wrap _ hlen) z E hcore).1
  have hE := canon_lt (b := 58) (by norm_num) (valueOf 256 (b.drop (lead 0 b)))
  have hlead : lead (c.alphabet.getD 0 0) s = lead 0 b := by
    rw [hs]
    exact lead_replicate_append _ _ _
      (hv.map_head_ne _ hE (canon_head_ne_zero 58 (valueOf 256 (b.drop (lead 0 b)))))
  have hcanon : (canon 58 (valueOf 256 (b.drop (lead 0 b)))).length
      ≤ encSize (b.length - lead 0 b) := by
    apply canon_length_le (by norm_num)
    have h3 := valueOf_lt_pow (b := 256) (by norm_num) (b.drop (lead 0 b)) hr
    rw [List.length_drop] at h3
    exact lt_trans h3 (lt_pow_encSize _)
  have hslen : s.length - lead (c.alphabet.getD 0 0) s ≤ encSize (b.length - lead 0 b) := by
    rw [hlead, hs]
    simp only [List.length_append, List.length_replicate, List.length_map]
    omega
  have hwrap := encSize_lt_wrap _ hlen
  have hdsize : decSize (s.length - lead (c.alphabet.getD 0 0) s) < 4294967296 := by
    have := decSize_le (s.length - lead (c.alphabet.getD 0 0) s)
    omega
  have hdec := full_decodeFromString_eq c _ (hv.getD_eq (by norm_num)) s none none
    (by rw [window_none]; exact hdsize) (by rw [h2]; exact fun h => Outcome.noConfusion h)
  refine ⟨s, ?_, ?_, ?_⟩
  · rw [hfull, hspec, hs]
  · rw [hdec, h2]
  · rw [hspec, hs]

/-! ## The claims -/

/-- Claim C1, as stated, fails: with the default alphabet, on 3144979599
bytes `0xFF` the buffer size `4294967296` is converted to 0, `encodeToString`
returns `undefinedundefined`, and `decodeFromString` of that returns 14 bytes,
not the input. -/
theorem roundtrip_fails_at_size_wrap :
    Codec.new none = .ok base58
      ∧ (∀ x ∈ List.replicate 3144979599 255, x < 256)
      ∧ Full.encodeToString base58 (List.replicate 3144979599 255) none none
          = .returns (units "undefinedundefined")
      ∧ Full.decodeFromString base58 (units "undefinedundefined") none none
          = .returns [2, 121, 193, 60, 222, 213, 49, 218, 155, 185, 120, 12, 90, 66]
      ∧ ¬ ∃ s, Full.encodeToString base58 (List.replicate 3144979599 255) none none = .returns s
          ∧ Full.decodeFromString base58 s none none
              = .returns (List.replicate 3144979599 255) := by
  have henc := (full_encode_zero_size base58 3144979599 (by decide) full_encSize_at_wrap).1
  have hdec : Full.decodeFromString base58 (units "undefinedundefined") none none
      = .returns [2, 121, 193, 60, 222, 213, 49, 218, 155, 185, 120, 12, 90, 66] := by decide
  refine ⟨rfl, ?_, henc, hdec, ?_⟩
  · intro x hx
    rw [(List.mem_replicate.1 hx).2]
    decide
  · rintro ⟨s, h1, h2⟩
    rw [henc] at h1
    have hs : s = undefinedText ++ undefinedText := (Outcome.returns.inj h1).symm
    rw [hs] at h2
    have h3 : Full.decodeFromString base58 (undefinedText ++ undefinedText) none none
        = .returns [2, 121, 193, 60, 222, 213, 49, 218, 155, 185, 120, 12, 90, 66] := hdec
    rw [h3] at h2
    have h4 := congrArg List.length (Outcome.returns.inj h2)
    rw [List.length_replicate] at h4
    exact absurd h4 (by decide)

/-- Claim C1, amended. Round trip bytes -> string -> bytes: for every codec
that the constructor returns and every byte sequence `b` with fewer than
3144979599 bytes after its leading zero bytes, `encodeToString` returns a
string whose `decodeFromString` returns exactly `b`. -/
theorem decode_encodeToString_roundtrip (arg : Option (List Nat)) (c : Codec)
    (hc : Codec.new arg = .ok c) (b : List Nat) (hb : ∀ x ∈ b, x < 256)
    (hlen : b.length - lead 0 b < 3144979599) :
    ∃ s, Full.encodeToString c b none none = .returns s
      ∧ Full.decodeFromString c s none none = .returns b := by
  obtain ⟨s, h1, h2, _⟩ := full_roundtrip (Codec.new_valid arg c hc) b hb hlen
  exact ⟨s, h1, h2⟩

/-- Witness of C1 at `b = [0, 0, 0, 1, 2]` with the default alphabet. -/
theorem decode_encodeToString_roundtrip_witness :
    (∀ x ∈ [0, 0, 0, 1, 2], x < 256)
      ∧ [0, 0, 0, 1, 2].length - lead 0 [0, 0, 0, 1, 2] < 3144979599
      ∧ ∃ s, Full.encodeToString base58 [0, 0, 0, 1, 2] none none = .returns s
        ∧ Full.decodeFromString base58 s none none = .returns [0, 0, 0, 1, 2] :=
  ⟨by decide, by decide,
    decode_encodeToString_roundtrip none base58 rfl [0, 0, 0, 1, 2] (by decide) (by decide)⟩

/-- Claim C2. Round trip string -> bytes -> string: for every codec that the
constructor returns and every string `s` over its alphabet, `decodeFromString`
returns bytes whose `encodeToString` returns exactly `s`. -/
theorem encodeToString_decode_roundtrip (arg : Option (List Nat)) (c : Codec)
    (hc : Codec.new arg = .ok c) (s : List Nat) (hs : ∀ ch ∈ s, ch ∈ c.alphabet) :
    ∃ b, decodeFromString c s none none = .returns b
      ∧ encodeToString c b none none = .returns s :=
  encode_decode_aux (Codec.new_valid arg c hc) s hs

/-- Witness of C2 at the string `"11z1"` with the default alphabet. -/
theorem encodeToString_decode_roundtrip_witness :
    (∀ ch ∈ units "11z1", ch ∈ base58.alphabet)
      ∧ ∃ b, decodeFromString base58 (units "11z1") none none = .returns b
        ∧ encodeToString base58 b none none = .returns (units "11z1") :=
  ⟨by decide, encodeToString_decode_roundtrip none base58 rfl (units "11z1") (by decide)⟩

/-- Claim C3. Reference definition of encode: on `z` zero bytes followed by
`r` (empty or starting with a non-zero byte), `encodeToString` returns `z`
copies of `alphabet[0]` followed by `alphabet[d]` for the radix-58 digits `d`,
most significant first and without leading zero, of the number that `r`
writes in radix 256; the buffer size of the model is
`⌊m * log 256 / log 58⌋ + 1`. -/
theorem encodeToString_reference (arg : Option (List Nat)) (c : Codec)
    (hc : Codec.new arg = .ok c) (z : Nat) (r : List Nat) (hr : ∀ x ∈ r, x < 256)
    (hhead : ∀ x, r.head? = some x → x ≠ 0) :
    encodeToString c (List.replicate z 0 ++ r) none none
        = .returns (List.replicate z (c.alphabet.getD 0 0)
            ++ (Nat.digits 58 (Nat.ofDigits 256 r.reverse)).reverse.map
                (fun d => c.alphabet.getD d 0))
      ∧ ∀ m : Nat, ((encSize m : Nat) : Int) = ⌊(m : ℝ) * (Real.log 256 / Real.log 58)⌋ + 1 :=
  ⟨encodeToString_spec (Codec.new_valid arg c hc) z r hr hhead, encSize_eq_floor⟩

/-- Witness of C3 at two zero bytes followed by `[1, 2]`. -/
theorem encodeToString_reference_witness :
    encodeToString base58 (List.replicate 2 0 ++ [1, 2]) none none
        = .returns (List.replicate 2 (base58.alphabet.getD 0 0)
            ++ (Nat.digits 58 (Nat.ofDigits 256 [1, 2].reverse)).reverse.map
                (fun d => base58.alphabet.getD d 0)) :=
  (encodeToString_reference none base58 rfl 2 [1, 2] (by decide) (by decide)).1

/-- Claim C4. Reference definition of decode: on `z` copies of `alphabet[0]`
followed by `t` over the alphabet (empty or not starting with `alphabet[0]`),
`decodeFromString` returns `z` zero bytes followed by the radix-256 digits,
most significant first and without leading zero, of the number whose
radix-58 digits are the alphabet positions of the characters of `t`. -/
theorem decodeFromString_reference (arg : Option (List Nat)) (c : Codec)
    (hc : Codec.new arg = .ok c) (z : Nat) (t : List Nat) (ht : ∀ ch ∈ t, ch ∈ c.alphabet)
    (hhead : ∀ x, t.head? = some x → x ≠ c.alphabet.getD 0 0) :
    decodeFromString c (List.replicate z (c.alphabet.getD 0 0) ++ t) none none
      = .returns (List.replicate z 0
          ++ (Nat.digits 256 (Nat.ofDigits 58
                (t.map (fun ch => c.alphabet.indexOf ch)).reverse)).reverse) :=
  decodeFromString_spec (Codec.new_valid arg c hc) z t ht hhead

/-- Witness of C4 at two zero digits followed by `"5T"`. -/
theorem decodeFromString_reference_witness :
    decodeFromString base58 (List.replicate 2 (base58.alphabet.getD 0 0) ++ units "5T") none none
      = .returns (List.replicate 2 0
          ++ (Nat.digits 256 (Nat.ofDigits 58
                ((units "5T").map (fun ch => base58.alphabet.indexOf ch)).reverse)).reverse) :=
  decodeFromString_reference none base58 rfl 2 (units "5T") (by decide) (by decide)

/-- Claim C5, as stated, fails: with the alphabet that has `u` in front, on
3144979599 bytes `0xFF` (no leading zero byte) `encodeToString` returns
`undefinedundefined`, which starts with `alphabet[0]`. -/
theorem leading_zero_digits_fail_at_size_wrap :
    ∃ c, Codec.new (some (units "u123456789ABCDEFGHJKLMNPQRSTUVWXYZabcdefghijkmnopqrstvwxyz")) = .ok c
      ∧ c.alphabet.getD 0 0 = 117
      ∧ (∀ x ∈ List.replicate 3144979599 255, x < 256)
      ∧ (List.replicate 3144979599 255).head? = some 255
      ∧ Full.encodeToString c (List.replicate 3144979599 255) none none
          = .returns (units "undefinedundefined")
      ∧ (units "undefinedundefined").head? = some 117 := by
  obtain ⟨c, hc⟩ := (new_ok_iff (units "u123456789ABCDEFGHJKLMNPQRSTUVWXYZabcdefghijkmnopqrstvwxyz")).2 (by decide)
  have ha := new_ok_alphabet _ c hc
  refine ⟨c, hc, ?_, ?_, ?_,
    (full_encode_zero_size c 3144979599 (by decide) full_encSize_at_wrap).1, by decide⟩
  · rw [ha]; decide
  · intro x hx
    rw [(List.mem_replicate.1 hx).2]
    decide
  · have h : (3144979599 : Nat) = 3144979598 + 1 := by decide
    rw [h, List.replicate_succ]
    rfl

/-- Claim C5, amended. Leading-zero preservation: `k` zero bytes in front of `r`
(empty or starting with a non-zero byte) add exactly `k` copies of
`alphabet[0]` in front of the encoding of `r`; and when `r` has fewer than
3144979599 bytes, that encoding does not start with `alphabet[0]`, and
decoding the result gives back the `k` zero bytes followed by `r`. -/
theorem leading_zero_preservation (arg : Option (List Nat)) (c : Codec)
    (hc : Codec.new arg = .ok c) (k : Nat) (r : List Nat) (hr : ∀ x ∈ r, x < 256)
    (hhead : ∀ x, r.head? = some x → x ≠ 0) :
    ∃ s, Full.encodeToString c r none none = .returns s
      ∧ Full.encodeToString c (List.replicate k 0 ++ r) none none
          = .returns (List.replicate k (c.alphabet.getD 0 0) ++ s)
      ∧ (r.length < 3144979599 →
          (∀ x, s.head? = some x → x ≠ c.alphabet.getD 0 0)
            ∧ Full.decodeFromString c (List.replicate k (c.alphabet.getD 0 0) ++ s) none none
                = .returns (List.replicate k 0 ++ r)) := by
  have hv := Codec.new_valid arg c hc
  obtain ⟨t, ht⟩ := full_encodeToString_zeros hv r hhead
  have h0 := ht 0
  simp only [List.replicate_zero, List.nil_append] at h0
  refine ⟨t, h0, ht k, ?_⟩
  intro hlen
  have hlead0 : lead 0 r = 0 := by
    have := lead_replicate_append 0 0 r hhead
    simpa using this
  have hleadk : lead 0 (List.replicate k 0 ++ r) = k := lead_replicate_append 0 k r hhead
  constructor
  · obtain ⟨s, h1, _, h3⟩ := full_roundtrip hv r hr (by rw [hlead0]; exact hlen)
    rw [h0] at h1
    have hts : t = s := Outcome.returns.inj h1
    have hspec := encodeToString_spec hv 0 r hr hhead
    simp only [List.replicate_zero, List.nil_append] at hspec
    rw [hspec] at h3
    rw [hts, ← Outcome.returns.inj h3]
    exact hv.map_head_ne _ (canon_lt (by norm_num) _) (canon_head_ne_zero _ _)
  · have hb : ∀ x ∈ List.replicate k 0 ++ r, x < 256 := by
      intro x hx
      rcases List.mem_append.1 hx with h | h
      · rw [(List.mem_replicate.1 h).2]; norm_num
      · exact hr x h
    obtain ⟨s, h1, h2, _⟩ := full_roundtrip hv (List.replicate k 0 ++ r) hb
      (by rw [hleadk]; simpa using hlen)
    rw [ht k] at h1
    rw [Outcome.returns.inj h1]
    exact h2

/-- Witness of C5 at `[0, 0, 0, 1, 2]`: three zero digits, then the encoding of `[1, 2]`. -/
theorem leading_zero_preservation_witness :
    ∃ s, Full.encodeToString base58 [1, 2] none none = .returns s
      ∧ Full.encodeToString base58 (List.replicate 3 0 ++ [1, 2]) none none
          = .returns (List.replicate 3 (base58.alphabet.getD 0 0) ++ s)
      ∧ (∀ x, s.head? = some x → x ≠ base58.alphabet.getD 0 0)
      ∧ Full.decodeFromString base58 (List.replicate 3 (base58.alphabet.getD 0 0) ++ s)
          none none = .returns (List.replicate 3 0 ++ [1, 2]) := by
  obtain ⟨s, h1, h2, h3⟩ :=
    leading_zero_preservation none base58 rfl 3 [1, 2] (by decide) (by decide)
  exact ⟨s, h1, h2, (h3 (by decide)).1, (h3 (by decide)).2⟩

/-- Claim C6, as stated, fails: with the reference alphabet the bytes
`[0x00, 0x01, 0x02]` do not encode to `"12g"`, and `"12g"` does not decode to
them (it decodes to `[0x00, 0x61]`). -/
theorem literal_scenario_12g_refuted :
    Codec.new none = .ok base58
      ∧ base58.alphabet = units "123456789ABCDEFGHJKLMNPQRSTUVWXYZabcdefghijkmnopqrstuvwxyz"
      ∧ encodeToString base58 [0x00, 0x01, 0x02] none none ≠ .returns (units "12g")
      ∧ decodeFromString base58 (units "12g") none none ≠ .returns [0x00, 0x01, 0x02]
      ∧ decodeFromString base58 (units "12g") none none = .returns [0x00, 0x61] :=
  ⟨rfl, rfl, by decide, by decide, by decide⟩

/-- Claim C6, amended: with the reference alphabet the bytes `[0x00, 0x01, 0x02]`
encode to `"15T"`, and `"15T"` decodes to `[0x00, 0x01, 0x02]`. -/
theorem literal_scenario_15T :
    Codec.new none = .ok base58
      ∧ base58.alphabet = units "123456789ABCDEFGHJKLMNPQRSTUVWXYZabcdefghijkmnopqrstuvwxyz"
      ∧ encodeToString base58 [0x00, 0x01, 0x02] none none = .returns (units "15T")
      ∧ decodeFromString base58 (units "15T") none none = .returns [0x00, 0x01, 0x02] :=
  ⟨rfl, rfl, by decide, by decide⟩

/-- Claim C7. Decode rejects unknown symbols: `decodeFromString` throws exactly
when the string has a character outside the alphabet, and then reports the
first such character with its index; the byte-array `decode` does the same
with bytes. -/
theorem decode_rejects_unknown_symbols (arg : Option (List Nat)) (c : Codec)
    (hc : Codec.new arg = .ok c) (s : List Nat) :
    ((∃ e, decodeFromString c s none none = .throws e) ↔ ∃ ch ∈ s, ch ∉ c.alphabet)
      ∧ (∀ pre bad post, s = pre ++ bad :: post → (∀ ch ∈ pre, ch ∈ c.alphabet) →
          bad ∉ c.alphabet →
          decodeFromString c s none none = .throws (.invalidCharacter bad pre.length))
      ∧ ((∃ e, decode c s none none = .throws e) ↔ ∃ ch ∈ s, ch ∉ c.alphabet)
      ∧ (∀ pre bad post, s = pre ++ bad :: post → (∀ ch ∈ pre, ch ∈ c.alphabet) →
          bad ∉ c.alphabet →
          decode c s none none = .throws (.invalidByte bad pre.length)) := by
  have hv := Codec.new_valid arg c hc
  have hS : decodeFromString c s none none
      = decCore c.alphabetLookup (c.alphabet.getD 0 0) s := by
    rw [decodeFromString_eq_core c _ (hv.getD_eq (by norm_num)), window_none]
    exact Outcome.shift_zero _
  have hB : decode c s none none
      = (decCore c.alphabetLookup (c.alphabet.getD 0 0) s).asBytes := by
    rw [decode_eq_core c _ hv.baseMap_head, window_none, hv.baseMapLookup_eq]
    exact congrArg _ (Outcome.shift_zero _)
  have hthrow : ∀ pre bad post, s = pre ++ bad :: post → (∀ ch ∈ pre, ch ∈ c.alphabet) →
      bad ∉ c.alphabet →
      decCore c.alphabetLookup (c.alphabet.getD 0 0) s
        = .throws (.invalidCharacter bad pre.length) := by
    intro pre bad post h1 h2 h3
    rw [h1]; exact decCore_valid_throws hv pre post bad h2 h3
  have hiff : ∀ o : Outcome (List Nat),
      (decCore c.alphabetLookup (c.alphabet.getD 0 0) s = o) →
      ((∃ e, o = .throws e) ↔ ∃ ch ∈ s, ch ∉ c.alphabet)
        ∧ ((∃ e, o.asBytes = .throws e) ↔ ∃ ch ∈ s, ch ∉ c.alphabet) := by
    intro o ho
    rcases decCore_valid_cases hv s with ⟨hall, b, hb⟩ | ⟨pre, bad, post, h1, h2, h3, h4⟩
    · rw [hb] at ho
      subst ho
      have hno : ¬ ∃ ch ∈ s, ch ∉ c.alphabet := by
        push_neg; exact hall
      exact ⟨⟨fun ⟨e, he⟩ => (by cases he), fun h => absurd h hno⟩,
        ⟨fun ⟨e, he⟩ => (by cases he), fun h => absurd h hno⟩⟩
    · rw [h4] at ho
      subst ho
      have hyes : ∃ ch ∈ s, ch ∉ c.alphabet := ⟨bad, by rw [h1]; simp, h3⟩
      exact ⟨⟨fun _ => hyes, fun _ => ⟨_, rfl⟩⟩, ⟨fun _ => hyes, fun _ => ⟨_, rfl⟩⟩⟩
  refine ⟨?_, ?_, ?_, ?_⟩
  · rw [hS]; exact (hiff _ rfl).1
  · intro pre bad post h1 h2 h3
    rw [hS]; exact hthrow pre bad post h1 h2 h3
  · rw [hB]; exact (hiff _ rfl).2
  · intro pre bad post h1 h2 h3
    rw [hB, hthrow pre bad post h1 h2 h3]
    rfl

/-- Witness of C7 at the string `"12g0"`: the character `0` at index 3 is reported. -/
theorem decode_rejects_unknown_symbols_witness :
    decodeFromString base58 (units "12g0") none none = .throws (.invalidCharacter 48 3)
      ∧ decode base58 (units "12g0") none none = .throws (.invalidByte 48 3) :=
  ⟨(decode_rejects_unknown_symbols none base58 rfl (units "12g0")).2.1
      (units "12g") 48 [] rfl (by decide) (by decide),
    (decode_rejects_unknown_symbols none base58 rfl (units "12g0")).2.2.2
      (units "12g") 48 [] rfl (by decide) (by decide)⟩

/-- Claim C8. Range slicing for encode: for every byte sequence and every
`start`, `end` (absent or any integer), `encodeToString` on the range returns,
and returns what it returns on the standard slice; so does the byte-array
`encode`. -/
theorem encode_range_slicing (c : Codec) (b : List Nat) (start stop : Option Int)
    (hb : ∀ x ∈ b, x < 256) :
    (∃ s, encodeToString c b start stop = .returns s)
      ∧ encodeToString c b start stop = encodeToString c (slice b start stop) none none
      ∧ (∃ s, encode c b start stop = .returns s)
      ∧ encode c b start stop = encode c (slice b start stop) none none := by
  obtain ⟨r, hr⟩ := encCore_some (window b start stop)
    (fun x hx => hb x (window_subset b start stop x hx))
  refine ⟨?_, ?_, ?_, ?_⟩
  · rw [encodeToString_eq_core, hr]; exact ⟨_, rfl⟩
  · rw [encodeToString_eq_core, encodeToString_eq_core c (slice b start stop), window_none,
      slice_eq_window]
  · rw [encode_eq_core, hr]; exact ⟨_, rfl⟩
  · rw [encode_eq_core, encode_eq_core c (slice b start stop), window_none, slice_eq_window]

/-- Witness of C8: `encode([9, 9, 1, 2, 3], 2, 5)` equals `encode([1, 2, 3])`. -/
theorem encode_range_slicing_witness :
    slice [9, 9, 1, 2, 3] (some 2) (some 5) = [1, 2, 3]
      ∧ encodeToString base58 [9, 9, 1, 2, 3] (some 2) (some 5)
          = encodeToString base58 [1, 2, 3] none none :=
  ⟨by decide, (encode_range_slicing base58 [9, 9, 1, 2, 3] (some 2) (some 5) (by decide)).2.1⟩

/-- Claim C9. Range slicing for decode: with `a` the normalised start index,
`decodeFromString` on the range returns exactly the bytes that it returns on
the slice; it throws for character `ch` at index `a + j` exactly when the
decode of the slice throws for `ch` at index `j`; one of the two happens; and
two calls with the same slice and the same `a` have the same outcome, whatever
lies outside the range. -/
theorem decode_range_slicing (arg : Option (List Nat)) (c : Codec)
    (hc : Codec.new arg = .ok c) (s : List Nat) (start stop : Option Int) :
    (∀ bytes, decodeFromString c s start stop = .returns bytes
        ↔ decodeFromString c (slice s start stop) none none = .returns bytes)
      ∧ (∀ ch j, decodeFromString c (slice s start stop) none none
            = .throws (.invalidCharacter ch j)
          ↔ decodeFromString c s start stop
            = .throws (.invalidCharacter ch (normIndex s.length start 0 + j)))
      ∧ ((∃ bytes, decodeFromString c (slice s start stop) none none = .returns bytes)
          ∨ ∃ ch j, decodeFromString c (slice s start stop) none none
              = .throws (.invalidCharacter ch j))
      ∧ (∀ (s2 : List Nat) (start2 stop2 : Option Int),
          slice s2 start2 stop2 = slice s start stop →
          normIndex s2.length start2 0 = normIndex s.length start 0 →
          decodeFromString c s2 start2 stop2 = decodeFromString c s start stop) := by
  have hv := Codec.new_valid arg c hc
  have hhead := hv.getD_eq (show 0 < 58 by norm_num)
  have hR : decodeFromString c s start stop
      = (decCore c.alphabetLookup (c.alphabet.getD 0 0) (window s start stop)).shift
          (normIndex s.length start 0) := decodeFromString_eq_core c _ hhead s start stop
  have hS : decodeFromString c (slice s start stop) none none
      = decCore c.alphabetLookup (c.alphabet.getD 0 0) (window s start stop) := by
    rw [decodeFromString_eq_core c _ hhead, window_none, slice_eq_window]
    exact Outcome.shift_zero _
  refine ⟨?_, ?_, ?_, ?_⟩
  · intro bytes
    rw [hR, hS]
    rcases decCore_valid_cases hv (window s start stop) with
      ⟨_, b, hb⟩ | ⟨pre, bad, post, _, _, _, h4⟩
    · rw [hb]; simp [Outcome.shift]
    · rw [h4]; simp [Outcome.shift]
  · intro ch j
    rw [hR, hS]
    rcases decCore_valid_cases hv (window s start stop) with
      ⟨_, b, hb⟩ | ⟨pre, bad, post, _, _, _, h4⟩
    · rw [hb]; simp [Outcome.shift]
    · rw [h4]; simp [Outcome.shift]
  · rw [hS]
    rcases decCore_valid_cases hv (window s start stop) with
      ⟨_, b, hb⟩ | ⟨pre, bad, post, _, _, _, h4⟩
    · exact Or.inl ⟨b, hb⟩
    · exact Or.inr ⟨bad, pre.length, h4⟩
  · intro s2 start2 stop2 h1 h2
    rw [hR, decodeFromString_eq_core c _ hhead s2 start2 stop2, h2, ← slice_eq_window,
      ← slice_eq_window, h1]

/-- Witness of C9: the range `[2, 5)` of `"0015T0"` decodes as `"15T"` does, although
`0` is not in the alphabet; the range `[2, 6)` reports `0` at index `2 + 3`. -/
theorem decode_range_slicing_witness :
    decodeFromString base58 (units "0015T0") (some 2) (some 5) = .returns [0, 1, 2]
      ∧ decodeFromString base58 (units "0015T0") (some 2) (some 6)
          = .throws (.invalidCharacter 48 5) :=
  ⟨((decode_range_slicing none base58 rfl (units "0015T0") (some 2) (some 5)).1 [0, 1, 2]).2
      (by decide),
    ((decode_range_slicing none base58 rfl (units "0015T0") (some 2) (some 6)).2.1 48 3).1
      (by decide)⟩

/-- Claim C10. Empty input and empty range: the empty byte sequence encodes to
the empty string and the empty string decodes to the empty byte sequence;
whenever the normalised end index is at most the normalised start index,
`encodeToString` returns the empty string, `encode` the empty byte array, and
`decodeFromString` and `decode` the empty byte sequence. -/
theorem empty_input_and_range (c : Codec) :
    encodeToString c [] none none = .returns []
      ∧ decodeFromString c [] none none = .returns []
      ∧ ∀ (input : List Nat) (start stop : Option Int),
          normIndex input.length stop input.length ≤ normIndex input.length start 0 →
          encodeToString c input start stop = .returns []
            ∧ encode c input start stop = .returns []
            ∧ decodeFromString c input start stop = .returns []
            ∧ decode c input start stop = .returns [] := by
  have key : ∀ (input : List Nat) (start stop : Option Int),
      normIndex input.length stop input.length ≤ normIndex input.length start 0 →
      encodeToString c input start stop = .returns []
        ∧ encode c input start stop = .returns []
        ∧ decodeFromString c input start stop = .returns []
        ∧ decode c input start stop = .returns [] := by
    intro input start stop h
    have hw := window_eq_nil input start stop h
    have hsub : normIndex input.length stop input.length - normIndex input.length start 0 = 0 := by
      omega
    have hdrop : ∀ k, (input.take (normIndex input.length stop input.length)).drop
        (normIndex input.length start 0 + k) = [] := by
      intro k
      rw [List.drop_eq_nil_iff]
      simp only [List.length_take]
      omega
    refine ⟨?_, ?_, ?_, ?_⟩
    · rw [encodeToString_eq_core, hw, encCore_nil]; rfl
    · rw [encode_eq_core, hw, encCore_nil]; rfl
    · unfold decodeFromString
      simp only [hsub, zeroRun, Nat.add_zero, Nat.sub_zero]
      rw [show (input.take (normIndex input.length stop input.length)).drop
        (normIndex input.length start 0) = [] from by simpa using hdrop 0]
      rfl
    · unfold decode
      simp only [hsub, zeroRun, Nat.add_zero, Nat.sub_zero]
      rw [show (input.take (normIndex input.length stop input.length)).drop
        (normIndex input.length start 0) = [] from by simpa using hdrop 0]
      rfl
  exact ⟨(key [] none none (by decide)).1, (key [] none none (by decide)).2.2.1, key⟩

/-- Witness of C10: the range `[3, 1)` of a three-byte input is empty. -/
theorem empty_input_and_range_witness :
    normIndex 3 (some 1) 3 ≤ normIndex 3 (some 3) 0
      ∧ encodeToString base58 [7, 8, 9] (some 3) (some 1) = .returns []
      ∧ decodeFromString base58 [7, 8, 9] (some 3) (some 1) = .returns [] :=
  ⟨by decide,
    ((empty_input_and_range base58).2.2 [7, 8, 9] (some 3) (some 1) (by decide)).1,
    ((empty_input_and_range base58).2.2 [7, 8, 9] (some 3) (some 1) (by decide)).2.2.1⟩

/-- Claim C11. The predicate `isAlphabet` is true exactly for the strings of 58
characters that are all characters of the reference alphabet and pairwise
distinct; it is true of the reference alphabet and false of a 57-character
string, of 58-character strings with a repeated character (also when the
repeated character is the first one), and of a 58-character string with `0`. -/
theorem isAlphabet_characterization :
    (∀ v : List Nat, isAlphabet v = true
        ↔ v.length = 58 ∧ (∀ ch ∈ v, ch ∈ ALPHABET) ∧ v.Nodup)
      ∧ isAlphabet ALPHABET = true
      ∧ isAlphabet (units "123456789ABCDEFGHJKLMNPQRSTUVWXYZabcdefghijkmnopqrstuvwxy") = false
      ∧ isAlphabet (units "123456789ABCDEFGHJKLMNPQRSTUVWXYZabcdefghijkmnopqrstuvwxyy") = false
      ∧ isAlphabet (units "1123456789ABCDEFGHJKLMNPQRSTUVWXYZabcdefghijkmnopqrstuvwxy") = false
      ∧ isAlphabet (units "023456789ABCDEFGHJKLMNPQRSTUVWXYZabcdefghijkmnopqrstuvwxyz") = false :=
  ⟨isAlphabet_iff, by decide, by decide, by decide, by decide, by decide⟩

/-- Claim C12, the code against it: the CommonJS constructor accepts a
58-character string over the reference characters in which the first character
occurs again at index 1, while the ESM constructor rejects the same string
with the duplicate error for index 1. -/
theorem cjs_constructor_accepts_duplicate :
    (units "1123456789ABCDEFGHJKLMNPQRSTUVWXYZabcdefghijkmnopqrstuvwxy").length = 58
      ∧ (∀ ch ∈ units "1123456789ABCDEFGHJKLMNPQRSTUVWXYZabcdefghijkmnopqrstuvwxy",
          ch ∈ ALPHABET)
      ∧ ¬ (units "1123456789ABCDEFGHJKLMNPQRSTUVWXYZabcdefghijkmnopqrstuvwxy").Nodup
      ∧ (CJS.new (some (units "1123456789ABCDEFGHJKLMNPQRSTUVWXYZabcdefghijkmnopqrstuvwxy"))).toOption.map
            (fun c => c.alphabet)
          = some (units "1123456789ABCDEFGHJKLMNPQRSTUVWXYZabcdefghijkmnopqrstuvwxy")
      ∧ (Codec.new (some (units "1123456789ABCDEFGHJKLMNPQRSTUVWXYZabcdefghijkmnopqrstuvwxy"))
          = .error (.duplicateAlphabetCharacter 49 1))
      ∧ (CJS.new (some (units "1223456789ABCDEFGHJKLMNPQRSTUVWXYZabcdefghijkmnopqrstuvwxy"))).toOption.map
            (fun c => c.alphabet)
          = none :=
  ⟨by decide, by decide, by decide, by decide,
    ((new_error (units "1123456789ABCDEFGHJKLMNPQRSTUVWXYZabcdefghijkmnopqrstuvwxy")).2
      (by decide) [49] 49
      (units "23456789ABCDEFGHJKLMNPQRSTUVWXYZabcdefghijkmnopqrstuvwxy") rfl (by decide)
      (by decide)).2 (by decide) (by decide),
    by decide⟩

/-- Claim C13. Constructor validation agrees with the predicate: the
constructor accepts a string exactly when `isAlphabet` is true of it, and the
codec then has that string as its alphabet; a string of another length gives
the length error; otherwise the error names the first index whose character is
outside the reference alphabet or equal to an earlier one; without argument
the reference alphabet is used. -/
theorem constructor_agrees_with_isAlphabet (v : List Nat) :
    ((∃ c, Codec.new (some v) = .ok c) ↔ isAlphabet v = true)
      ∧ (∀ c, Codec.new (some v) = .ok c → c.alphabet = v)
      ∧ (v.length ≠ 58 → Codec.new (some v) = .error .invalidAlphabetLength)
      ∧ (v.length = 58 → ∀ pre x post, v = pre ++ x :: post → (∀ ch ∈ pre, ch ∈ ALPHABET) →
          pre.Nodup →
          (x ∉ ALPHABET → Codec.new (some v) = .error (.invalidAlphabetCharacter x pre.length))
            ∧ (x ∈ ALPHABET → x ∈ pre →
                Codec.new (some v) = .error (.duplicateAlphabetCharacter x pre.length)))
      ∧ ∃ c, Codec.new none = .ok c ∧ c.alphabet = ALPHABET :=
  ⟨new_ok_iff v, fun c h => new_ok_alphabet (some v) c h, (new_error v).1, (new_error v).2,
    ⟨base58, rfl, rfl⟩⟩

/-- Witness of C13: a 57-character string gives the length error, and a string
with `0` at index 2 gives the character error for index 2. -/
theorem constructor_agrees_with_isAlphabet_witness :
    Codec.new (some (units "123456789ABCDEFGHJKLMNPQRSTUVWXYZabcdefghijkmnopqrstuvwxy"))
        = .error .invalidAlphabetLength
      ∧ Codec.new (some (units "120456789ABCDEFGHJKLMNPQRSTUVWXYZabcdefghijkmnopqrstuvwxyz"))
        = .error (.invalidAlphabetCharacter 48 2) :=
  ⟨(constructor_agrees_with_isAlphabet
      (units "123456789ABCDEFGHJKLMNPQRSTUVWXYZabcdefghijkmnopqrstuvwxy")).2.2.1 (by decide),
    ((constructor_agrees_with_isAlphabet
      (units "120456789ABCDEFGHJKLMNPQRSTUVWXYZabcdefghijkmnopqrstuvwxyz")).2.2.2.1
      (by decide) (units "12") 48
      (units "456789ABCDEFGHJKLMNPQRSTUVWXYZabcdefghijkmnopqrstuvwxyz") rfl (by decide)
      (by decide)).1 (by decide)⟩

/-- Claim C14. Both built-in alphabet constants are valid: each has 58 pairwise
distinct characters of the reference alphabet, `isAlphabet` is true of each,
and the constructors of both variants accept each. -/
theorem builtin_alphabets_valid :
    ALPHABET = units "123456789ABCDEFGHJKLMNPQRSTUVWXYZabcdefghijkmnopqrstuvwxyz"
      ∧ DARKWOLF_ALPHABET = units "AveDarkwo1f23456789BCEFGHJKLMNPQRSTUVWXYZbcdghijmnpqstuxyz"
      ∧ ALPHABET.length = 58 ∧ ALPHABET.Nodup
      ∧ DARKWOLF_ALPHABET.length = 58 ∧ DARKWOLF_ALPHABET.Nodup
      ∧ (∀ ch ∈ DARKWOLF_ALPHABET, ch ∈ ALPHABET)
      ∧ isAlphabet ALPHABET = true ∧ isAlphabet DARKWOLF_ALPHABET = true
      ∧ (∃ c, Codec.new (some ALPHABET) = .ok c ∧ c.alphabet = ALPHABET)
      ∧ (∃ c, Codec.new (some DARKWOLF_ALPHABET) = .ok c ∧ c.alphabet = DARKWOLF_ALPHABET)
      ∧ (CJS.new (some ALPHABET)).toOption.map (fun c => c.alphabet) = some ALPHABET
      ∧ (CJS.new (some DARKWOLF_ALPHABET)).toOption.map (fun c => c.alphabet)
          = some DARKWOLF_ALPHABET := by
  refine ⟨rfl, rfl, by decide, by decide, by decide, by decide, by decide, by decide, by decide,
    ?_, ?_, by decide, by decide⟩
  · obtain ⟨c, hc⟩ := (new_ok_iff ALPHABET).2 (by decide)
    exact ⟨c, hc, new_ok_alphabet _ c hc⟩
  · obtain ⟨c, hc⟩ := (new_ok_iff DARKWOLF_ALPHABET).2 (by decide)
    exact ⟨c, hc, new_ok_alphabet _ c hc⟩

/-- Claim C15. Bounded-integer round trip: for every constructed codec and
every integer `n` with `-(2 ^ 53 - 1) ≤ n ≤ 2 ^ 53 - 1`, `encodeInt` returns a
string and `decodeInt` of it returns `n`. -/
theorem decodeInt_encodeInt_roundtrip (arg : Option (List Nat)) (c : Codec)
    (hc : Codec.new arg = .ok c) (n : Int) (h1 : -(2 ^ 53 - 1) ≤ n) (h2 : n ≤ 2 ^ 53 - 1) :
    ∃ s, encodeInt c n = .returns s ∧ decodeInt c s = .returns (.int n) := by
  have hv := Codec.new_valid arg c hc
  obtain ⟨s, hs1, _, hs3⟩ := decode_encodeBigInt_aux hv n
  refine ⟨s, ?_, hs3 (by omega)⟩
  rw [encodeInt_eq c n (by simp only [MAX_SAFE_INTEGER]; omega)
    (by simp only [MAX_SAFE_INTEGER]; omega)]
  exact hs1

/-- Witness of C15 at `0`, `-1`, `2 ^ 53 - 1` and `-(2 ^ 53 - 1)`. -/
theorem decodeInt_encodeInt_roundtrip_witness :
    (∃ s, encodeInt base58 0 = .returns s ∧ decodeInt base58 s = .returns (.int 0))
      ∧ (∃ s, encodeInt base58 (-1) = .returns s ∧ decodeInt base58 s = .returns (.int (-1)))
      ∧ (∃ s, encodeInt base58 (2 ^ 53 - 1) = .returns s
          ∧ decodeInt base58 s = .returns (.int (2 ^ 53 - 1)))
      ∧ (∃ s, encodeInt base58 (-(2 ^ 53 - 1)) = .returns s
          ∧ decodeInt base58 s = .returns (.int (-(2 ^ 53 - 1)))) :=
  ⟨decodeInt_encodeInt_roundtrip none base58 rfl 0 (by decide) (by decide),
    decodeInt_encodeInt_roundtrip none base58 rfl (-1) (by decide) (by decide),
    decodeInt_encodeInt_roundtrip none base58 rfl (2 ^ 53 - 1) (by decide) (by decide),
    decodeInt_encodeInt_roundtrip none base58 rfl (-(2 ^ 53 - 1)) (by decide) (by decide)⟩

/-- Claim C16. The range check of `encodeInt`: it throws exactly when
`n < -(2 ^ 53 - 1)` or `n > 2 ^ 53 - 1`, and then with the range error; so it
throws at `2 ^ 53` and at `-2 ^ 53` and returns at both bounds. -/
theorem encodeInt_range_check (c : Codec) :
    (∀ n : Int, ((∃ e, encodeInt c n = .throws e) ↔ (n < -(2 ^ 53 - 1) ∨ n > 2 ^ 53 - 1))
        ∧ (∀ e, encodeInt c n = .throws e → e = .outOfSafeIntegerRange)
        ∧ (-(2 ^ 53 - 1) ≤ n → n ≤ 2 ^ 53 - 1 → ∃ s, encodeInt c n = .returns s))
      ∧ encodeInt c (2 ^ 53) = .throws .outOfSafeIntegerRange
      ∧ encodeInt c (-2 ^ 53) = .throws .outOfSafeIntegerRange
      ∧ (∃ s, encodeInt c (2 ^ 53 - 1) = .returns s)
      ∧ (∃ s, encodeInt c (-(2 ^ 53 - 1)) = .returns s) := by
  have hmax : MAX_SAFE_INTEGER = 2 ^ 53 - 1 := by decide
  have hret : ∀ n : Int, -(2 ^ 53 - 1) ≤ n → n ≤ 2 ^ 53 - 1 → ∃ s, encodeInt c n = .returns s := by
    intro n h1 h2
    rw [encodeInt_eq c n (by rw [hmax]; exact h1) (by rw [hmax]; exact h2)]
    unfold encodeBigInt
    by_cases h0 : n = 0
    · simp [h0]
    · simp [h0]
  refine ⟨?_, ?_, ?_, hret _ (by decide) (by decide), hret _ (by decide) (by decide)⟩
  · intro n
    have := encodeInt_throws_iff c n
    rw [hmax] at this
    exact ⟨this.1, this.2, hret n⟩
  · unfold encodeInt
    rw [if_neg (by decide), if_pos (by decide)]
  · unfold encodeInt
    rw [if_pos (by decide)]

/-- Witness of C16: `encodeInt` returns at `-(2 ^ 53 - 1)`. -/
theorem encodeInt_range_check_witness :
    ∃ s, encodeInt base58 (-(2 ^ 53 - 1)) = .returns s :=
  ((encodeInt_range_check base58).1 (-(2 ^ 53 - 1))).2.2 (by decide) (by decide)

/-- Claim C17. The representation of `encodeInt` on a safe integer: 0 gives the
one character `alphabet[0]`; `n > 0` gives `alphabet[d]` over the radix-58
digits of `n`, most significant first, the first of them not 0; `n < 0` gives
`-` followed by what `-n` gives. -/
theorem encodeInt_representation (arg : Option (List Nat)) (c : Codec)
    (hc : Codec.new arg = .ok c) (n : Int) (h1 : -(2 ^ 53 - 1) ≤ n) (h2 : n ≤ 2 ^ 53 - 1) :
    (n = 0 → encodeInt c n = .returns [c.alphabet.getD 0 0])
      ∧ (0 < n → encodeInt c n
            = .returns ((Nat.digits 58 n.toNat).reverse.map (fun d => c.alphabet.getD d 0))
          ∧ ∀ d, (Nat.digits 58 n.toNat).reverse.head? = some d → d ≠ 0)
      ∧ (n < 0 → ∃ s, encodeInt c (-n) = .returns s
          ∧ encodeInt c n = .returns (NEGATIVE_CHAR :: s)) := by
  have hv := Codec.new_valid arg c hc
  have hmax : MAX_SAFE_INTEGER = 2 ^ 53 - 1 := by decide
  have hn := encodeInt_eq c n (by rw [hmax]; exact h1) (by rw [hmax]; exact h2)
  have hm := encodeInt_eq c (-n) (by rw [hmax]; omega) (by rw [hmax]; omega)
  rw [encodeBigInt_eq hv] at hn hm
  refine ⟨?_, ?_, ?_⟩
  · intro h0
    rw [hn, if_pos h0]
  · intro hpos
    refine ⟨?_, canon_head_ne_zero 58 n.toNat⟩
    rw [hn, if_neg (by omega), if_neg (by omega)]
    rfl
  · intro hneg
    refine ⟨_, hm, ?_⟩
    rw [hn, if_neg (by omega), if_pos hneg, if_neg (by omega), if_neg (by omega)]

/-- Witness of C17: `encodeInt(-1)` is `-` followed by `encodeInt(1)`. -/
theorem encodeInt_representation_witness :
    ∃ s, encodeInt base58 (- -1) = .returns s
      ∧ encodeInt base58 (-1) = .returns (NEGATIVE_CHAR :: s) :=
  (encodeInt_representation none base58 rfl (-1) (by decide) (by decide)).2.2 (by decide)

/-- Claim C18, as stated, fails for `decodeInt`: the ten-character string
`zzzzzzzzzz` is over the reference alphabet and has the radix-58 value
`58 ^ 10 - 1`, which `decodeBigInt` returns, while `decodeInt`, accumulating in
double precision, returns `58 ^ 10`. -/
theorem decodeInt_exact_value_refuted :
    (∀ ch ∈ units "zzzzzzzzzz", ch ∈ base58.alphabet)
      ∧ Nat.ofDigits 58 ((units "zzzzzzzzzz").map (fun ch => base58.alphabet.indexOf ch)).reverse
          = 430804206899405823
      ∧ decodeBigInt base58 (units "zzzzzzzzzz") = .returns 430804206899405823
      ∧ decodeInt base58 (units "zzzzzzzzzz") = .returns (.int 430804206899405824)
      ∧ decodeInt base58 (units "zzzzzzzzzz") ≠ .returns (.int 430804206899405823) :=
  ⟨by decide, by decide, by decide, by decide, by decide⟩

/-- Claim C18, amended. With `t` the string without its skipped sign character:
if `t` has a character outside the alphabet, `decodeInt` and `decodeBigInt`
throw for the first such character at its index in `s`; otherwise
`decodeBigInt` returns the radix-58 value of `t`, negated when `s` starts with
`-`, and so does `decodeInt` when that value is at most `2 ^ 53 - 1`; `-`
followed by zero digits gives 0; and no call throws the range error. -/
theorem decodeInt_reference (arg : Option (List Nat)) (c : Codec)
    (hc : Codec.new arg = .ok c) (s : List Nat) :
    (∀ pre bad post, unsigned s = pre ++ bad :: post → (∀ ch ∈ pre, ch ∈ c.alphabet) →
        bad ∉ c.alphabet →
        decodeInt c s = .throws (.invalidCharacter bad (signLength s + pre.length))
          ∧ decodeBigInt c s = .throws (.invalidCharacter bad (signLength s + pre.length)))
      ∧ ((∀ ch ∈ unsigned s, ch ∈ c.alphabet) →
          decodeBigInt c s
              = .returns (if s[0]? = some NEGATIVE_CHAR
                  then -((Nat.ofDigits 58
                    ((unsigned s).map (fun ch => c.alphabet.indexOf ch)).reverse : Nat) : Int)
                  else ((Nat.ofDigits 58
                    ((unsigned s).map (fun ch => c.alphabet.indexOf ch)).reverse : Nat) : Int))
            ∧ ((Nat.ofDigits 58 ((unsigned s).map (fun ch => c.alphabet.indexOf ch)).reverse : Nat)
                  ≤ 2 ^ 53 - 1 →
                decodeInt c s
                  = .returns (.int (if s[0]? = some NEGATIVE_CHAR
                      then -((Nat.ofDigits 58
                        ((unsigned s).map (fun ch => c.alphabet.indexOf ch)).reverse : Nat) : Int)
                      else ((Nat.ofDigits 58
                        ((unsigned s).map (fun ch => c.alphabet.indexOf ch)).reverse : Nat) : Int)))))
      ∧ (∀ k, 0 < k →
          decodeInt c (NEGATIVE_CHAR :: List.replicate k (c.alphabet.getD 0 0)) = .returns (.int 0)
            ∧ decodeBigInt c (NEGATIVE_CHAR :: List.replicate k (c.alphabet.getD 0 0))
                = .returns 0)
      ∧ decodeInt c s ≠ .throws .outOfSafeIntegerRange
      ∧ decodeBigInt c s ≠ .throws .outOfSafeIntegerRange := by
  have hv := Codec.new_valid arg c hc
  have hcases : (∀ ch ∈ unsigned s, ch ∈ c.alphabet)
      ∨ ∃ pre bad post, unsigned s = pre ++ bad :: post ∧ (∀ ch ∈ pre, ch ∈ c.alphabet)
          ∧ bad ∉ c.alphabet := by
    by_cases h : ∀ ch ∈ unsigned s, ch ∈ c.alphabet
    · exact Or.inl h
    · right
      push_neg at h
      exact exists_first_bad (fun ch => ch ∈ c.alphabet) _ h
  have hzero : ∀ k, 0 < k →
      decodeInt c (NEGATIVE_CHAR :: List.replicate k (c.alphabet.getD 0 0)) = .returns (.int 0)
        ∧ decodeBigInt c (NEGATIVE_CHAR :: List.replicate k (c.alphabet.getD 0 0))
            = .returns 0 := by
    intro k hk
    obtain ⟨j, rfl⟩ : ∃ j, k = j + 1 := ⟨k - 1, by omega⟩
    rw [List.replicate_succ]
    obtain ⟨_, hs2⟩ := unsigned_negative (c.alphabet.getD 0 0)
      (List.replicate j (c.alphabet.getD 0 0))
    have hmem : ∀ ch ∈ c.alphabet.getD 0 0 :: List.replicate j (c.alphabet.getD 0 0),
        ch ∈ c.alphabet := by
      intro ch hch
      have : ch = c.alphabet.getD 0 0 := by
        rcases List.mem_cons.1 hch with h | h
        · exact h
        · exact (List.mem_replicate.1 h).2
      rw [this]; exact hv.getD_mem (by norm_num)
    have hval : valueOf 58 ((c.alphabet.getD 0 0 :: List.replicate j (c.alphabet.getD 0 0)).map
        (fun ch => c.alphabet.indexOf ch)) = 0 := by
      rw [← List.replicate_succ, List.map_replicate, hv.indexOf_getD (show 0 < 58 by norm_num)]
      unfold valueOf
      rw [List.reverse_replicate]
      generalize j + 1 = m
      induction m with
      | zero => simp
      | succ m ih => simp [List.replicate_succ, Nat.ofDigits_cons, ih]
    constructor
    · rw [decodeInt_returns hv _ (by rw [hs2]; exact hmem) (by rw [hs2, hval]; norm_num), hs2,
        hval]
      simp
    · rw [decodeBigInt_returns hv _ (by rw [hs2]; exact hmem), hs2, hval]
      simp
  refine ⟨fun pre bad post h1 h2 h3 => decodeInt_throws hv s pre post bad h1 h2 h3, ?_, hzero,
    ?_, ?_⟩
  · intro h
    refine ⟨decodeBigInt_returns hv s h, ?_⟩
    intro hb
    exact decodeInt_returns hv s h (by unfold valueOf; omega)
  · rcases hcases with h | ⟨pre, bad, post, h1, h2, h3⟩
    · rw [decodeInt_eq_loop]
      cases hl : decodeIntLoop c.alphabetLookup (unsigned s) (signLength s) (some 0) with
      | returns r => cases r <;> simp
      | overrun => simp
      | throws e =>
        have := decodeIntLoop_throws_kind c.alphabetLookup _ _ _ _ hl
        simp only
        intro he
        cases he
        exact this rfl
    · rw [(decodeInt_throws hv s pre post bad h1 h2 h3).1]
      intro he; cases he
  · rcases hcases with h | ⟨pre, bad, post, h1, h2, h3⟩
    · rw [decodeBigInt_returns hv s h]
      intro he; cases he
    · rw [(decodeInt_throws hv s pre post bad h1 h2 h3).2]
      intro he; cases he

/-- Witness of C18, amended: `-` followed by one zero digit decodes to 0, and
`-` alone is rejected at index 0. -/
theorem decodeInt_reference_witness :
    (decodeInt base58 (NEGATIVE_CHAR :: List.replicate 1 (base58.alphabet.getD 0 0))
          = .returns (.int 0)
        ∧ decodeBigInt base58 (NEGATIVE_CHAR :: List.replicate 1 (base58.alphabet.getD 0 0))
          = .returns 0)
      ∧ (decodeInt base58 (units "-") = .throws (.invalidCharacter 45 0)
        ∧ decodeBigInt base58 (units "-") = .throws (.invalidCharacter 45 0)) :=
  ⟨(decodeInt_reference none base58 rfl (units "-1")).2.2.1 1 (by decide),
    (decodeInt_reference none base58 rfl (units "-")).1 [] 45 [] rfl (by decide) (by decide)⟩

/-- Claim C19. Arbitrary-precision round trip: for every constructed codec and
every integer `v`, `encodeBigInt` returns a string and `decodeBigInt` of it
returns `v`. -/
theorem decodeBigInt_encodeBigInt_roundtrip (arg : Option (List Nat)) (c : Codec)
    (hc : Codec.new arg = .ok c) (v : Int) :
    ∃ s, encodeBigInt c v = .returns s ∧ decodeBigInt c s = .returns v := by
  obtain ⟨s, h1, h2, _⟩ := decode_encodeBigInt_aux (Codec.new_valid arg c hc) v
  exact ⟨s, h1, h2⟩

/-- Witness of C19 at `2 ^ 200 + 1` and its negation. -/
theorem decodeBigInt_encodeBigInt_roundtrip_witness :
    (∃ s, encodeBigInt base58 (2 ^ 200 + 1) = .returns s
        ∧ decodeBigInt base58 s = .returns (2 ^ 200 + 1))
      ∧ (∃ s, encodeBigInt base58 (-(2 ^ 200 + 1)) = .returns s
        ∧ decodeBigInt base58 s = .returns (-(2 ^ 200 + 1))) :=
  ⟨decodeBigInt_encodeBigInt_roundtrip none base58 rfl (2 ^ 200 + 1),
    decodeBigInt_encodeBigInt_roundtrip none base58 rfl (-(2 ^ 200 + 1))⟩

/-- Claim C20, as stated, fails: with the default alphabet, on 3144979599
bytes `0xFF` the buffer has size 0, `encode` returns the two bytes `[0, 0]`
and `encodeToString` returns `undefinedundefined`, whose character codes are
not `[0, 0]`. -/
theorem byte_codec_differs_at_size_wrap :
    Codec.new none = .ok base58
      ∧ (∀ x ∈ List.replicate 3144979599 255, x < 256)
      ∧ Full.encode base58 (List.replicate 3144979599 255) none none = .returns [0, 0]
      ∧ Full.encodeToString base58 (List.replicate 3144979599 255) none none
          = .returns (units "undefinedundefined")
      ∧ Full.encode base58 (List.replicate 3144979599 255) none none
          ≠ Full.encodeToString base58 (List.replicate 3144979599 255) none none := by
  obtain ⟨h1, h2⟩ := full_encode_zero_size base58 3144979599 (by decide) full_encSize_at_wrap
  refine ⟨rfl, ?_, h2, h1, ?_⟩
  · intro x hx
    rw [(List.mem_replicate.1 hx).2]
    decide
  · rw [h1, h2]
    decide

/-- Claim C20, amended. Byte codec equals string codec: on a byte sequence and
a range with fewer than 3144979599 bytes after the leading zero bytes of the
range, `encode` returns the character codes of what `encodeToString` returns,
each of them a character of the alphabet; on every byte sequence and range,
`decode` returns bytes exactly when `decodeFromString` on the same codes
returns them, and throws for a byte at an index exactly when
`decodeFromString` throws for that character at that index; and
`decodeFromString` does one of the two. -/
theorem byte_codec_equals_string_codec (arg : Option (List Nat)) (c : Codec)
    (hc : Codec.new arg = .ok c) (b : List Nat) (start stop : Option Int) :
    ((∀ x ∈ b, x < 256) →
        (window b start stop).length - lead 0 (window b start stop) < 3144979599 →
        Full.encode c b start stop = Full.encodeToString c b start stop
          ∧ ∀ s, Full.encodeToString c b start stop = .returns s →
              ∀ x ∈ s, x ∈ c.alphabet ∧ x < 256)
      ∧ (∀ bytes, Full.decode c b start stop = .returns bytes
          ↔ Full.decodeFromString c b start stop = .returns bytes)
      ∧ (∀ ch i, Full.decode c b start stop = .throws (.invalidByte ch i)
          ↔ Full.decodeFromString c b start stop = .throws (.invalidCharacter ch i))
      ∧ ((∃ bytes, Full.decodeFromString c b start stop = .returns bytes)
          ∨ ∃ ch i, Full.decodeFromString c b start stop
              = .throws (.invalidCharacter ch i)) := by
  have hv := Codec.new_valid arg c hc
  have hcases := full_decodeFromString_cases hv b start stop
  have hdec := full_decode_eq_asBytes hv b start stop
  refine ⟨?_, ?_, ?_, hcases⟩
  · intro hb hlen
    obtain ⟨z, E, hcore, _⟩ := encCore_window b start stop hb
    obtain ⟨f1, f2⟩ := full_encode_eq c b start stop (encSize_lt_wrap _ hlen) z E hcore
    obtain ⟨h1, h2⟩ := encode_eq_encodeToString hv b start stop hb
    rw [f1, f2]
    refine ⟨h1, fun s hs x hx => ⟨h2 s hs x hx, ?_⟩⟩
    have := ALPHABET_lt x (hv.subset x (h2 s hs x hx))
    omega
  · intro bytes
    rw [hdec]
    rcases hcases with ⟨r, hr⟩ | ⟨ch, i, hr⟩
    · rw [hr]; simp [Outcome.asBytes]
    · rw [hr]; simp [Outcome.asBytes]
  · intro ch i
    rw [hdec]
    rcases hcases with ⟨r, hr⟩ | ⟨ch2, i2, hr⟩
    · rw [hr]; simp [Outcome.asBytes]
    · rw [hr]; simp [Outcome.asBytes]

/-- Witness of C20 on the range `[1, 4)` of `[9, 0, 1, 2, 9]` and of its encoding. -/
theorem byte_codec_equals_string_codec_witness :
    Full.encode base58 [9, 0, 1, 2, 9] (some 1) (some 4)
        = Full.encodeToString base58 [9, 0, 1, 2, 9] (some 1) (some 4)
      ∧ Full.decode base58 (units "015T0") (some 1) (some 4) = .returns [0, 1, 2]
      ∧ Full.decode base58 (units "015T0") (some 1) none = .throws (.invalidByte 48 4) :=
  ⟨((byte_codec_equals_string_codec none base58 rfl [9, 0, 1, 2, 9] (some 1) (some 4)).1
      (by decide) (by decide)).1,
    ((byte_codec_equals_string_codec none base58 rfl (units "015T0") (some 1) (some 4)).2.1
      [0, 1, 2]).2 (by decide),
    ((byte_codec_equals_string_codec none base58 rfl (units "015T0") (some 1) none).2.2.1
      48 4).2 (by decide)⟩

/-- Claim C21. `isBase58String` characterization: on every string the predicate
is true exactly when every character is a character of the reference
alphabet, which is exactly when `decodeFromString` of the default codec
returns; it is false exactly when some character is outside the alphabet, and
it is true on the empty string. -/
theorem isBase58String_characterization (s : List Nat) :
    (isBase58String s = true ↔ ∀ ch ∈ s, ch ∈ ALPHABET)
      ∧ (isBase58String s = true ↔ ∃ b, decodeFromString base58 s none none = .returns b)
      ∧ (isBase58String s = false ↔ ∃ ch ∈ s, ch ∉ ALPHABET)
      ∧ isBase58String [] = true := by
  have h1 := isBase58String_iff s
  refine ⟨h1, h1.trans (base58_decode_returns_iff s).symm, ?_, by decide⟩
  rw [← Bool.not_eq_true, h1]
  push_neg
  rfl

/-- Claim C22. The two library variants on a `Uint8Array` of `2 ^ 32` zero
bytes: the CommonJS `encode` reads the length `0` and returns the empty array,
the ESM `encode` returns `2 ^ 32` times the code of `1`; the two differ. -/
theorem cjs_encode_truncates_length :
    CJS.encode base58 (List.replicate 4294967296 0) = .returns []
      ∧ encode base58 (List.replicate 4294967296 0) none none
          = .returns (List.replicate 4294967296 49)
      ∧ CJS.encode base58 (List.replicate 4294967296 0)
          ≠ encode base58 (List.replicate 4294967296 0) none none := by
  have hlen : u32 (List.replicate 4294967296 0).length = 0 := by
    rw [List.length_replicate]; decide
  have h1 := (cjs_encode_of_wrap base58 (List.replicate 4294967296 0) hlen).1
  have h2 := encode_zeros base58 4294967296
  have h49 : base58.baseMap.getD 0 0 = 49 := by decide
  rw [h49] at h2
  refine ⟨h1, h2, ?_⟩
  rw [h1, h2]
  intro h
  have h3 := congrArg List.length (Outcome.returns.inj h)
  rw [List.length_replicate, List.length_nil] at h3
  exact absurd h3 (by decide)

/-- Claim C23. The work buffer is never undersized: the buffer sizes are
`floor(m * log 256 / log 58) + 1` and `floor(m * log 58 / log 256) + 1` for the
`m` symbols after the leading-zero run; on a byte sequence neither encode
method, and on any string neither decode method of a constructed codec, runs
its carry loop below index 0; and every pass of the carry loops runs at most
`size` iterations, each at an index below `size`. -/
theorem work_buffer_never_undersized (arg : Option (List Nat)) (c : Codec)
    (hc : Codec.new arg = .ok c) (input : List Nat) (hb : ∀ x ∈ input, x < 256)
    (string : List Nat) (start stop : Option Int) :
    (∀ m : Nat, ((encSize m : Nat) : Int) = ⌊(m : ℝ) * (Real.log 256 / Real.log 58)⌋ + 1
        ∧ ((decSize m : Nat) : Int) = ⌊(m : ℝ) * (Real.log 58 / Real.log 256)⌋ + 1)
      ∧ (encodeTrace input start stop).1
          = encSize ((window input start stop).length - lead 0 (window input start stop))
      ∧ (decodeTrace c.alphabetLookup c.alphabet[0]? string start stop).1
          = decSize ((window string start stop).length
              - lead (c.alphabet.getD 0 0) (window string start stop))
      ∧ (decodeTrace c.baseMapLookup c.baseMap[0]? string start stop).1
          = decSize ((window string start stop).length
              - lead (c.alphabet.getD 0 0) (window string start stop))
      ∧ encodeToString c input start stop ≠ .overrun
      ∧ encode c input start stop ≠ .overrun
      ∧ decodeFromString c string start stop ≠ .overrun
      ∧ decode c string start stop ≠ .overrun
      ∧ (∀ pass ∈ (encodeTrace input start stop).2,
          pass.length ≤ (encodeTrace input start stop).1
            ∧ ∀ it ∈ pass, it.index < (encodeTrace input start stop).1)
      ∧ (∀ pass ∈ (decodeTrace c.alphabetLookup c.alphabet[0]? string start stop).2,
          pass.length ≤ (decodeTrace c.alphabetLookup c.alphabet[0]? string start stop).1
            ∧ ∀ it ∈ pass,
                it.index < (decodeTrace c.alphabetLookup c.alphabet[0]? string start stop).1)
      ∧ (∀ pass ∈ (decodeTrace c.baseMapLookup c.baseMap[0]? string start stop).2,
          pass.length ≤ (decodeTrace c.baseMapLookup c.baseMap[0]? string start stop).1
            ∧ ∀ it ∈ pass,
                it.index < (decodeTrace c.baseMapLookup c.baseMap[0]? string start stop).1) := by
  have hv := Codec.new_valid arg c hc
  obtain ⟨⟨s, hs⟩, ⟨b, hbytes⟩⟩ := encode_returns c input start stop hb
  obtain ⟨hd1, hd2⟩ := decode_ne_overrun hv string start stop
  refine ⟨fun m => ⟨encSize_eq_floor m, decSize_eq_floor m⟩, encodeTrace_size input start stop,
    ?_, ?_, ?_, ?_, hd1, hd2, encodeTrace_index input start stop,
    decodeTrace_index _ _ string start stop, decodeTrace_index _ _ string start stop⟩
  · rw [hv.getD_eq (by norm_num)]
    exact decodeTrace_size _ _ string start stop
  · rw [hv.baseMap_head]
    exact decodeTrace_size _ _ string start stop
  · rw [hs]; exact fun h => Outcome.noConfusion h
  · rw [hbytes]; exact fun h => Outcome.noConfusion h

/-- Witness of C23 on the bytes `[0, 255, 255]` and the string `1zz`. -/
theorem work_buffer_never_undersized_witness :
    (encodeTrace [0, 255, 255] none none).1 = 3
      ∧ encodeToString base58 [0, 255, 255] none none ≠ .overrun
      ∧ decodeFromString base58 (units "1zz") none none ≠ .overrun
      ∧ ∀ pass ∈ (encodeTrace [0, 255, 255] none none).2,
          pass.length ≤ (encodeTrace [0, 255, 255] none none).1
            ∧ ∀ it ∈ pass, it.index < (encodeTrace [0, 255, 255] none none).1 :=
  ⟨(work_buffer_never_undersized none base58 rfl [0, 255, 255] (by decide) (units "1zz")
      none none).2.1,
    (work_buffer_never_undersized none base58 rfl [0, 255, 255] (by decide) (units "1zz")
      none none).2.2.2.2.1,
    (work_buffer_never_undersized none base58 rfl [0, 255, 255] (by decide) (units "1zz")
      none none).2.2.2.2.2.2.1,
    (work_buffer_never_undersized none base58 rfl [0, 255, 255] (by decide) (units "1zz")
      none none).2.2.2.2.2.2.2.2.1⟩

/-- Claim C24. Lookup tables are mutually inverse: in a constructed codec, for
every digit value `i` below 58 the character `alphabet[i]` has the digit `i` in
`alphabetLookup`, `baseMap[i]` is its code, below 256, and that code has the
digit `i` in `baseMapLookup`; both lookups are undefined on everything that is
not in the alphabet. -/
theorem lookup_tables_inverse (arg : Option (List Nat)) (c : Codec)
    (hc : Codec.new arg = .ok c) :
    (∀ i, i < 58 → ∃ ch, c.alphabet[i]? = some ch ∧ c.alphabetLookup ch = some i
        ∧ c.baseMap[i]? = some ch ∧ ch < 256 ∧ c.baseMapLookup ch = some i)
      ∧ (∀ ch, ch ∉ c.alphabet → c.alphabetLookup ch = none ∧ c.baseMapLookup ch = none) := by
  have hv := Codec.new_valid arg c hc
  constructor
  · intro i hi
    have hmem := hv.getD_mem hi
    have hlook : c.alphabetLookup (c.alphabet.getD i 0) = some i := by
      rw [hv.lookup_mem _ hmem, hv.indexOf_getD hi]
    have hlt := ALPHABET_lt _ (hv.subset _ hmem)
    refine ⟨c.alphabet.getD i 0, hv.getD_eq hi, hlook, ?_, by omega, ?_⟩
    · rw [hv.baseMap_eq]; exact hv.getD_eq hi
    · rw [hv.baseMapLookup_eq]; exact hlook
  · intro ch hch
    refine ⟨hv.lookup_not_mem ch hch, ?_⟩
    rw [hv.baseMapLookup_eq]
    exact hv.lookup_not_mem ch hch

/-- Witness of C24 on the default codec: digit 57 and the character `0`. -/
theorem lookup_tables_inverse_witness :
    (∃ ch, base58.alphabet[57]? = some ch ∧ base58.alphabetLookup ch = some 57
        ∧ base58.baseMap[57]? = some ch ∧ ch < 256 ∧ base58.baseMapLookup ch = some 57)
      ∧ base58.alphabetLookup 48 = none ∧ base58.baseMapLookup 48 = none :=
  ⟨(lookup_tables_inverse none base58 rfl).1 57 (by decide),
    (lookup_tables_inverse none base58 rfl).2 48 (by decide)⟩

/-- Claim C25. No 32-bit overflow in the carry loops: at the start of every
iteration of the encode loop on a byte sequence the carry is at most 255 and
the stored digit at most 57, the sum `carry + (digit << 8)` is at most 14847,
and the stored value and the next carry are the exact remainder and quotient
by 58; at the start of every iteration of the decode loops of a constructed
codec the carry is at most 57 and the stored byte at most 255, the sum
`carry + byte * 58` is at most 14847, and the stored value and the next carry
are the exact remainder and quotient by 256; every stored value is below 256. -/
theorem carry_loops_no_overflow (arg : Option (List Nat)) (c : Codec)
    (hc : Codec.new arg = .ok c) (input : List Nat) (hb : ∀ x ∈ input, x < 256)
    (string : List Nat) (start stop : Option Int) :
    (∀ pass ∈ (encodeTrace input start stop).2, ∀ it ∈ pass,
        it.carry ≤ 255 ∧ it.element ≤ 57
          ∧ shl8 it.element = it.element * 256
          ∧ it.carry + shl8 it.element ≤ 14847
          ∧ u32 ((it.carry + shl8 it.element) % BASE) = (it.carry + it.element * 256) % 58
          ∧ u8 (u32 ((it.carry + shl8 it.element) % BASE))
              = (it.carry + it.element * 256) % 58
          ∧ (it.carry + it.element * 256) % 58 ≤ 57
          ∧ u32 ((it.carry + shl8 it.element) / BASE) = (it.carry + it.element * 256) / 58
          ∧ (it.carry + it.element * 256) / 58 ≤ 255)
      ∧ (∀ lookup zero, (lookup = c.alphabetLookup ∧ zero = c.alphabet[0]?)
            ∨ (lookup = c.baseMapLookup ∧ zero = c.baseMap[0]?) →
          ∀ pass ∈ (decodeTrace lookup zero string start stop).2, ∀ it ∈ pass,
            it.carry ≤ 57 ∧ it.element ≤ 255
              ∧ u32 (it.element * BASE) = it.element * 58
              ∧ it.carry + u32 (it.element * BASE) ≤ 14847
              ∧ and255 (it.carry + u32 (it.element * BASE))
                  = (it.carry + it.element * 58) % 256
              ∧ u8 (and255 (it.carry + u32 (it.element * BASE)))
                  = (it.carry + it.element * 58) % 256
              ∧ (it.carry + it.element * 58) % 256 ≤ 255
              ∧ sar8 (it.carry + u32 (it.element * BASE)) = (it.carry + it.element * 58) / 256
              ∧ (it.carry + it.element * 58) / 256 ≤ 57) := by
  have hv := Codec.new_valid arg c hc
  constructor
  · intro pass hp it hit
    obtain ⟨h1, h2⟩ := encodeTrace_bound input start stop hb pass hp it hit
    exact ⟨h1, h2, enc_step_exact it.carry it.element h1 h2⟩
  · intro lookup zero hlz pass hp it hit
    have hT : ∀ ch d, lookup ch = some d → d < 58 := by
      rcases hlz with ⟨h, _⟩ | ⟨h, _⟩
      · rw [h]; exact hv.lookup_lt
      · rw [h, hv.baseMapLookup_eq]; exact hv.lookup_lt
    obtain ⟨h1, h2⟩ := decodeTrace_bound lookup hT zero string start stop pass hp it hit
    exact ⟨h1, h2, dec_step_exact it.carry it.element h1 h2⟩

/-- Witness of C25 on the bytes `[255, 255]` and the string `zz`: the bounds at
the start of every iteration. -/
theorem carry_loops_no_overflow_witness :
    (∀ pass ∈ (encodeTrace [255, 255] none none).2, ∀ it ∈ pass,
        it.carry ≤ 255 ∧ it.element ≤ 57)
      ∧ ∀ pass ∈ (decodeTrace base58.alphabetLookup base58.alphabet[0]? (units "zz")
          none none).2, ∀ it ∈ pass, it.carry ≤ 57 ∧ it.element ≤ 255 :=
  ⟨fun pass hp it hit =>
      have h := (carry_loops_no_overflow none base58 rfl [255, 255] (by decide) (units "zz")
        none none).1 pass hp it hit
      ⟨h.1, h.2.1⟩,
    fun pass hp it hit =>
      have h := (carry_loops_no_overflow none base58 rfl [255, 255] (by decide) (units "zz")
        none none).2 base58.alphabetLookup base58.alphabet[0]? (Or.inl ⟨rfl, rfl⟩)
        pass hp it hit
      ⟨h.1, h.2.1⟩⟩

/-! ## Known values -/

/-- The published test vector: the UTF-8 bytes of `Hello World!` encode to
`2NEpo7TZRRrLZSi2U`, and back. -/
theorem hello_world_vector :
    encodeToString base58 (units "Hello World!") none none = .returns (units "2NEpo7TZRRrLZSi2U")
      ∧ decodeFromString base58 (units "2NEpo7TZRRrLZSi2U") none none
          = .returns (units "Hello World!") :=
  ⟨by decide, by decide⟩

/-- The machine operators on sample values, among them values with bit 31 set. -/
theorem machine_ops_samples :
    sar8 14847 = 57 ∧ and255 14847 = 255 ∧ toInt32 4294967295 = -1
      ∧ sar8 4294967295 = 4294967295 ∧ shl8 16777216 = 0
      ∧ encSize 0 = 1 ∧ encSize 2 = 3 ∧ decSize 3 = 3 :=
  ⟨by decide, by decide, by decide, by decide, by decide, by decide, by decide, by decide⟩

end Base58
